import Mathlib

/-!

A shallow embedding of `internal/web/nw.go` (the content router and the admin
controller) and `internal/storage/storage.go` (the storage node).

* Go maps are association lists with first-match lookup (`mapGet?`, `mapSet`,
  `mapDelete`).
* `uint64` tokens are natural numbers: the code only compares them.
* `hashStringToUint64` is SHA-256 truncated to eight bytes, a library function;
  every definition that hashes takes it as its first argument.
* `sort.Search` is the binary search of the Go standard library, with fuel.
* A run-time panic of the Go program is the outcome `Outcome.crash`.
* The disk of a storage node is the list of its regular files and the list of
  its directories. A path is the list of the elements of what `filepath.Join`
  returns, a library function that every definition touching the disk takes as
  an argument; `os.MkdirAll`, `os.Create`, `os.Remove` and `file.Write` act on
  that disk, and the environment can make each of them fail.
-/

namespace DVS

/-! ## Go maps -/

/-- Lookup `m[k]` with the comma-ok flag folded into the option. -/
def mapGet? {κ ν : Type} [DecidableEq κ] : List (κ × ν) → κ → Option ν
  | [], _ => none
  | (k', v) :: rest, k => if k' = k then some v else mapGet? rest k

/-- Assignment `m[k] = v`: overwrite the entry of `k`, or add one. -/
def mapSet {κ ν : Type} [DecidableEq κ] : List (κ × ν) → κ → ν → List (κ × ν)
  | [], k, v => [(k, v)]
  | (k', v') :: rest, k, v =>
    if k' = k then (k, v) :: rest else (k', v') :: mapSet rest k v

/-- Builtin `delete(m, k)`. -/
def mapDelete {κ ν : Type} [DecidableEq κ] (m : List (κ × ν)) (k : κ) : List (κ × ν) :=
  m.filter (fun p => decide (p.1 ≠ k))

/-- Keys of the map, in the order `range` happens to visit them. -/
def mapKeys {κ ν : Type} (m : List (κ × ν)) : List κ := m.map Prod.fst

/-! ## Outcomes -/

/-- Errors the router and the nodes hand back. -/
inductive Err where
  | nodeAlreadyExists
  | connectFailed
  | listVideosFailed
  | atLeastOne
  | nodeDoesNotExist
  | transport
  | openError
  | readError
  | uploadFailed
  deriving DecidableEq, Repr

/-- Result of a call: a value, a returned error, or a run-time panic. -/
inductive Outcome (α : Type) where
  | ok (a : α)
  | err (e : Err)
  | crash
  deriving DecidableEq, Repr

/-! ## The ring -/

/-- Handle `proto.StorageClient`: the connection dialled to `target`. -/
structure StorageClient where
  target : String
  deriving DecidableEq, Repr

/-- Ring state of `NetworkVideoContentService` (the mutex is not modelled). -/
structure NetworkVideoContentService where
  nodes : List (String × StorageClient)
  nodesHashes : List Nat
  hashToNode : List (Nat × String)
  deriving DecidableEq, Repr

/-- Loop of `sort.Search`: `i, j` are the bounds, `h` the midpoint. -/
def searchLoop (f : Nat → Bool) : Nat → Nat → Nat → Nat
  | 0, i, _ => i
  | fuel + 1, i, j =>
    if i < j then
      let h := (i + j) / 2
      if !f h then searchLoop f fuel (h + 1) j else searchLoop f fuel i h
    else i

/-- Binary search `sort.Search(n, f)`; `n` rounds of fuel are enough. -/
def sortSearch (n : Nat) (f : Nat → Bool) : Nat := searchLoop f n 0 n

/-- Insertion into an ascending list. -/
def insertAsc (x : Nat) : List Nat → List Nat
  | [] => [x]
  | y :: ys => if x ≤ y then x :: y :: ys else y :: insertAsc x ys

/-- Sorting `sort.Slice(nodesHashes, <)`: the ascending rearrangement. -/
def sortSlice : List Nat → List Nat
  | [] => []
  | x :: xs => insertAsc x (sortSlice xs)

/-- Function `inRangeExclusive(start, end, hash)`. -/
def inRangeExclusive (start stop hash : Nat) : Bool :=
  if start < stop then decide (hash > start) && decide (hash ≤ stop)
  else decide (hash > start) || decide (hash ≤ stop)

/-- Index the search of `getClientForKey` settles on, after the wrap. -/
def ownerIndex (hashes : List Nat) (hash : Nat) : Nat :=
  let idx := sortSearch hashes.length (fun i => decide (hashes.getD i 0 ≥ hash))
  if idx = hashes.length then 0 else idx

section Router

variable (hashStringToUint64 : String → Nat)

/-- Method `getClientForKey`: the client and the address of the owner of `key`.
Indexing an empty token list is a run-time panic. -/
def getClientForKey (n : NetworkVideoContentService) (key : String) :
    Outcome (Option StorageClient × String) :=
  let hash := hashStringToUint64 key
  let idx := ownerIndex n.nodesHashes hash
  match n.nodesHashes[idx]? with
  | none => Outcome.crash
  | some nodeHash =>
    let nodeAddr := (mapGet? n.hashToNode nodeHash).getD ""
    Outcome.ok (mapGet? n.nodes nodeAddr, nodeAddr)

end Router

/-! ## Reference functions for the proofs -/

/-- Number of leading tokens strictly below `h`. -/
def lowerBound : List Nat → Nat → Nat
  | [], _ => 0
  | t :: ts, h => if h ≤ t then 0 else lowerBound ts h + 1

/-- Token that owns hash `h`: the first token at or above `h`, else the first
token of the list. -/
def ownerToken (l : List Nat) (h : Nat) : Option Nat :=
  match l.find? (fun t => decide (h ≤ t)) with
  | some t => some t
  | none => l.head?

/-! ## The storage node (`internal/storage/storage.go`) -/

/-- Payload bytes. -/
abbrev Bytes := List (Fin 256)

/-- Place on the disk of a node: the elements of the cleaned path that
`filepath.Join` returns, counted from the directory the paths of the node start
from (the empty path). The path without its last element is `filepath.Dir` of
it, and the paths above it are its initial segments. -/
abbrev Path := List String

/-- Message `proto.FileChunk`. -/
structure FileChunk where
  videoId : String
  filename : String
  data : Bytes
  deriving DecidableEq, Repr

/-- State of a storage node, type `storage.Server`: the disk (the regular
files with their content, and the directories) and the in-memory index
`videoIndex`. -/
structure Server where
  files : List (Path × Bytes)
  dirs : List Path
  videoIndex : List (String × List String)
  deriving DecidableEq, Repr

/-- Constant `chunkSize` of `Write`, also the buffer size of `Download`. -/
def chunkSize : Nat := 1024 * 1024

/-- What the environment makes go wrong during one `Upload` call: nothing; the
stream breaks once `k` chunks went through (before the end of stream is seen);
the node finishes and the acknowledgement is lost; `os.MkdirAll` fails;
`os.Create` fails; `file.Write` fails on the chunk after `k` chunks. -/
inductive StreamFault where
  | none
  | cutAfter (k : Nat)
  | ackLost
  | mkdirFails
  | createFails
  | writeFails (k : Nat)
  deriving DecidableEq, Repr

/-- The failure still ahead once one more chunk went through. -/
def StreamFault.step : StreamFault → StreamFault
  | StreamFault.cutAfter k => StreamFault.cutAfter (k - 1)
  | StreamFault.writeFails k => StreamFault.writeFails (k - 1)
  | fault => fault

/-- Local variables of the `Upload` handler: the path of the open file and the
identifiers of the first chunk. -/
structure UploadLoop where
  file : Option Path
  videoId : String
  filename : String
  deriving DecidableEq, Repr

/-- Send loop of `Write`: the slices `data[start:end]`, one per round; `fuel`
bounds the rounds. -/
def splitChunks (videoId filename : String) (data : Bytes) : Nat → Nat → List FileChunk
  | 0, _ => []
  | fuel + 1, start =>
    if start < data.length then
      let stop := if start + chunkSize > data.length then data.length else start + chunkSize
      { videoId := videoId, filename := filename, data := (data.drop start).take (stop - start) } ::
        splitChunks videoId filename data fuel (start + chunkSize)
    else []

/-- Index update of `Upload` at end of stream: append `filename` unless found. -/
def recordUpload (videoIndex : List (String × List String)) (videoId filename : String) :
    List (String × List String) :=
  let current := (mapGet? videoIndex videoId).getD []
  if filename ∈ current then videoIndex else mapSet videoIndex videoId (current ++ [filename])

/-- Method `ListVideos`: the keys of the index. -/
def ListVideos (s : Server) : List String := mapKeys s.videoIndex

/-- Method `ListVideoFiles`: the list indexed for `videoId`, empty if unknown. -/
def ListVideoFiles (s : Server) (videoId : String) : List String :=
  (mapGet? s.videoIndex videoId).getD []

/-- Call `os.MkdirAll(dir)`: an error when a regular file is in the way,
otherwise `dir` and every directory above it that is missing are made. -/
def osMkdirAll (s : Server) (dir : Path) : Option Server :=
  if dir.inits.any (fun above => (mapGet? s.files above).isSome) then none
  else some { s with dirs := s.dirs ++ dir.inits.filter (fun above => decide (above ∉ s.dirs)) }

/-- Call `os.Create(path)`: an error on a directory and below a missing
directory, otherwise the file is there and empty. -/
def osCreate (s : Server) (path : Path) : Option Server :=
  if path ∈ s.dirs ∨ path.dropLast ∉ s.dirs then none
  else some { s with files := mapSet s.files path [] }

/-- Whether nothing lies below the directory `dir`. -/
def dirEmpty (s : Server) (dir : Path) : Bool :=
  s.files.all (fun entry => !(dir.isPrefixOf entry.1 && decide (entry.1 ≠ dir))) &&
    s.dirs.all (fun below => !(dir.isPrefixOf below && decide (below ≠ dir)))

/-- Call `os.Remove(path)`: a regular file is unlinked, a directory is removed
when it is empty, anything else is an error (`none`); `removeFails` are the
failures of the environment. -/
def osRemove (removeFails : Path → Bool) (s : Server) (path : Path) : Option Server :=
  if removeFails path then none
  else if (mapGet? s.files path).isSome then some { s with files := mapDelete s.files path }
  else if path ∈ s.dirs ∧ dirEmpty s path = true then
    some { s with dirs := s.dirs.filter (fun dir => decide (dir ≠ path)) }
  else none

/-- Call `file.Write(data)` on the file open at `path`: the bytes are appended,
unless the environment fails the write. -/
def writeChunk (fault : StreamFault) (s : Server) (path : Path) (data : Bytes) : Option Server :=
  if fault = StreamFault.writeFails 0 then none
  else some { s with files := mapSet s.files path ((mapGet? s.files path).getD [] ++ data) }

section Node

variable (filePath : String → String → Path)

/-- First round of the `Upload` loop, up to the open file: `os.MkdirAll` on the
directory of the path, then `os.Create`; `none` is the error return of the
handler. -/
def openUpload (fault : StreamFault) (s : Server) (chunk : FileChunk) : Server × Option Path :=
  if fault = StreamFault.mkdirFails then (s, none)
  else
    match osMkdirAll s (filePath chunk.videoId chunk.filename).dropLast with
    | none => (s, none)
    | some made =>
      if fault = StreamFault.createFails then (made, none)
      else
        match osCreate made (filePath chunk.videoId chunk.filename) with
        | none => (made, none)
        | some created => (created, some (filePath chunk.videoId chunk.filename))

/-- One round of the `Upload` loop after a chunk arrived: the first chunk
opens the file, every chunk is written to the open file; `none` is the error
return of the handler. -/
def uploadChunk (fault : StreamFault) (s : Server) (st : UploadLoop) (chunk : FileChunk) :
    Server × Option UploadLoop :=
  match st.file with
  | none =>
    match (openUpload filePath fault s chunk).2 with
    | none => ((openUpload filePath fault s chunk).1, none)
    | some path =>
      match writeChunk fault (openUpload filePath fault s chunk).1 path chunk.data with
      | none => ((openUpload filePath fault s chunk).1, none)
      | some written =>
        (written, some { file := some path, videoId := chunk.videoId, filename := chunk.filename })
  | some path =>
    match writeChunk fault s path chunk.data with
    | none => (s, none)
    | some written => (written, some st)

/-- Loop of `Upload` over the incoming stream; the end of the list is `io.EOF`.
An error return of the handler reaches the client as a failed upload. -/
def uploadLoop : Server → UploadLoop → List FileChunk → StreamFault → Server × Outcome Bool
  | s, st, [], fault =>
    if fault = StreamFault.cutAfter 0 then (s, Outcome.err Err.uploadFailed)
    else
      ({ s with videoIndex := recordUpload s.videoIndex st.videoId st.filename }, Outcome.ok true)
  | s, st, chunk :: rest, fault =>
    if fault = StreamFault.cutAfter 0 then (s, Outcome.err Err.uploadFailed)
    else
      match (uploadChunk filePath fault s st chunk).2 with
      | none => ((uploadChunk filePath fault s st chunk).1, Outcome.err Err.uploadFailed)
      | some next => uploadLoop (uploadChunk filePath fault s st chunk).1 next rest fault.step

/-- Method `Upload` as its client sees it. -/
def Upload (s : Server) (stream : List FileChunk) (fault : StreamFault) : Server × Outcome Bool :=
  let start : UploadLoop := { file := none, videoId := "", filename := "" }
  if fault = StreamFault.ackLost then
    ((uploadLoop filePath s start stream fault).1, Outcome.err Err.transport)
  else uploadLoop filePath s start stream fault

/-- Method `Download`: the file in chunks of at most `chunkSize` bytes; a read
error on a directory, an open error when nothing is at the path. -/
def Download (s : Server) (videoId filename : String) : Outcome (List FileChunk) :=
  match mapGet? s.files (filePath videoId filename) with
  | some content => Outcome.ok (splitChunks videoId filename content content.length 0)
  | none =>
    if filePath videoId filename ∈ s.dirs then Outcome.err Err.readError
    else Outcome.err Err.openError

/-- Removal loop of `DeleteFiles`: `os.Remove` on every requested name; the
second component is the map `successfullyDeleted`. -/
def removeLoop (removeFails : Path → Bool) (videoId : String) :
    List String → Server → List (String × Bool) → Server × List (String × Bool)
  | [], s, deleted => (s, deleted)
  | fname :: rest, s, deleted =>
    match osRemove removeFails s (filePath videoId fname) with
    | some removed => removeLoop removeFails videoId rest removed (mapSet deleted fname true)
    | none => removeLoop removeFails videoId rest s deleted

/-- Method `DeleteFiles`: the node afterwards and the `Success` flag. -/
def DeleteFiles (removeFails : Path → Bool) (s : Server) (videoId : String)
    (filenames : List String) : Server × Bool :=
  match mapGet? s.videoIndex videoId with
  | none => (s, false)
  | some currentFiles =>
    let removed := removeLoop filePath removeFails videoId filenames s []
    let remaining := currentFiles.filter (fun fname => !(mapGet? removed.2 fname).getD false)
    let videoIndex :=
      if remaining.length = 0 then mapDelete s.videoIndex videoId
      else mapSet s.videoIndex videoId remaining
    ({ removed.1 with videoIndex := videoIndex }, decide (removed.2.length = filenames.length))

end Node

/-- Constructor `NewServer`: the index starts empty, whatever the base
directory already holds. -/
def NewServer (files : List (Path × Bytes)) (dirs : List Path) : Server :=
  { files := files, dirs := dirs, videoIndex := [] }

/-- Identifiers the `Upload` handler holds at end of stream: those of the first
chunk, and the empty strings for a stream without chunks. -/
def uploadIds : List FileChunk → String × String
  | [] => ("", "")
  | chunk :: _ => (chunk.videoId, chunk.filename)

section NodeTraces

variable (filePath : String → String → Path)

/-- Requested names of `DeleteFiles`, in request order, each with the outcome
of its `os.Remove`. -/
def removeOutcomes (removeFails : Path → Bool) (videoId : String) :
    List String → Server → List (String × Bool)
  | [], _ => []
  | fname :: rest, s =>
    match osRemove removeFails s (filePath videoId fname) with
    | some removed => (fname, true) :: removeOutcomes removeFails videoId rest removed
    | none => (fname, false) :: removeOutcomes removeFails videoId rest s

/-- States a storage node reaches from `NewServer` by `Upload` streams (complete
or broken) and `DeleteFiles` calls. -/
inductive NodeReachable : Server → Prop where
  | init (files : List (Path × Bytes)) (dirs : List Path) : NodeReachable (NewServer files dirs)
  | upload (s : Server) (stream : List FileChunk) (fault : StreamFault) :
      NodeReachable s → NodeReachable (Upload filePath s stream fault).1
  | delete (s : Server) (removeFails : Path → Bool) (videoId : String)
      (filenames : List String) :
      NodeReachable s → NodeReachable (DeleteFiles filePath removeFails s videoId filenames).1

end NodeTraces

/-! ## The router and the admin controller (`internal/web/nw.go`) -/

/-- Failures of the environment, by call. -/
structure Faults where
  dial : String → Bool
  listVideos : String → Bool
  listVideoFiles : String → Bool
  download : String → String → Bool
  upload : String → String → StreamFault
  deleteFiles : String → Bool
  remove : Path → Bool

/-- Environment in which nothing fails. -/
def noFaults : Faults where
  dial := fun _ => false
  listVideos := fun _ => false
  listVideoFiles := fun _ => false
  download := fun _ _ => false
  upload := fun _ _ => StreamFault.none
  deleteFiles := fun _ => false
  remove := fun _ => false

/-- Environment in which every `os.Remove` fails and nothing else does. -/
def removeFails : Faults := { noFaults with remove := fun _ => true }

/-- Environment in which every `ListVideos` call fails and nothing else does. -/
def listVideosFails : Faults := { noFaults with listVideos := fun _ => true }

/-- Router together with the fleet of storage nodes, by address. -/
structure World where
  svc : NetworkVideoContentService
  servers : String → Server

/-- Replace the state of the node at `addr`. -/
def setServer (servers : String → Server) (addr : String) (s : Server) : String → Server :=
  fun a => if a = addr then s else servers a

/-- Lines the migration writes to the log. -/
inductive LogEvent where
  | migrated (videoId filename : String)
  | migrateFailed (videoId filename : String)
  | listFilesFailed (videoId : String)
  | deleteFailed (videoId : String)
  deriving DecidableEq, Repr

/-- Running state of a migration: the fleet, `migratedCount`, the log. -/
structure Migration where
  servers : String → Server
  count : Int
  log : List LogEvent

/-- What an admin call leaves behind and returns. -/
structure AdminResult where
  world : World
  log : List LogEvent
  result : Outcome Int

/-- Wrap-around of `int32`. -/
def int32 (x : Int) : Int := (x + 2147483648) % 4294967296 - 2147483648

/-- Test `strings.HasSuffix`. -/
def hasSuffix (s suffix : String) : Bool := suffix.data.isSuffixOf s.data

/-- Index of the first occurrence of `h`, the `range` loops with `break`. -/
def firstIndex : List Nat → Nat → Option Nat
  | [], _ => none
  | x :: xs, h => if x = h then some 0 else (firstIndex xs h).map (· + 1)

/-- Method `ListNodes`. -/
def ListNodes (svc : NetworkVideoContentService) : List String :=
  svc.nodesHashes.map (fun hash => (mapGet? svc.hashToNode hash).getD "")

section Admin

variable (hashStringToUint64 : String → Nat) (filePath : String → String → Path)

/-- Loop of `NewNetworkVideoContentService` over the addresses. -/
def newServiceLoop (dialFails : String → Bool) :
    List String → NetworkVideoContentService → Outcome NetworkVideoContentService
  | [], n => Outcome.ok n
  | addr :: rest, n =>
    if dialFails addr then Outcome.err Err.connectFailed
    else newServiceLoop dialFails rest
      { nodes := mapSet n.nodes addr { target := addr }
        hashToNode := mapSet n.hashToNode (hashStringToUint64 addr) addr
        nodesHashes := n.nodesHashes ++ [hashStringToUint64 addr] }

/-- Constructor `NewNetworkVideoContentService` (the admin listener is not modelled). -/
def NewNetworkVideoContentService (dialFails : String → Bool) (addresses : List String) :
    Outcome NetworkVideoContentService :=
  match newServiceLoop hashStringToUint64 dialFails addresses
      { nodes := [], nodesHashes := [], hashToNode := [] } with
  | Outcome.ok n => Outcome.ok { n with nodesHashes := sortSlice n.nodesHashes }
  | Outcome.err e => Outcome.err e
  | Outcome.crash => Outcome.crash

/-- Method `Read`. A nil client panics at the call. -/
def Read (w : World) (downloadFails : Bool) (videoId filename : String) : Outcome Bytes :=
  let key := videoId ++ "/" ++ filename
  match getClientForKey hashStringToUint64 w.svc key with
  | Outcome.crash => Outcome.crash
  | Outcome.err e => Outcome.err e
  | Outcome.ok (none, _) => Outcome.crash
  | Outcome.ok (some client, _) =>
    if downloadFails then Outcome.err Err.transport
    else
      match Download filePath (w.servers client.target) videoId filename with
      | Outcome.ok chunks => Outcome.ok (chunks.foldl (fun data chunk => data ++ chunk.data) [])
      | Outcome.err e => Outcome.err e
      | Outcome.crash => Outcome.crash

/-- Method `Write`: the world afterwards and the returned error, if any. -/
def Write (w : World) (fault : StreamFault) (videoId filename : String) (data : Bytes) :
    World × Outcome Unit :=
  if hasSuffix filename ".mp4" then (w, Outcome.ok ())
  else
    let key := videoId ++ "/" ++ filename
    match getClientForKey hashStringToUint64 w.svc key with
    | Outcome.crash => (w, Outcome.crash)
    | Outcome.err e => (w, Outcome.err e)
    | Outcome.ok (none, _) => (w, Outcome.crash)
    | Outcome.ok (some client, _) =>
      let sent := Upload filePath (w.servers client.target)
        (splitChunks videoId filename data data.length 0) fault
      ({ w with servers := setServer w.servers client.target sent.1 },
        match sent.2 with
        | Outcome.ok _ => Outcome.ok ()
        | Outcome.err e => Outcome.err e
        | Outcome.crash => Outcome.crash)

/-- Function `migrateFileSync`: download from `src`, pipe into an upload to
`dst`; a nil `dst` panics once the download stream is open. -/
def migrateFileSync (F : Faults) (servers : String → Server) (videoId filename : String)
    (src : String) (dst : Option String) : (String → Server) × Outcome Unit :=
  if F.download videoId filename then (servers, Outcome.err Err.transport)
  else
    match dst with
    | none => (servers, Outcome.crash)
    | some dst =>
      match Download filePath (servers src) videoId filename with
      | Outcome.ok chunks =>
        let sent := Upload filePath (servers dst) chunks (F.upload videoId filename)
        (setServer servers dst sent.1,
          match sent.2 with
          | Outcome.ok true => Outcome.ok ()
          | Outcome.ok false => Outcome.err Err.uploadFailed
          | Outcome.err e => Outcome.err e
          | Outcome.crash => Outcome.crash)
      | Outcome.err e => (servers, Outcome.err e)
      | Outcome.crash => (servers, Outcome.crash)

/-- Inner loop of `AddNode` over the filenames of `vid`; the second component
is `delFilenames`. -/
def addNodeFiles (F : Faults) (predHash newHash : Nat) (vid src dst : String) :
    List String → Migration × List String → Migration × List String
  | [], st => st
  | fname :: rest, (m, del) =>
    if inRangeExclusive predHash newHash (hashStringToUint64 (vid ++ "/" ++ fname)) then
      match migrateFileSync filePath F m.servers vid fname src (some dst) with
      | (servers, Outcome.ok _) =>
        addNodeFiles F predHash newHash vid src dst rest
          ({ servers := servers, count := int32 (m.count + 1),
             log := m.log ++ [LogEvent.migrated vid fname] }, del ++ [fname])
      | (servers, _) =>
        addNodeFiles F predHash newHash vid src dst rest
          ({ servers := servers, count := m.count,
             log := m.log ++ [LogEvent.migrateFailed vid fname] }, del)
    else addNodeFiles F predHash newHash vid src dst rest (m, del)

/-- Body of the outer loop of `AddNode` for one `vid`. -/
def addNodeVideo (F : Faults) (predHash newHash : Nat) (src dst : String) (m : Migration)
    (vid : String) : Migration :=
  if F.listVideoFiles vid then { m with log := m.log ++ [LogEvent.listFilesFailed vid] }
  else
    let done := addNodeFiles hashStringToUint64 filePath F predHash newHash vid src dst
      (ListVideoFiles (m.servers src) vid) (m, [])
    if done.2.length > 0 then
      if F.deleteFiles vid then
        { done.1 with log := done.1.log ++ [LogEvent.deleteFailed vid] }
      else
        { done.1 with
          servers := setServer done.1.servers src
            (DeleteFiles filePath F.remove (done.1.servers src) vid done.2).1 }
    else done.1

/-- Ring update of `AddNode`: both maps are set, the token is appended and
the token list is sorted again. -/
def addNodeRing (svc : NetworkVideoContentService) (newAddr : String) :
    NetworkVideoContentService :=
  { nodes := mapSet svc.nodes newAddr { target := newAddr }
    nodesHashes := sortSlice (svc.nodesHashes ++ [hashStringToUint64 newAddr])
    hashToNode := mapSet svc.hashToNode (hashStringToUint64 newAddr) newAddr }

/-- Token `predHash` that `AddNode` reads off the updated ring `svc`. -/
def addNodePredHash (svc : NetworkVideoContentService) (newHash : Nat) : Nat :=
  let newIndex := (firstIndex svc.nodesHashes newHash).getD 0
  let predIndex := if newIndex = 0 then svc.nodesHashes.length - 1 else newIndex - 1
  svc.nodesHashes.getD predIndex 0

/-- Token `succHash` that `AddNode` reads off the updated ring `svc`. -/
def addNodeSuccHash (svc : NetworkVideoContentService) (newHash : Nat) : Nat :=
  let newIndex := (firstIndex svc.nodesHashes newHash).getD 0
  let succIndex := (newIndex + 1) % svc.nodesHashes.length
  svc.nodesHashes.getD succIndex 0

/-- Address `succAddr` that `AddNode` reads off the updated ring `svc`. -/
def addNodeSuccAddr (svc : NetworkVideoContentService) (newHash : Nat) : String :=
  (mapGet? svc.hashToNode (addNodeSuccHash svc newHash)).getD ""

/-- Method `AddNode`. -/
def AddNode (F : Faults) (w : World) (newAddr : String) : AdminResult :=
  let newHash := hashStringToUint64 newAddr
  if (mapGet? w.svc.nodes newAddr).isSome then
    { world := w, log := [], result := Outcome.err Err.nodeAlreadyExists }
  else if F.dial newAddr then
    { world := w, log := [], result := Outcome.err Err.connectFailed }
  else
    let svc := addNodeRing hashStringToUint64 w.svc newAddr
    let predHash := addNodePredHash svc newHash
    let succAddr := addNodeSuccAddr svc newHash
    if svc.nodesHashes.length = 1 ∨ succAddr = newAddr then
      { world := { svc := svc, servers := w.servers }, log := [], result := Outcome.ok 0 }
    else
      match mapGet? svc.nodes succAddr with
      | none => { world := { svc := svc, servers := w.servers }, log := [], result := Outcome.crash }
      | some succClient =>
        if F.listVideos succClient.target then
          { world := { svc := svc, servers := w.servers }, log := [],
            result := Outcome.err Err.listVideosFailed }
        else
          let done := (ListVideos (w.servers succClient.target)).foldl
            (addNodeVideo hashStringToUint64 filePath F predHash newHash succClient.target newAddr)
            { servers := w.servers, count := 0, log := [] }
          { world := { svc := svc, servers := done.servers }, log := done.log,
            result := Outcome.ok done.count }

/-- Inner loop of `RemoveNode` over the filenames of `vid`; `none` is a panic. -/
def removeNodeFiles (F : Faults) (vid src : String) (dst : Option String) :
    List String → Migration → Option Migration
  | [], m => some m
  | fname :: rest, m =>
    match migrateFileSync filePath F m.servers vid fname src dst with
    | (_, Outcome.crash) => none
    | (servers, Outcome.ok _) =>
      removeNodeFiles F vid src dst rest
        { servers := servers, count := int32 (m.count + 1),
          log := m.log ++ [LogEvent.migrated vid fname] }
    | (servers, Outcome.err _) =>
      removeNodeFiles F vid src dst rest
        { servers := servers, count := m.count,
          log := m.log ++ [LogEvent.migrateFailed vid fname] }

/-- Outer loop of `RemoveNode` over the video ids; `none` is a panic. -/
def removeNodeVideos (F : Faults) (src : String) (dst : Option String) :
    List String → Migration → Option Migration
  | [], m => some m
  | vid :: rest, m =>
    if F.listVideoFiles vid then
      removeNodeVideos F src dst rest { m with log := m.log ++ [LogEvent.listFilesFailed vid] }
    else
      match removeNodeFiles filePath F vid src dst (ListVideoFiles (m.servers src) vid) m with
      | none => none
      | some m => removeNodeVideos F src dst rest m

/-- Token `succHash` of `RemoveNode`: the token after the first occurrence of
`removeHash`, with wrap; zero when the loop finds none. -/
def removeNodeSuccHash (svc : NetworkVideoContentService) (removeHash : Nat) : Nat :=
  match firstIndex svc.nodesHashes removeHash with
  | some i => svc.nodesHashes.getD ((i + 1) % svc.nodesHashes.length) 0
  | none => 0

/-- Address `succAddr` of `RemoveNode`. -/
def removeNodeSuccAddr (svc : NetworkVideoContentService) (removeHash : Nat) : String :=
  (mapGet? svc.hashToNode (removeNodeSuccHash svc removeHash)).getD ""

/-- Ring update of `RemoveNode`: both map entries deleted, the first
occurrence of the token cut out of the list. -/
def removeNodeRing (svc : NetworkVideoContentService) (removeAddr : String) :
    NetworkVideoContentService :=
  { nodes := mapDelete svc.nodes removeAddr
    nodesHashes :=
      match firstIndex svc.nodesHashes (hashStringToUint64 removeAddr) with
      | some i => svc.nodesHashes.take i ++ svc.nodesHashes.drop (i + 1)
      | none => svc.nodesHashes
    hashToNode := mapDelete svc.hashToNode (hashStringToUint64 removeAddr) }

/-- Method `RemoveNode`. -/
def RemoveNode (F : Faults) (w : World) (removeAddr : String) : AdminResult :=
  if w.svc.nodesHashes.length = 1 then
    { world := w, log := [], result := Outcome.err Err.atLeastOne }
  else
    let removeHash := hashStringToUint64 removeAddr
    match mapGet? w.svc.nodes removeAddr with
    | none => { world := w, log := [], result := Outcome.err Err.nodeDoesNotExist }
    | some client =>
      let succAddr := removeNodeSuccAddr w.svc removeHash
      let succClient := mapGet? w.svc.nodes succAddr
      if F.listVideos client.target then
        { world := w, log := [], result := Outcome.err Err.listVideosFailed }
      else
        match removeNodeVideos filePath F client.target (succClient.map (·.target))
            (ListVideos (w.servers client.target))
            { servers := w.servers, count := 0, log := [] } with
        | none => { world := w, log := [], result := Outcome.crash }
        | some done =>
          { world :=
              { svc := removeNodeRing hashStringToUint64 w.svc removeAddr
                servers := done.servers }
            log := done.log
            result := Outcome.ok done.count }

/-- Ring invariant: the tokens ascend strictly, every token has an entry in
`hashToNode`, every entry of `hashToNode` pairs an address in `nodes` with its
own token, and every entry of `nodes` is the client of its address and has its
token in `hashToNode`. -/
def WellFormed (svc : NetworkVideoContentService) : Prop :=
  svc.nodesHashes.Pairwise (· < ·) ∧
  (∀ t ∈ svc.nodesHashes, (mapGet? svc.hashToNode t).isSome) ∧
  (∀ p ∈ svc.hashToNode, p.1 ∈ svc.nodesHashes ∧ p.1 = hashStringToUint64 p.2 ∧
      (mapGet? svc.nodes p.2).isSome) ∧
  (∀ q ∈ svc.nodes, q.2.target = q.1 ∧
      mapGet? svc.hashToNode (hashStringToUint64 q.1) = some q.1)

instance (svc : NetworkVideoContentService) : Decidable (WellFormed hashStringToUint64 svc) := by
  unfold WellFormed
  infer_instance

/-- Ring conditions in the words of the specification: the tokens ascend
strictly, the keys of `hashToNode` are the tokens of the list, the keys of
`nodes` are the values of `hashToNode`, and every address in `nodes` is the
entry of its own token. -/
def RingAgrees (svc : NetworkVideoContentService) : Prop :=
  svc.nodesHashes.Pairwise (· < ·) ∧
  (∀ t, (mapGet? svc.hashToNode t).isSome = true ↔ t ∈ svc.nodesHashes) ∧
  (∀ a, (mapGet? svc.nodes a).isSome = true ↔ ∃ t, mapGet? svc.hashToNode t = some a) ∧
  (∀ a, (mapGet? svc.nodes a).isSome = true →
    mapGet? svc.hashToNode (hashStringToUint64 a) = some a)

/-- Every entry of `hashToNode` sits under the token of its address: an
address maps to exactly one token. -/
def TokensOwnHash (svc : NetworkVideoContentService) : Prop :=
  ∀ t a, mapGet? svc.hashToNode t = some a → t = hashStringToUint64 a

/-- Rings the router reaches: built by the constructor from at least one
address, as `main` calls it, then changed by `AddNode` and `RemoveNode` calls,
whatever fails and whatever the nodes hold. -/
inductive RingReachable : NetworkVideoContentService → Prop where
  | init (dialFails : String → Bool) (addresses : List String)
      (svc : NetworkVideoContentService) :
      addresses ≠ [] →
      NewNetworkVideoContentService hashStringToUint64 dialFails addresses = Outcome.ok svc →
      RingReachable svc
  | addNode (F : Faults) (w : World) (a : String) :
      RingReachable w.svc → RingReachable (AddNode hashStringToUint64 filePath F w a).world.svc
  | removeNode (F : Faults) (w : World) (a : String) :
      RingReachable w.svc → RingReachable (RemoveNode hashStringToUint64 filePath F w a).world.svc

end Admin

/-! ## A small concrete fleet -/

/-- Token table of the concrete instances below; any other string hashes to 0. -/
def demoHash (s : String) : Nat :=
  if s = "a:1" then 100
  else if s = "b:1" then 200
  else if s = "c:1" then 150
  else if s = "d:1" then 200
  else if s = "v/seg" then 120
  else 0

/-- Path function of the concrete instances, for names that hold no separator
and are not `.` or `..`: the base directory is `base` in the working directory
of the node (the empty path), and `filepath.Join` skips an empty element. -/
def demoPath (videoId filename : String) : Path :=
  ["base"] ++ (if videoId = "" then [] else [videoId]) ++
    (if filename = "" then [] else [filename])

/-- Ring with the single node `b:1`. -/
def ringB : NetworkVideoContentService :=
  { nodes := [("b:1", { target := "b:1" })], nodesHashes := [200], hashToNode := [(200, "b:1")] }

/-- Ring with the nodes `a:1` and `b:1`. -/
def ringAB : NetworkVideoContentService :=
  { nodes := [("a:1", { target := "a:1" }), ("b:1", { target := "b:1" })]
    nodesHashes := [100, 200]
    hashToNode := [(100, "a:1"), (200, "b:1")] }

/-- Ring the constructor builds from the address `a:1` given twice. -/
def ringAA : NetworkVideoContentService :=
  { nodes := [("a:1", { target := "a:1" })], nodesHashes := [100, 100]
    hashToNode := [(100, "a:1")] }

/-- Node with nothing on its disk: the base directory does not exist yet. -/
def emptyServer : Server := { files := [], dirs := [], videoIndex := [] }

/-- Node whose base directory exists and is empty. -/
def freshServer : Server := { files := [], dirs := [[], ["base"]], videoIndex := [] }

/-- Node that holds the files `s1` and `s2` of video `v`. -/
def serverTwo : Server :=
  { files := [(["base", "v", "s1"], [1]), (["base", "v", "s2"], [2])]
    dirs := [[], ["base"], ["base", "v"]]
    videoIndex := [("v", ["s1", "s2"])] }

/-- Fleet of empty nodes. -/
def emptyFleet : String → Server := fun _ => emptyServer

/-- Fleet in which `b:1` holds the file `seg` of video `v` with content `data`. -/
def fleetWithSeg (data : Bytes) : String → Server :=
  setServer emptyFleet "b:1"
    { files := [(["base", "v", "seg"], data)], dirs := [[], ["base"], ["base", "v"]]
      videoIndex := [("v", ["seg"])] }

/-! # Theorems -/

/-! ## Binary search -/

theorem searchLoop_spec (f : Nat → Bool) (n : Nat)
    (hmono : ∀ a b, a ≤ b → b < n → f a = true → f b = true) :
    ∀ fuel i j, i ≤ j → j ≤ n → j - i ≤ fuel →
      (∀ k, k < i → f k = false) → (j < n → f j = true) →
      i ≤ searchLoop f fuel i j ∧ searchLoop f fuel i j ≤ j ∧
      (∀ k, k < searchLoop f fuel i j → f k = false) ∧
      (searchLoop f fuel i j < n → f (searchLoop f fuel i j) = true) := by
  intro fuel
  induction fuel with
  | zero =>
    intro i j hij hjn hfuel hlo hhi
    have : i = j := by omega
    subst this
    simp only [searchLoop]
    exact ⟨le_refl _, le_refl _, hlo, hhi⟩
  | succ fuel ih =>
    intro i j hij hjn hfuel hlo hhi
    simp only [searchLoop]
    by_cases hlt : i < j
    · simp only [hlt, if_true]
      have hh1 : i ≤ (i + j) / 2 := by omega
      have hh2 : (i + j) / 2 < j := by omega
      cases hf : f ((i + j) / 2) with
      | false =>
        simp only [Bool.not_false, if_true]
        have hlo2 : ∀ k, k < (i + j) / 2 + 1 → f k = false := by
          intro k hk
          cases hk2 : f k with
          | false => rfl
          | true =>
            have := hmono k ((i + j) / 2) (by omega) (by omega) hk2
            rw [hf] at this
            exact absurd this (by simp)
        obtain ⟨h1, h2, h3, h4⟩ :=
          ih ((i + j) / 2 + 1) j (by omega) hjn (by omega) hlo2 hhi
        exact ⟨by omega, h2, h3, h4⟩
      | true =>
        simp only [Bool.not_true, Bool.false_eq_true, if_false]
        obtain ⟨h1, h2, h3, h4⟩ :=
          ih i ((i + j) / 2) hh1 (by omega) (by omega) hlo (fun _ => hf)
        exact ⟨h1, by omega, h3, h4⟩
    · simp only [hlt, if_false]
      have : i = j := by omega
      subst this
      exact ⟨le_refl _, le_refl _, hlo, hhi⟩

theorem sortSearch_spec (f : Nat → Bool) (n : Nat)
    (hmono : ∀ a b, a ≤ b → b < n → f a = true → f b = true) :
    sortSearch n f ≤ n ∧ (∀ k, k < sortSearch n f → f k = false) ∧
      (sortSearch n f < n → f (sortSearch n f) = true) := by
  obtain ⟨_, h2, h3, h4⟩ :=
    searchLoop_spec f n hmono n 0 n (Nat.zero_le _) (le_refl _) (by omega)
      (fun k hk => absurd hk (Nat.not_lt_zero k)) (fun h => absurd h (lt_irrefl _))
  exact ⟨h2, h3, h4⟩

/-- Fuel beyond the width of the interval does not change the result of the
search loop, whatever the predicate: `sort.Search` terminates within `n` rounds. -/
theorem searchLoop_fuel (f : Nat → Bool) :
    ∀ fuel fuel2 i j, j - i ≤ fuel → j - i ≤ fuel2 →
      searchLoop f fuel i j = searchLoop f fuel2 i j := by
  intro fuel
  induction fuel with
  | zero =>
    intro fuel2 i j h1 _
    cases fuel2 with
    | zero => rfl
    | succ k =>
      have : ¬ i < j := by omega
      simp [searchLoop, this]
  | succ fuel ih =>
    intro fuel2 i j h1 h2
    cases fuel2 with
    | zero =>
      have : ¬ i < j := by omega
      simp [searchLoop, this]
    | succ k =>
      simp only [searchLoop]
      by_cases hlt : i < j
      · simp only [hlt, if_true]
        cases f ((i + j) / 2) with
        | false =>
          simp only [Bool.not_false, if_true]
          exact ih k _ _ (by omega) (by omega)
        | true =>
          simp only [Bool.not_true, Bool.false_eq_true, if_false]
          exact ih k _ _ (by omega) (by omega)
      · simp only [hlt, if_false]

/-! ## The owner of a hash on an ascending ring -/

theorem lowerBound_le (l : List Nat) (h : Nat) : lowerBound l h ≤ l.length := by
  induction l with
  | nil => simp [lowerBound]
  | cons t ts ih =>
    simp only [lowerBound]
    split
    · exact Nat.zero_le _
    · simpa using ih

theorem lowerBound_unique (h : Nat) :
    ∀ (l : List Nat) (r : Nat), r ≤ l.length →
      (∀ k, k < r → decide (l.getD k 0 ≥ h) = false) →
      (r < l.length → decide (l.getD r 0 ≥ h) = true) → r = lowerBound l h := by
  intro l
  induction l with
  | nil =>
    intro r hr _ _
    simp only [List.length_nil, Nat.le_zero] at hr
    simp [lowerBound, hr]
  | cons t ts ih =>
    intro r hr hlo hhi
    simp only [lowerBound]
    by_cases ht : h ≤ t
    · simp only [ht, if_true]
      by_contra hne
      have := hlo 0 (Nat.pos_of_ne_zero hne)
      simp [ht] at this
    · simp only [ht, if_false]
      cases r with
      | zero =>
        have := hhi (by simp)
        simp at this
        exact absurd this ht
      | succ r =>
        have := ih r (by simpa using hr)
          (fun k hk => by simpa using hlo (k + 1) (by omega))
          (fun hk => by simpa using hhi (by simpa using hk))
        omega

theorem getD_mono_of_pairwise :
    ∀ (l : List Nat), l.Pairwise (· < ·) → ∀ a b, a ≤ b → b < l.length →
      l.getD a 0 ≤ l.getD b 0 := by
  intro l
  induction l with
  | nil => intro _ a b _ hb; simp at hb
  | cons t ts ih =>
    intro hp a b hab hb
    rw [List.pairwise_cons] at hp
    cases b with
    | zero =>
      have : a = 0 := by omega
      subst this
      exact le_refl _
    | succ b =>
      cases a with
      | zero =>
        simp only [List.getD_cons_zero, List.getD_cons_succ]
        have hb2 : b < ts.length := by simpa using hb
        have hmem : ts.getD b 0 ∈ ts := by
          rw [List.getD_eq_getElem ts 0 hb2]
          exact List.getElem_mem hb2
        exact Nat.le_of_lt (hp.1 _ hmem)
      | succ a =>
        simp only [List.getD_cons_succ]
        exact ih hp.2 a b (by omega) (by simpa using hb)

theorem sortSearch_eq_lowerBound (l : List Nat) (h : Nat) (hp : l.Pairwise (· < ·)) :
    sortSearch l.length (fun i => decide (l.getD i 0 ≥ h)) = lowerBound l h := by
  have hmono : ∀ a b, a ≤ b → b < l.length →
      (fun i => decide (l.getD i 0 ≥ h)) a = true →
      (fun i => decide (l.getD i 0 ≥ h)) b = true := by
    intro a b hab hb ha
    simp only [decide_eq_true_eq] at ha ⊢
    exact le_trans ha (getD_mono_of_pairwise l hp a b hab hb)
  obtain ⟨h1, h2, h3⟩ := sortSearch_spec _ l.length hmono
  exact lowerBound_unique h l _ h1 h2 h3

theorem getElem?_lowerBound (h : Nat) :
    ∀ l : List Nat, l[lowerBound l h]? = l.find? (fun t => decide (h ≤ t)) := by
  intro l
  induction l with
  | nil => simp [lowerBound]
  | cons t ts ih =>
    simp only [lowerBound, List.find?_cons]
    by_cases ht : h ≤ t
    · simp [ht]
    · simp [ht, ih]

theorem lowerBound_eq_length_iff (h : Nat) :
    ∀ l : List Nat, lowerBound l h = l.length ↔ l.find? (fun t => decide (h ≤ t)) = none := by
  intro l
  induction l with
  | nil => simp [lowerBound]
  | cons t ts ih =>
    simp only [lowerBound, List.find?_cons]
    by_cases ht : h ≤ t
    · simp [ht]
    · simp [ht, ih]

theorem getElem?_ownerIndex (l : List Nat) (h : Nat) (hp : l.Pairwise (· < ·)) :
    l[ownerIndex l h]? = ownerToken l h := by
  unfold ownerIndex ownerToken
  simp only [sortSearch_eq_lowerBound l h hp]
  by_cases hlen : lowerBound l h = l.length
  · have hnone := (lowerBound_eq_length_iff h l).1 hlen
    simp only [hlen, if_true, hnone]
    cases l <;> simp
  · simp only [hlen, if_false, getElem?_lowerBound]
    have hne : l.find? (fun t => decide (h ≤ t)) ≠ none :=
      fun hn => hlen ((lowerBound_eq_length_iff h l).2 hn)
    cases hf : l.find? (fun t => decide (h ≤ t)) with
    | none => exact absurd hf hne
    | some t => rfl

theorem find?_ge_least (h : Nat) :
    ∀ (l : List Nat), l.Pairwise (· < ·) → ∀ t, l.find? (fun t => decide (h ≤ t)) = some t →
      t ∈ l ∧ h ≤ t ∧ ∀ u ∈ l, h ≤ u → t ≤ u := by
  intro l
  induction l with
  | nil => intro _ t ht; simp at ht
  | cons x xs ih =>
    intro hp t ht
    rw [List.pairwise_cons] at hp
    simp only [List.find?_cons] at ht
    by_cases hx : h ≤ x
    · simp only [hx, decide_True] at ht
      cases ht
      refine ⟨List.mem_cons_self _ _, hx, ?_⟩
      intro u hu _
      rcases List.mem_cons.1 hu with rfl | hu
      · exact le_refl _
      · exact Nat.le_of_lt (hp.1 u hu)
    · simp only [hx, decide_False] at ht
      obtain ⟨h1, h2, h3⟩ := ih hp.2 t ht
      refine ⟨List.mem_cons_of_mem _ h1, h2, ?_⟩
      intro u hu hge
      rcases List.mem_cons.1 hu with rfl | hu
      · exact absurd hge hx
      · exact h3 u hu hge

theorem head?_least :
    ∀ (l : List Nat), l.Pairwise (· < ·) → ∀ t, l.head? = some t →
      t ∈ l ∧ ∀ u ∈ l, t ≤ u := by
  intro l hp t ht
  cases l with
  | nil => simp at ht
  | cons x xs =>
    simp only [List.head?_cons, Option.some.injEq] at ht
    subst ht
    rw [List.pairwise_cons] at hp
    refine ⟨List.mem_cons_self _ _, ?_⟩
    intro u hu
    rcases List.mem_cons.1 hu with rfl | hu
    · exact le_refl _
    · exact Nat.le_of_lt (hp.1 u hu)

/-! ## Claims -/

/-- C1: on a non-empty ring with strictly ascending tokens and an address for
every token, `getClientForKey k` returns the address of the smallest token at or
above the hash of `k`, or of the smallest token when no token is that large. -/
theorem getClientForKey_smallest_ge_with_wrap (hashStringToUint64 : String → Nat)
    (n : NetworkVideoContentService) (k : String)
    (hne : n.nodesHashes ≠ [])
    (hasc : n.nodesHashes.Pairwise (· < ·))
    (hmap : ∀ t ∈ n.nodesHashes, (mapGet? n.hashToNode t).isSome = true) :
    ∃ t a, t ∈ n.nodesHashes ∧ mapGet? n.hashToNode t = some a ∧
      getClientForKey hashStringToUint64 n k = Outcome.ok (mapGet? n.nodes a, a) ∧
      ((hashStringToUint64 k ≤ t ∧
          ∀ u ∈ n.nodesHashes, hashStringToUint64 k ≤ u → t ≤ u) ∨
        ((∀ u ∈ n.nodesHashes, u < hashStringToUint64 k) ∧
          ∀ u ∈ n.nodesHashes, t ≤ u)) := by
  have hidx := getElem?_ownerIndex n.nodesHashes (hashStringToUint64 k) hasc
  unfold getClientForKey
  simp only [hidx]
  unfold ownerToken
  cases hf : n.nodesHashes.find? (fun t => decide (hashStringToUint64 k ≤ t)) with
  | some t =>
    obtain ⟨h1, h2, h3⟩ := find?_ge_least _ _ hasc t hf
    obtain ⟨a, ha⟩ := Option.isSome_iff_exists.1 (hmap t h1)
    exact ⟨t, a, h1, ha, by simp [ha], Or.inl ⟨h2, h3⟩⟩
  | none =>
    cases hh : n.nodesHashes.head? with
    | none =>
      rw [List.head?_eq_none_iff] at hh
      exact absurd hh hne
    | some t =>
      obtain ⟨h1, h2⟩ := head?_least _ hasc t hh
      obtain ⟨a, ha⟩ := Option.isSome_iff_exists.1 (hmap t h1)
      refine ⟨t, a, h1, ha, by simp [ha], Or.inr ⟨?_, h2⟩⟩
      intro u hu
      have := List.find?_eq_none.1 hf u hu
      simpa using this

/-- C2 as stated fails: the degenerate arc contains a point other than its end. -/
theorem inRangeExclusive_degenerate_contains_other :
    inRangeExclusive 5 5 7 = true ∧ (7 : Nat) ≠ 5 := by
  decide

/-- C2, amended: with start equal to end, `inRangeExclusive s s x` is true for
every `x`: the degenerate arc is the whole ring. -/
theorem inRangeExclusive_degenerate_whole_ring (s x : Nat) :
    inRangeExclusive s s x = true := by
  unfold inRangeExclusive
  simp only [lt_irrefl, if_false, Bool.or_eq_true, decide_eq_true_eq]
  omega

theorem ownerIndex_singleton (t h : Nat) : ownerIndex [t] h = 0 := by
  unfold ownerIndex sortSearch
  simp only [List.length_singleton, searchLoop]
  by_cases ht : h ≤ t <;> simp [ht]

/-- C3, failing input: on the one-node ring with an empty node, `Write` of the
empty payload under a name that is not `.mp4` reports success, creates no file
and indexes the pair of empty strings; the `Read` that follows is an error. -/
theorem write_empty_then_read_fails (hashStringToUint64 : String → Nat)
    (filePath : String → String → Path) :
    (Write hashStringToUint64 filePath { svc := ringB, servers := emptyFleet }
        StreamFault.none "v" "seg" []).2 = Outcome.ok () ∧
      (Write hashStringToUint64 filePath { svc := ringB, servers := emptyFleet }
        StreamFault.none "v" "seg" []).1.servers "b:1" =
          { files := [], dirs := [], videoIndex := [("", [""])] } ∧
      Read hashStringToUint64 filePath
        (Write hashStringToUint64 filePath { svc := ringB, servers := emptyFleet }
          StreamFault.none "v" "seg" []).1 false "v" "seg" = Outcome.err Err.openError := by
  have hs : hasSuffix "seg" ".mp4" = false := by decide
  simp [Write, Read, hs, getClientForKey, ringB, ownerIndex_singleton, mapGet?, Upload,
    uploadLoop, splitChunks, setServer, emptyFleet, emptyServer, recordUpload, mapSet, Download]

/-- C7, failing input: the constructor called with the same address twice
keeps the token twice, so `ListNodes` returns the address twice and the tokens
of consecutive entries are equal, not ascending. -/
theorem newService_duplicate_address (hashStringToUint64 : String → Nat) :
    ∃ svc, NewNetworkVideoContentService hashStringToUint64 (fun _ => false) ["a:1", "a:1"] =
        Outcome.ok svc ∧
      svc.nodesHashes = [hashStringToUint64 "a:1", hashStringToUint64 "a:1"] ∧
      ListNodes svc = ["a:1", "a:1"] := by
  refine ⟨{ nodes := [("a:1", { target := "a:1" })],
            nodesHashes := [hashStringToUint64 "a:1", hashStringToUint64 "a:1"],
            hashToNode := [(hashStringToUint64 "a:1", "a:1")] }, ?_, rfl, ?_⟩
  · simp [NewNetworkVideoContentService, newServiceLoop, mapSet, sortSlice, insertAsc]
  · simp [ListNodes, mapGet?]

/-! ## Maps, sorting, first index -/

theorem mapGet?_mapSet_self {κ ν : Type} [DecidableEq κ] (m : List (κ × ν)) (k : κ) (v : ν) :
    mapGet? (mapSet m k v) k = some v := by
  induction m with
  | nil => simp [mapSet, mapGet?]
  | cons p rest ih =>
    obtain ⟨k', v'⟩ := p
    by_cases hk : k' = k
    · simp [mapSet, mapGet?, hk]
    · simp [mapSet, mapGet?, hk, ih]

theorem mapGet?_mapSet_ne {κ ν : Type} [DecidableEq κ] (m : List (κ × ν)) (k k' : κ) (v : ν)
    (hne : k' ≠ k) : mapGet? (mapSet m k v) k' = mapGet? m k' := by
  induction m with
  | nil => simp [mapSet, mapGet?, Ne.symm hne]
  | cons p rest ih =>
    obtain ⟨k0, v0⟩ := p
    by_cases hk : k0 = k
    · subst hk
      simp [mapSet, mapGet?, Ne.symm hne]
    · by_cases hk' : k0 = k'
      · subst hk'
        simp [mapSet, mapGet?, hk]
      · simp [mapSet, mapGet?, hk, hk', ih]

theorem mapGet?_mapDelete_self {κ ν : Type} [DecidableEq κ] (m : List (κ × ν)) (k : κ) :
    mapGet? (mapDelete m k) k = none := by
  induction m with
  | nil => simp [mapDelete, mapGet?]
  | cons p rest ih =>
    obtain ⟨k0, v0⟩ := p
    by_cases hk : k0 = k
    · simpa [mapDelete, List.filter_cons, hk] using ih
    · simpa [mapDelete, List.filter_cons, hk, mapGet?] using ih

theorem mapGet?_mapDelete_ne {κ ν : Type} [DecidableEq κ] (m : List (κ × ν)) (k k' : κ)
    (hne : k' ≠ k) : mapGet? (mapDelete m k) k' = mapGet? m k' := by
  induction m with
  | nil => simp [mapDelete, mapGet?]
  | cons p rest ih =>
    obtain ⟨k0, v0⟩ := p
    by_cases hk : k0 = k
    · subst hk
      simpa [mapDelete, List.filter_cons, mapGet?, Ne.symm hne] using ih
    · by_cases hk' : k0 = k'
      · subst hk'
        simp [mapDelete, List.filter_cons, hk, mapGet?]
      · simpa [mapDelete, List.filter_cons, hk, mapGet?, hk'] using ih

theorem mem_of_mapGet? {κ ν : Type} [DecidableEq κ] (m : List (κ × ν)) (k : κ) (v : ν)
    (h : mapGet? m k = some v) : (k, v) ∈ m := by
  induction m with
  | nil => simp [mapGet?] at h
  | cons p rest ih =>
    obtain ⟨k0, v0⟩ := p
    by_cases hk : k0 = k
    · simp only [mapGet?, hk, if_true, Option.some.injEq] at h
      simp [hk, h]
    · simp only [mapGet?, hk, if_false] at h
      exact List.mem_cons_of_mem _ (ih h)

theorem insertAsc_eq (x : Nat) (l : List Nat) :
    insertAsc x l = List.orderedInsert (· ≤ ·) x l := by
  induction l with
  | nil => rfl
  | cons y ys ih =>
    by_cases hxy : x ≤ y
    · simp [insertAsc, List.orderedInsert, hxy]
    · simp [insertAsc, List.orderedInsert, hxy, ih]

theorem sortSlice_eq (l : List Nat) : sortSlice l = List.insertionSort (· ≤ ·) l := by
  induction l with
  | nil => rfl
  | cons x xs ih => simp [sortSlice, List.insertionSort, ih, insertAsc_eq]

theorem sortSlice_perm (l : List Nat) : (sortSlice l).Perm l := by
  rw [sortSlice_eq]
  exact List.perm_insertionSort _ l

theorem sortSlice_sorted (l : List Nat) : (sortSlice l).Pairwise (· ≤ ·) := by
  rw [sortSlice_eq]
  exact List.sorted_insertionSort _ l

theorem firstIndex_of_mem (t : Nat) :
    ∀ l : List Nat, t ∈ l → ∃ i, firstIndex l t = some i ∧ i < l.length ∧ l.getD i 0 = t := by
  intro l
  induction l with
  | nil => intro h; simp at h
  | cons x xs ih =>
    intro h
    by_cases hx : x = t
    · exact ⟨0, by simp [firstIndex, hx], by simp, by simp [hx]⟩
    · have hmem : t ∈ xs := by
        rcases List.mem_cons.1 h with h | h
        · exact absurd h.symm hx
        · exact h
      obtain ⟨i, hi, hlt, hget⟩ := ih hmem
      exact ⟨i + 1, by simp [firstIndex, hx, hi], by simpa using hlt, by simpa using hget⟩

theorem getD_succ_firstIndex_of_dup (t : Nat) :
    ∀ (l : List Nat) (i : Nat), l.Pairwise (· ≤ ·) → firstIndex l t = some i →
      2 ≤ l.count t → i + 1 < l.length ∧ l.getD (i + 1) 0 = t := by
  intro l
  induction l with
  | nil => intro i _ hi; simp [firstIndex] at hi
  | cons x xs ih =>
    intro i hs hi hc
    rw [List.pairwise_cons] at hs
    by_cases hx : x = t
    · subst hx
      simp only [firstIndex, if_true, Option.some.injEq] at hi
      subst hi
      have hc1 : 1 ≤ xs.count x := by
        simp only [List.count_cons_self] at hc
        omega
      have hmem : x ∈ xs := List.count_pos_iff.1 hc1
      cases xs with
      | nil => simp at hmem
      | cons y ys =>
        have hxy : x ≤ y := hs.1 y (List.mem_cons_self _ _)
        have hyx : y ≤ x := by
          rcases List.mem_cons.1 hmem with h | h
          · exact le_of_eq h.symm
          · exact (List.pairwise_cons.1 hs.2).1 x h
        exact ⟨by simp, by simp; omega⟩
    · simp only [firstIndex, hx, if_false, Option.map_eq_some'] at hi
      obtain ⟨j, hj, hji⟩ := hi
      subst hji
      have hc2 : 2 ≤ xs.count t := by
        rwa [List.count_cons_of_ne (Ne.symm hx)] at hc
      obtain ⟨h1, h2⟩ := ih j hs.2 hj hc2
      exact ⟨by simpa using h1, by simpa using h2⟩

/-- C5 as stated fails: `d:1` is not in the ring and its token is the token of
`b:1`, yet `AddNode` returns success, the token list holds the token twice and
the entry of the token is overwritten. -/
theorem addNode_collision_not_rejected :
    mapGet? ringB.nodes "d:1" = none ∧
      demoHash "d:1" = demoHash "b:1" ∧ (mapGet? ringB.nodes "b:1").isSome = true ∧
      (AddNode demoHash demoPath noFaults { svc := ringB, servers := emptyFleet } "d:1").result =
        Outcome.ok 0 ∧
      (AddNode demoHash demoPath noFaults
        { svc := ringB, servers := emptyFleet } "d:1").world.svc.nodesHashes = [200, 200] ∧
      mapGet? ringB.hashToNode 200 = some "b:1" ∧
      mapGet? (AddNode demoHash demoPath noFaults
        { svc := ringB, servers := emptyFleet } "d:1").world.svc.hashToNode 200 = some "d:1" := by
  decide

/-- C5, amended: when the token of a new address `a` is already in the token
list and the dial succeeds, `AddNode a` returns success with zero migrated
files and touches no node; the token list then holds the token once more than
before and the entry of the token in `hashToNode` is `a`. -/
theorem addNode_collision_accepted (hashStringToUint64 : String → Nat)
    (filePath : String → String → Path) (F : Faults) (w : World) (a : String)
    (habsent : mapGet? w.svc.nodes a = none) (hdial : F.dial a = false)
    (hcoll : hashStringToUint64 a ∈ w.svc.nodesHashes) :
    (AddNode hashStringToUint64 filePath F w a).result = Outcome.ok 0 ∧
      (AddNode hashStringToUint64 filePath F w a).world.servers = w.servers ∧
      (AddNode hashStringToUint64 filePath F w a).world.svc.nodesHashes.count
          (hashStringToUint64 a) = w.svc.nodesHashes.count (hashStringToUint64 a) + 1 ∧
      mapGet? (AddNode hashStringToUint64 filePath F w a).world.svc.hashToNode
          (hashStringToUint64 a) = some a := by
  have hcount : (sortSlice (w.svc.nodesHashes ++ [hashStringToUint64 a])).count
      (hashStringToUint64 a) = w.svc.nodesHashes.count (hashStringToUint64 a) + 1 := by
    rw [(sortSlice_perm _).count_eq]
    simp
  have hpos : 1 ≤ w.svc.nodesHashes.count (hashStringToUint64 a) :=
    List.count_pos_iff.2 hcoll
  have hmem : hashStringToUint64 a ∈ sortSlice (w.svc.nodesHashes ++ [hashStringToUint64 a]) :=
    (sortSlice_perm _).mem_iff.2 (by simp)
  obtain ⟨i, hi, hlt, _⟩ := firstIndex_of_mem _ _ hmem
  obtain ⟨h1, h2⟩ := getD_succ_firstIndex_of_dup _ _ i (sortSlice_sorted _) hi (by omega)
  have hsucc : addNodeSuccAddr (addNodeRing hashStringToUint64 w.svc a)
      (hashStringToUint64 a) = a := by
    simp only [addNodeSuccAddr, addNodeSuccHash, addNodeRing, hi, Option.getD_some,
      Nat.mod_eq_of_lt h1, h2, mapGet?_mapSet_self]
  simp only [AddNode, habsent, hdial, hsucc]
  simp
  exact ⟨hcount, mapGet?_mapSet_self _ _ _⟩

theorem addNode_collision_accepted_witness :
    (AddNode demoHash demoPath noFaults { svc := ringB, servers := emptyFleet } "d:1").result =
        Outcome.ok 0 ∧
      (AddNode demoHash demoPath noFaults
        { svc := ringB, servers := emptyFleet } "d:1").world.servers = emptyFleet ∧
      (AddNode demoHash demoPath noFaults
          { svc := ringB, servers := emptyFleet } "d:1").world.svc.nodesHashes.count
          (demoHash "d:1") = ringB.nodesHashes.count (demoHash "d:1") + 1 ∧
      mapGet? (AddNode demoHash demoPath noFaults
          { svc := ringB, servers := emptyFleet } "d:1").world.svc.hashToNode
          (demoHash "d:1") = some "d:1" :=
  addNode_collision_accepted demoHash demoPath noFaults
    { svc := ringB, servers := emptyFleet } "d:1" (by decide) (by decide) (by decide)

/-! ## Owner of a hash after a token leaves -/

theorem firstIndex_split (t : Nat) :
    ∀ (l : List Nat) (i : Nat), firstIndex l t = some i →
      l = l.take i ++ t :: l.drop (i + 1) ∧ (l.take i).length = i := by
  intro l
  induction l with
  | nil => intro i hi; simp [firstIndex] at hi
  | cons x xs ih =>
    intro i hi
    by_cases hx : x = t
    · simp only [firstIndex, hx, if_true, Option.some.injEq] at hi
      subst hi
      simp [hx]
    · simp only [firstIndex, hx, if_false, Option.map_eq_some'] at hi
      obtain ⟨j, hj, hji⟩ := hi
      subst hji
      obtain ⟨h1, h2⟩ := ih j hj
      refine ⟨?_, by simpa using h2⟩
      simp only [List.take_succ_cons, List.drop_succ_cons, List.cons_append]
      rw [← h1]

theorem ownerToken_mem (l : List Nat) (h u : Nat) (hu : ownerToken l h = some u) : u ∈ l := by
  unfold ownerToken at hu
  cases hf : l.find? (fun t => decide (h ≤ t)) with
  | some x =>
    rw [hf] at hu
    simp only [Option.some.injEq] at hu
    subst hu
    exact List.mem_of_find?_eq_some hf
  | none =>
    rw [hf] at hu
    exact List.mem_of_mem_head? hu

theorem ownerToken_isSome (l : List Nat) (h : Nat) (hne : l ≠ []) :
    ∃ u, ownerToken l h = some u := by
  unfold ownerToken
  cases hf : l.find? (fun t => decide (h ≤ t)) with
  | some x => exact ⟨x, rfl⟩
  | none =>
    cases l with
    | nil => exact absurd rfl hne
    | cons x xs => exact ⟨x, rfl⟩

theorem find?_eq_none_of_lt (h : Nat) (A : List Nat) (hA : ∀ x ∈ A, x < h) :
    A.find? (fun t => decide (h ≤ t)) = none := by
  rw [List.find?_eq_none]
  intro x hx
  have := hA x hx
  simp only [decide_eq_true_eq]
  omega

/-- Owner of `h` once the token `t` is cut out of an ascending list: the
cyclic successor of `t` when `t` owned `h`, the former owner otherwise. -/
theorem ownerToken_remove (A B : List Nat) (t h : Nat) (hA : ∀ x ∈ A, x < t)
    (hB : ∀ y ∈ B, t < y) (hne : A ++ B ≠ []) :
    ownerToken (A ++ B) h =
      if ownerToken (A ++ t :: B) h = some t then
        some ((A ++ t :: B).getD ((A.length + 1) % (A ++ t :: B).length) 0)
      else ownerToken (A ++ t :: B) h := by
  unfold ownerToken
  simp only [List.find?_append, List.find?_cons]
  cases hfA : A.find? (fun x => decide (h ≤ x)) with
  | some u =>
    have huA : u ∈ A := List.mem_of_find?_eq_some hfA
    have hut : u ≠ t := Nat.ne_of_lt (hA u huA)
    simp [hut]
  | none =>
    simp only [Option.none_or]
    by_cases hp : h ≤ t
    · simp only [hp, decide_True, if_true]
      cases B with
      | nil =>
        cases A with
        | nil => exact absurd rfl hne
        | cons a A' => simp
      | cons b B' =>
        have hb : h ≤ b := le_trans hp (Nat.le_of_lt (hB b (List.mem_cons_self _ _)))
        have hlt : A.length + 1 < (A ++ t :: b :: B').length := by simp
        have hget : (A ++ t :: b :: B').getD (A.length + 1) 0 = b := by
          rw [List.getD_eq_getElem?_getD, List.getElem?_append_right (by omega)]
          simp
        rw [Nat.mod_eq_of_lt hlt, hget]
        simp [hb]
    · simp only [hp, decide_False]
      cases hfB : B.find? (fun x => decide (h ≤ x)) with
      | some u =>
        have huB : u ∈ B := List.mem_of_find?_eq_some hfB
        have hut : u ≠ t := Nat.ne_of_gt (hB u huB)
        simp [hut]
      | none =>
        cases A with
        | nil =>
          cases B with
          | nil => exact absurd rfl hne
          | cons b B' => simp
        | cons a A' =>
          have hat : a ≠ t := Nat.ne_of_lt (hA a (List.mem_cons_self _ _))
          simp [hat]

theorem getClientForKey_eq (hashStringToUint64 : String → Nat)
    (n : NetworkVideoContentService) (k : String) (hasc : n.nodesHashes.Pairwise (· < ·)) :
    getClientForKey hashStringToUint64 n k =
      match ownerToken n.nodesHashes (hashStringToUint64 k) with
      | none => Outcome.crash
      | some t =>
        Outcome.ok (mapGet? n.nodes ((mapGet? n.hashToNode t).getD ""),
          (mapGet? n.hashToNode t).getD "") := by
  unfold getClientForKey
  simp only [getElem?_ownerIndex _ _ hasc]

theorem pairwise_lt_split (A B : List Nat) (t : Nat) (h : (A ++ t :: B).Pairwise (· < ·)) :
    (∀ x ∈ A, x < t) ∧ (∀ y ∈ B, t < y) ∧ (A ++ B).Pairwise (· < ·) ∧ t ∉ A ++ B := by
  rw [List.pairwise_append] at h
  obtain ⟨hA, htB, hAB⟩ := h
  rw [List.pairwise_cons] at htB
  refine ⟨fun x hx => hAB x hx t (List.mem_cons_self _ _), htB.1, ?_, ?_⟩
  · rw [List.pairwise_append]
    exact ⟨hA, htB.2, fun x hx y hy => hAB x hx y (List.mem_cons_of_mem _ hy)⟩
  · intro hmem
    rcases List.mem_append.1 hmem with hm | hm
    · exact absurd (hAB t hm t (List.mem_cons_self _ _)) (lt_irrefl _)
    · exact absurd (htB.1 t hm) (lt_irrefl _)

theorem removeNode_ok_ring (hashStringToUint64 : String → Nat)
    (filePath : String → String → Path) (F : Faults) (w : World) (a : String) (c : Int)
    (hok : (RemoveNode hashStringToUint64 filePath F w a).result = Outcome.ok c) :
    (RemoveNode hashStringToUint64 filePath F w a).world.svc =
      removeNodeRing hashStringToUint64 w.svc a := by
  unfold RemoveNode at hok ⊢
  by_cases hlen : w.svc.nodesHashes.length = 1
  · simp [hlen] at hok
  · simp only [hlen, if_false] at hok ⊢
    cases hn : mapGet? w.svc.nodes a with
    | none => simp [hn] at hok
    | some client =>
      simp only [hn] at hok ⊢
      by_cases hl : F.listVideos client.target = true
      · simp [hl] at hok
      · simp only [hl] at hok ⊢
        cases hm : removeNodeVideos filePath F client.target
            (Option.map (fun x => x.target) (mapGet? w.svc.nodes
              (removeNodeSuccAddr w.svc (hashStringToUint64 a))))
            (ListVideos (w.servers client.target))
            { servers := w.servers, count := 0, log := [] } with
        | none => simp [hm] at hok
        | some done => simp

theorem wellFormed_lookup (hashStringToUint64 : String → Nat) (svc : NetworkVideoContentService)
    (hwf : WellFormed hashStringToUint64 svc) (x : Nat) (hx : x ∈ svc.nodesHashes) :
    ∃ ax, mapGet? svc.hashToNode x = some ax ∧ x = hashStringToUint64 ax := by
  obtain ⟨_, htok, hent, _⟩ := hwf
  have hsome := htok x hx
  cases hg : mapGet? svc.hashToNode x with
  | none => simp [hg] at hsome
  | some ax => exact ⟨ax, rfl, (hent _ (mem_of_mapGet? _ _ _ hg)).2.1⟩

theorem wellFormed_member (hashStringToUint64 : String → Nat) (svc : NetworkVideoContentService)
    (hwf : WellFormed hashStringToUint64 svc) (a : String)
    (hin : (mapGet? svc.nodes a).isSome = true) :
    mapGet? svc.hashToNode (hashStringToUint64 a) = some a ∧
      hashStringToUint64 a ∈ svc.nodesHashes := by
  obtain ⟨_, _, hent, hnodes⟩ := hwf
  cases hg : mapGet? svc.nodes a with
  | none => simp [hg] at hin
  | some client =>
    have h1 := (hnodes _ (mem_of_mapGet? _ _ _ hg)).2
    exact ⟨h1, (hent _ (mem_of_mapGet? _ _ _ h1)).1⟩

/-- C8: on a well-formed ring with at least two tokens, after `RemoveNode a`
returned successfully `a` is not in `ListNodes`, and for every key the owner is
not `a`: it is the successor `RemoveNode` computed in the ring before the
removal when `a` owned the key, and the former owner otherwise. -/
theorem removeNode_reroutes (hashStringToUint64 : String → Nat)
    (filePath : String → String → Path) (F : Faults) (w : World) (a : String) (c : Int)
    (hwf : WellFormed hashStringToUint64 w.svc) (hlen : 2 ≤ w.svc.nodesHashes.length)
    (hin : (mapGet? w.svc.nodes a).isSome = true)
    (hok : (RemoveNode hashStringToUint64 filePath F w a).result = Outcome.ok c) :
    a ∉ ListNodes (RemoveNode hashStringToUint64 filePath F w a).world.svc ∧
      ∀ k, ∃ o o',
        getClientForKey hashStringToUint64 w.svc k = Outcome.ok (mapGet? w.svc.nodes o, o) ∧
        getClientForKey hashStringToUint64
            (RemoveNode hashStringToUint64 filePath F w a).world.svc k =
          Outcome.ok
            (mapGet? (RemoveNode hashStringToUint64 filePath F w a).world.svc.nodes o', o') ∧
        o' ≠ a ∧
        (o = a → o' = removeNodeSuccAddr w.svc (hashStringToUint64 a)) ∧
        (o ≠ a → o' = o) := by
  rw [removeNode_ok_ring hashStringToUint64 filePath F w a c hok]
  obtain ⟨hHa, hmem⟩ := wellFormed_member hashStringToUint64 w.svc hwf a hin
  have hasc : w.svc.nodesHashes.Pairwise (· < ·) := hwf.1
  obtain ⟨i, hi, _, _⟩ := firstIndex_of_mem _ _ hmem
  obtain ⟨hsplit, hlenA⟩ := firstIndex_split _ _ i hi
  have hasc2 : (w.svc.nodesHashes.take i ++
      hashStringToUint64 a :: w.svc.nodesHashes.drop (i + 1)).Pairwise (· < ·) := by
    rw [← hsplit]; exact hasc
  obtain ⟨hA, hB, hAB, hnot⟩ := pairwise_lt_split _ _ _ hasc2
  have hring : (removeNodeRing hashStringToUint64 w.svc a).nodesHashes =
      w.svc.nodesHashes.take i ++ w.svc.nodesHashes.drop (i + 1) := by
    simp [removeNodeRing, hi]
  have hsub : ∀ x ∈ w.svc.nodesHashes.take i ++ w.svc.nodesHashes.drop (i + 1),
      x ∈ w.svc.nodesHashes ∧ x ≠ hashStringToUint64 a := by
    intro x hx
    refine ⟨?_, fun h => hnot (h ▸ hx)⟩
    rcases List.mem_append.1 hx with h | h
    · exact List.mem_of_mem_take h
    · exact List.mem_of_mem_drop h
  have hne : w.svc.nodesHashes.take i ++ w.svc.nodesHashes.drop (i + 1) ≠ [] := by
    intro h
    have h2 := congrArg List.length h
    simp only [List.length_append, List.length_take, List.length_drop, List.length_nil] at h2
    omega
  have hlook : ∀ x ∈ w.svc.nodesHashes.take i ++ w.svc.nodesHashes.drop (i + 1),
      ∃ ax, mapGet? (removeNodeRing hashStringToUint64 w.svc a).hashToNode x = some ax ∧
        mapGet? w.svc.hashToNode x = some ax ∧ x = hashStringToUint64 ax ∧ ax ≠ a := by
    intro x hx
    obtain ⟨hx1, hx2⟩ := hsub x hx
    obtain ⟨ax, h1, h2⟩ := wellFormed_lookup hashStringToUint64 w.svc hwf x hx1
    refine ⟨ax, ?_, h1, h2, ?_⟩
    · simp only [removeNodeRing]
      rw [mapGet?_mapDelete_ne _ _ _ hx2]
      exact h1
    · intro h
      exact hx2 (h ▸ h2)
  refine ⟨?_, ?_⟩
  · simp only [ListNodes, hring, List.mem_map, not_exists, not_and]
    intro x hx
    obtain ⟨ax, h1, _, _, h4⟩ := hlook x hx
    simp [h1, h4]
  · intro k
    have hnonempty : w.svc.nodesHashes ≠ [] := by
      intro h
      rw [h] at hlen
      simp at hlen
    obtain ⟨u, hu⟩ := ownerToken_isSome w.svc.nodesHashes (hashStringToUint64 k) hnonempty
    have humem := ownerToken_mem _ _ _ hu
    obtain ⟨o, ho1, ho2⟩ := wellFormed_lookup hashStringToUint64 w.svc hwf u humem
    have hrem := ownerToken_remove (w.svc.nodesHashes.take i) (w.svc.nodesHashes.drop (i + 1))
      (hashStringToUint64 a) (hashStringToUint64 k) hA hB hne
    rw [← hsplit, hlenA, hu] at hrem
    obtain ⟨u', hu'⟩ := ownerToken_isSome _ (hashStringToUint64 k) hne
    have hu'mem := ownerToken_mem _ _ _ hu'
    obtain ⟨o', ho'1, ho'2, ho'3, ho'4⟩ := hlook u' hu'mem
    refine ⟨o, o', ?_, ?_, ho'4, ?_, ?_⟩
    · rw [getClientForKey_eq hashStringToUint64 _ _ hasc, hu]
      simp [ho1]
    · rw [getClientForKey_eq hashStringToUint64 _ _ (by rw [hring]; exact hAB), hring, hu']
      simp [ho'1]
    · intro hoa
      have hut : u = hashStringToUint64 a := by rw [ho2, hoa]
      rw [hu'] at hrem
      simp only [hut, if_true, Option.some.injEq] at hrem
      simp only [removeNodeSuccAddr, removeNodeSuccHash, hi, ← hrem, ho'2, Option.getD_some]
    · intro hoa
      have hut : u ≠ hashStringToUint64 a := by
        intro h
        rw [h, hHa] at ho1
        exact hoa (Option.some.inj ho1).symm
      rw [hu'] at hrem
      simp only [Option.some.injEq, hut, if_false] at hrem
      rw [hrem, ho1] at ho'2
      exact (Option.some.inj ho'2).symm

theorem removeNode_reroutes_witness :
    "b:1" ∉ ListNodes (RemoveNode demoHash demoPath noFaults
          { svc := ringAB, servers := fleetWithSeg [1] } "b:1").world.svc ∧
      ∀ k, ∃ o o',
        getClientForKey demoHash ringAB k = Outcome.ok (mapGet? ringAB.nodes o, o) ∧
        getClientForKey demoHash
            (RemoveNode demoHash demoPath noFaults
              { svc := ringAB, servers := fleetWithSeg [1] } "b:1").world.svc k =
          Outcome.ok
            (mapGet? (RemoveNode demoHash demoPath noFaults
              { svc := ringAB, servers := fleetWithSeg [1] } "b:1").world.svc.nodes o', o') ∧
        o' ≠ "b:1" ∧
        (o = "b:1" → o' = removeNodeSuccAddr ringAB (demoHash "b:1")) ∧
        (o ≠ "b:1" → o' = o) :=
  removeNode_reroutes demoHash demoPath noFaults
    { svc := ringAB, servers := fleetWithSeg [1] } "b:1" 1 (by decide) (by decide) (by decide)
    (by decide)

/-! ## The node index under `Upload` and `DeleteFiles` -/

theorem recordUpload_mem_self (idx : List (String × List String)) (v f : String) :
    f ∈ (mapGet? (recordUpload idx v f) v).getD [] := by
  unfold recordUpload
  by_cases h : f ∈ (mapGet? idx v).getD []
  · simp only [h, if_true]
  · simp only [h, if_false, mapGet?_mapSet_self, Option.getD_some]
    simp

theorem recordUpload_mono (idx : List (String × List String)) (v f v' g : String)
    (hg : g ∈ (mapGet? idx v').getD []) : g ∈ (mapGet? (recordUpload idx v f) v').getD [] := by
  unfold recordUpload
  by_cases h : f ∈ (mapGet? idx v).getD []
  · simpa only [h, if_true] using hg
  · simp only [h, if_false]
    by_cases hv : v' = v
    · subst hv
      simp only [mapGet?_mapSet_self, Option.getD_some]
      exact List.mem_append_left _ hg
    · rw [mapGet?_mapSet_ne _ _ _ _ hv]
      exact hg

theorem osMkdirAll_frame (s made : Server) (dir : Path) (h : osMkdirAll s dir = some made) :
    made.files = s.files ∧ made.videoIndex = s.videoIndex := by
  unfold osMkdirAll at h
  split at h
  · exact absurd h (by simp)
  · simp only [Option.some.injEq] at h
    subst h
    exact ⟨rfl, rfl⟩

theorem osCreate_frame (s created : Server) (path : Path) (h : osCreate s path = some created) :
    created.files = mapSet s.files path [] ∧ created.dirs = s.dirs ∧
      created.videoIndex = s.videoIndex := by
  unfold osCreate at h
  split at h
  · exact absurd h (by simp)
  · simp only [Option.some.injEq] at h
    subst h
    exact ⟨rfl, rfl, rfl⟩

theorem writeChunk_frame (fault : StreamFault) (s written : Server) (path : Path) (data : Bytes)
    (h : writeChunk fault s path data = some written) :
    written.files = mapSet s.files path ((mapGet? s.files path).getD [] ++ data) ∧
      written.dirs = s.dirs ∧ written.videoIndex = s.videoIndex := by
  unfold writeChunk at h
  split at h
  · exact absurd h (by simp)
  · simp only [Option.some.injEq] at h
    subst h
    exact ⟨rfl, rfl, rfl⟩

theorem osRemove_frame (removeFails : Path → Bool) (s removed : Server) (path : Path)
    (h : osRemove removeFails s path = some removed) :
    removed.videoIndex = s.videoIndex ∧
      (removed.files = mapDelete s.files path ∨ removed.files = s.files) := by
  unfold osRemove at h
  split at h
  · exact absurd h (by simp)
  · split at h
    · simp only [Option.some.injEq] at h
      subst h
      exact ⟨rfl, Or.inl rfl⟩
    · split at h
      · simp only [Option.some.injEq] at h
        subst h
        exact ⟨rfl, Or.inr rfl⟩
      · exact absurd h (by simp)

theorem openUpload_videoIndex (filePath : String → String → Path) (fault : StreamFault)
    (s : Server) (c : FileChunk) :
    (openUpload filePath fault s c).1.videoIndex = s.videoIndex := by
  unfold openUpload
  split
  · rfl
  · cases hm : osMkdirAll s (filePath c.videoId c.filename).dropLast with
    | none => rfl
    | some made =>
      have hmade := (osMkdirAll_frame _ _ _ hm).2
      simp only
      split
      · exact hmade
      · cases hc : osCreate made (filePath c.videoId c.filename) with
        | none => exact hmade
        | some created =>
          simp only
          rw [(osCreate_frame _ _ _ hc).2.2, hmade]

theorem openUpload_path (filePath : String → String → Path) (fault : StreamFault)
    (s : Server) (c : FileChunk) (path : Path)
    (h : (openUpload filePath fault s c).2 = some path) :
    path = filePath c.videoId c.filename := by
  unfold openUpload at h
  split at h
  · exact absurd h (by simp)
  · cases hm : osMkdirAll s (filePath c.videoId c.filename).dropLast with
    | none => simp [hm] at h
    | some made =>
      simp only [hm] at h
      split at h
      · exact absurd h (by simp)
      · cases hc : osCreate made (filePath c.videoId c.filename) with
        | none => simp [hc] at h
        | some created =>
          simp only [hc, Option.some.injEq] at h
          exact h.symm

theorem uploadChunk_videoIndex (filePath : String → String → Path) (fault : StreamFault)
    (s : Server) (st : UploadLoop) (c : FileChunk) :
    (uploadChunk filePath fault s st c).1.videoIndex = s.videoIndex := by
  unfold uploadChunk
  cases st.file with
  | none =>
    simp only
    cases ho : (openUpload filePath fault s c).2 with
    | none => exact openUpload_videoIndex filePath fault s c
    | some path =>
      simp only
      cases hw : writeChunk fault (openUpload filePath fault s c).1 path c.data with
      | none => exact openUpload_videoIndex filePath fault s c
      | some written =>
        simp only
        rw [(writeChunk_frame _ _ _ _ _ hw).2.2]
        exact openUpload_videoIndex filePath fault s c
  | some path =>
    simp only
    cases hw : writeChunk fault s path c.data with
    | none => rfl
    | some written => exact (writeChunk_frame _ _ _ _ _ hw).2.2

theorem uploadChunk_started (filePath : String → String → Path) (fault : StreamFault)
    (s : Server) (st next : UploadLoop) (c : FileChunk) (p : Path) (hp : st.file = some p)
    (h : (uploadChunk filePath fault s st c).2 = some next) : next = st := by
  unfold uploadChunk at h
  simp only [hp] at h
  cases hw : writeChunk fault s p c.data with
  | none => simp [hw] at h
  | some written =>
    simp only [hw, Option.some.injEq] at h
    exact h.symm

theorem uploadChunk_first (filePath : String → String → Path) (fault : StreamFault)
    (s : Server) (st next : UploadLoop) (c : FileChunk) (hp : st.file = none)
    (h : (uploadChunk filePath fault s st c).2 = some next) :
    next = { file := some (filePath c.videoId c.filename), videoId := c.videoId,
             filename := c.filename } := by
  unfold uploadChunk at h
  simp only [hp] at h
  cases ho : (openUpload filePath fault s c).2 with
  | none => simp [ho] at h
  | some path =>
    simp only [ho] at h
    cases hw : writeChunk fault (openUpload filePath fault s c).1 path c.data with
    | none => simp [hw] at h
    | some written =>
      simp only [hw, Option.some.injEq] at h
      rw [← h, openUpload_path filePath fault s c path ho]

theorem mapGet?_recordUpload (idx : List (String × List String)) (v f v' : String) :
    mapGet? (recordUpload idx v f) v' =
      if v' = v then
        (if f ∈ (mapGet? idx v).getD [] then mapGet? idx v
          else some ((mapGet? idx v).getD [] ++ [f]))
      else mapGet? idx v' := by
  unfold recordUpload
  by_cases hf : f ∈ (mapGet? idx v).getD []
  · by_cases hv : v' = v
    · simp [hf, hv]
    · simp [hf, hv]
  · by_cases hv : v' = v
    · subst hv
      simp [hf, mapGet?_mapSet_self]
    · simp [hf, hv, mapGet?_mapSet_ne _ _ _ _ hv]

theorem uploadLoop_started_index (filePath : String → String → Path) :
    ∀ (chunks : List FileChunk) (s : Server) (st : UploadLoop) (fault : StreamFault) (p : Path),
      st.file = some p →
      ((uploadLoop filePath s st chunks fault).1.videoIndex = s.videoIndex ∧
          (uploadLoop filePath s st chunks fault).2 = Outcome.err Err.uploadFailed) ∨
        ((uploadLoop filePath s st chunks fault).1.videoIndex =
            recordUpload s.videoIndex st.videoId st.filename ∧
          (uploadLoop filePath s st chunks fault).2 = Outcome.ok true) := by
  intro chunks
  induction chunks with
  | nil =>
    intro s st fault p _
    simp only [uploadLoop]
    split
    · exact Or.inl ⟨rfl, rfl⟩
    · exact Or.inr ⟨rfl, rfl⟩
  | cons c cs ih =>
    intro s st fault p hp
    simp only [uploadLoop]
    split
    · exact Or.inl ⟨rfl, rfl⟩
    · cases hn : (uploadChunk filePath fault s st c).2 with
      | none => exact Or.inl ⟨uploadChunk_videoIndex filePath fault s st c, rfl⟩
      | some next =>
        have hnext := uploadChunk_started filePath fault s st next c p hp hn
        subst hnext
        simpa only [uploadChunk_videoIndex] using
          ih (uploadChunk filePath fault s next c).1 next fault.step p hp

theorem uploadLoop_index (filePath : String → String → Path) (s : Server)
    (stream : List FileChunk) (fault : StreamFault) :
    ((uploadLoop filePath s { file := none, videoId := "", filename := "" } stream
          fault).1.videoIndex = s.videoIndex ∧
        (uploadLoop filePath s { file := none, videoId := "", filename := "" } stream fault).2 =
          Outcome.err Err.uploadFailed) ∨
      ((uploadLoop filePath s { file := none, videoId := "", filename := "" } stream
          fault).1.videoIndex =
          recordUpload s.videoIndex (uploadIds stream).1 (uploadIds stream).2 ∧
        (uploadLoop filePath s { file := none, videoId := "", filename := "" } stream fault).2 =
          Outcome.ok true) := by
  cases stream with
  | nil =>
    simp only [uploadLoop]
    split
    · exact Or.inl ⟨rfl, rfl⟩
    · exact Or.inr ⟨rfl, rfl⟩
  | cons c cs =>
    simp only [uploadLoop, uploadIds]
    split
    · exact Or.inl ⟨rfl, rfl⟩
    · cases hn : (uploadChunk filePath fault s
          { file := none, videoId := "", filename := "" } c).2 with
      | none => exact Or.inl ⟨uploadChunk_videoIndex filePath fault s _ c, rfl⟩
      | some next =>
        have hnext := uploadChunk_first filePath fault s _ next c rfl hn
        have h := uploadLoop_started_index filePath cs
          (uploadChunk filePath fault s { file := none, videoId := "", filename := "" } c).1
          next fault.step (filePath c.videoId c.filename) (by rw [hnext])
        simp only [uploadChunk_videoIndex] at h
        rw [hnext] at h ⊢
        exact h

/-- Index after `Upload`: the old index when the upload did not complete, the
old index with the pair recorded when the node saw the end of the stream. -/
theorem upload_videoIndex_cases (filePath : String → String → Path) (s : Server)
    (stream : List FileChunk) (fault : StreamFault) :
    (Upload filePath s stream fault).1.videoIndex = s.videoIndex ∨
      (Upload filePath s stream fault).1.videoIndex =
        recordUpload s.videoIndex (uploadIds stream).1 (uploadIds stream).2 := by
  unfold Upload
  simp only
  split
  · rcases uploadLoop_index filePath s stream fault with h | h
    · exact Or.inl h.1
    · exact Or.inr h.1
  · rcases uploadLoop_index filePath s stream fault with h | h
    · exact Or.inl h.1
    · exact Or.inr h.1

theorem upload_ok_videoIndex (filePath : String → String → Path) (s : Server)
    (stream : List FileChunk) (fault : StreamFault) (b : Bool)
    (hok : (Upload filePath s stream fault).2 = Outcome.ok b) :
    (Upload filePath s stream fault).1.videoIndex =
      recordUpload s.videoIndex (uploadIds stream).1 (uploadIds stream).2 := by
  unfold Upload at hok ⊢
  simp only at hok ⊢
  split at hok
  · exact absurd hok (by simp)
  · rename_i hne
    simp only [hne, if_false]
    rcases uploadLoop_index filePath s stream fault with h | h
    · rw [h.2] at hok
      exact absurd hok (by simp)
    · exact h.1

theorem upload_index_mono (filePath : String → String → Path) (s : Server)
    (stream : List FileChunk) (fault : StreamFault) (v' g : String)
    (hg : g ∈ ListVideoFiles s v') :
    g ∈ ListVideoFiles (Upload filePath s stream fault).1 v' := by
  unfold ListVideoFiles at hg ⊢
  rcases upload_videoIndex_cases filePath s stream fault with h | h
  · rw [h]; exact hg
  · rw [h]; exact recordUpload_mono _ _ _ _ _ hg

theorem upload_ok_indexes_first (filePath : String → String → Path) (s : Server)
    (c : FileChunk) (cs : List FileChunk) (fault : StreamFault) (b : Bool)
    (hok : (Upload filePath s (c :: cs) fault).2 = Outcome.ok b) :
    c.filename ∈ ListVideoFiles (Upload filePath s (c :: cs) fault).1 c.videoId := by
  unfold ListVideoFiles
  rw [upload_ok_videoIndex filePath s (c :: cs) fault b hok]
  exact recordUpload_mem_self _ _ _

theorem splitChunks_of_ne_nil (v f : String) (data : Bytes) (hne : data ≠ []) :
    ∃ c cs, splitChunks v f data data.length 0 = c :: cs ∧ c.videoId = v ∧ c.filename = f := by
  cases data with
  | nil => exact absurd rfl hne
  | cons x xs =>
    simp only [List.length_cons, splitChunks]
    simp

theorem setServer_same (servers : String → Server) (addr : String) (s : Server) :
    setServer servers addr s addr = s := by
  simp [setServer]

theorem setServer_ne (servers : String → Server) (addr x : String) (s : Server)
    (hne : x ≠ addr) : setServer servers addr s x = servers x := by
  simp [setServer, hne]

section DeleteIndex

variable (filePath : String → String → Path) (removeFails : Path → Bool)

theorem removeLoop_videoIndex (videoId : String) :
    ∀ (names : List String) (s : Server) (deleted : List (String × Bool)),
      (removeLoop filePath removeFails videoId names s deleted).1.videoIndex = s.videoIndex := by
  intro names
  induction names with
  | nil => intro s deleted; rfl
  | cons n rest ih =>
    intro s deleted
    simp only [removeLoop]
    cases hr : osRemove removeFails s (filePath videoId n) with
    | none => exact ih s deleted
    | some removed =>
      simp only
      rw [ih, (osRemove_frame _ _ _ _ hr).1]

theorem removeLoop_files (videoId : String) (p : Path) :
    ∀ (names : List String) (s : Server) (deleted : List (String × Bool)),
      mapGet? (removeLoop filePath removeFails videoId names s deleted).1.files p =
          mapGet? s.files p ∨
        mapGet? (removeLoop filePath removeFails videoId names s deleted).1.files p = none := by
  intro names
  induction names with
  | nil => intro s deleted; exact Or.inl rfl
  | cons n rest ih =>
    intro s deleted
    simp only [removeLoop]
    cases hr : osRemove removeFails s (filePath videoId n) with
    | none => exact ih s deleted
    | some removed =>
      simp only
      rcases ih removed (mapSet deleted n true) with h1 | h1
      · rcases (osRemove_frame _ _ _ _ hr).2 with h2 | h2
        · by_cases hp : p = filePath videoId n
          · right
            rw [h1, h2, hp, mapGet?_mapDelete_self]
          · left
            rw [h1, h2, mapGet?_mapDelete_ne _ _ _ hp]
        · left
          rw [h1, h2]
      · exact Or.inr h1

theorem removeLoop_deleted_iff (videoId g : String) :
    ∀ (names : List String) (s : Server) (deleted : List (String × Bool)),
      (mapGet? (removeLoop filePath removeFails videoId names s deleted).2 g).getD false =
          true ↔
        (g, true) ∈ removeOutcomes filePath removeFails videoId names s ∨
          (mapGet? deleted g).getD false = true := by
  intro names
  induction names with
  | nil => intro s deleted; simp [removeLoop, removeOutcomes]
  | cons n rest ih =>
    intro s deleted
    simp only [removeLoop, removeOutcomes]
    cases hr : osRemove removeFails s (filePath videoId n) with
    | none =>
      simp only
      rw [ih]
      simp
    | some removed =>
      simp only
      rw [ih]
      by_cases hgn : g = n
      · subst hgn
        simp [mapGet?_mapSet_self]
      · rw [mapGet?_mapSet_ne _ _ _ _ hgn]
        simp [hgn]

theorem removeOutcomes_names (videoId g : String) (b : Bool) :
    ∀ (names : List String) (s : Server),
      (g, b) ∈ removeOutcomes filePath removeFails videoId names s → g ∈ names := by
  intro names
  induction names with
  | nil => intro s h; simp [removeOutcomes] at h
  | cons n rest ih =>
    intro s h
    simp only [removeOutcomes] at h
    cases hr : osRemove removeFails s (filePath videoId n) with
    | none =>
      simp only [hr, List.mem_cons, Prod.mk.injEq] at h
      rcases h with h | h
      · exact List.mem_cons.2 (Or.inl h.1)
      · exact List.mem_cons_of_mem _ (ih _ h)
    | some removed =>
      simp only [hr, List.mem_cons, Prod.mk.injEq] at h
      rcases h with h | h
      · exact List.mem_cons.2 (Or.inl h.1)
      · exact List.mem_cons_of_mem _ (ih _ h)

theorem removeOutcomes_fst (videoId : String) :
    ∀ (names : List String) (s : Server),
      (removeOutcomes filePath removeFails videoId names s).map Prod.fst = names := by
  intro names
  induction names with
  | nil => intro s; rfl
  | cons n rest ih =>
    intro s
    simp only [removeOutcomes]
    cases osRemove removeFails s (filePath videoId n) <;> simp [ih]

theorem removeOutcomes_length (videoId : String) :
    ∀ (names : List String) (s : Server),
      (removeOutcomes filePath removeFails videoId names s).length = names.length := by
  intro names
  induction names with
  | nil => intro s; rfl
  | cons n rest ih =>
    intro s
    simp only [removeOutcomes]
    cases osRemove removeFails s (filePath videoId n) <;> simp [ih]

theorem mapSet_length_le {κ ν : Type} [DecidableEq κ] (m : List (κ × ν)) (k : κ) (v : ν) :
    (mapSet m k v).length ≤ m.length + 1 := by
  induction m with
  | nil => simp [mapSet]
  | cons p rest ih =>
    obtain ⟨k', v'⟩ := p
    by_cases hk : k' = k
    · simp [mapSet, hk]
    · simp only [mapSet, hk, if_false, List.length_cons]
      omega

theorem removeLoop_length (videoId : String) :
    ∀ (names : List String) (s : Server) (deleted : List (String × Bool)),
      (removeLoop filePath removeFails videoId names s deleted).2.length ≤
        deleted.length +
          ((removeOutcomes filePath removeFails videoId names s).filter (fun p => p.2)).length := by
  intro names
  induction names with
  | nil => intro s deleted; simp [removeLoop, removeOutcomes]
  | cons n rest ih =>
    intro s deleted
    simp only [removeLoop, removeOutcomes]
    cases hr : osRemove removeFails s (filePath videoId n) with
    | none =>
      have h1 := ih s deleted
      simpa [List.filter_cons] using h1
    | some removed =>
      have h1 := ih removed (mapSet deleted n true)
      have h2 := mapSet_length_le deleted n true
      simp only [List.filter_cons, if_true, List.length_cons]
      omega

/-- Index after `DeleteFiles` on a video id that is present: the names whose
removal succeeded are filtered out of its list, the key goes when nothing is
left, and every other key keeps its entry. -/
theorem deleteFiles_index (s : Server) (videoId : String) (names cur : List String)
    (hcur : mapGet? s.videoIndex videoId = some cur) :
    mapGet? (DeleteFiles filePath removeFails s videoId names).1.videoIndex videoId =
        (if cur.filter (fun f =>
            decide ((f, true) ∉ removeOutcomes filePath removeFails videoId names s)) = []
          then none
          else some (cur.filter (fun f =>
            decide ((f, true) ∉ removeOutcomes filePath removeFails videoId names s)))) ∧
      ∀ v', v' ≠ videoId →
        mapGet? (DeleteFiles filePath removeFails s videoId names).1.videoIndex v' =
          mapGet? s.videoIndex v' := by
  have hfilter : cur.filter (fun fname =>
      !(mapGet? (removeLoop filePath removeFails videoId names s []).2 fname).getD false) =
      cur.filter (fun f =>
        decide ((f, true) ∉ removeOutcomes filePath removeFails videoId names s)) := by
    apply List.filter_congr
    intro f _
    have h := removeLoop_deleted_iff filePath removeFails videoId f names s []
    simp only [mapGet?, Option.getD_none, Bool.false_eq_true, or_false] at h
    by_cases hm : (f, true) ∈ removeOutcomes filePath removeFails videoId names s
    · simp [hm, h.2 hm]
    · have hne : (mapGet? (removeLoop filePath removeFails videoId names s []).2
          f).getD false ≠ true := fun hc => hm (h.1 hc)
      simp only [Bool.not_eq_true] at hne
      simp [hm, hne]
  unfold DeleteFiles
  simp only [hcur, hfilter]
  constructor
  · by_cases hnil : cur.filter (fun f =>
        decide ((f, true) ∉ removeOutcomes filePath removeFails videoId names s)) = []
    · simp only [hnil, List.length_nil, if_true, mapGet?_mapDelete_self]
    · have hlen : (cur.filter (fun f => decide
          ((f, true) ∉ removeOutcomes filePath removeFails videoId names s))).length ≠ 0 := by
        intro h0
        exact hnil (List.length_eq_zero.1 h0)
      simp only [hlen, hnil, if_false, mapGet?_mapSet_self]
  · intro v' hv'
    split
    · exact mapGet?_mapDelete_ne _ _ _ hv'
    · exact mapGet?_mapSet_ne _ _ _ _ hv'

theorem deleteFiles_absent (s : Server) (videoId : String) (names : List String)
    (habs : mapGet? s.videoIndex videoId = none) :
    DeleteFiles filePath removeFails s videoId names = (s, false) := by
  simp [DeleteFiles, habs]

theorem deleteFiles_preserves (s : Server) (videoId : String) (names : List String)
    (h : ∀ v' l, mapGet? s.videoIndex v' = some l → l.Nodup ∧ l ≠ []) :
    ∀ v' l, mapGet? (DeleteFiles filePath removeFails s videoId names).1.videoIndex v' = some l →
      l.Nodup ∧ l ≠ [] := by
  intro v' l hl
  cases hcur : mapGet? s.videoIndex videoId with
  | none =>
    rw [deleteFiles_absent filePath removeFails s videoId names hcur] at hl
    exact h v' l hl
  | some cur =>
    obtain ⟨h1, h2⟩ := deleteFiles_index filePath removeFails s videoId names cur hcur
    by_cases hv : v' = videoId
    · subst hv
      rw [h1] at hl
      split at hl
      · exact absurd hl (by simp)
      · rename_i hne
        simp only [Option.some.injEq] at hl
        subst hl
        exact ⟨(h v' cur hcur).1.filter _, hne⟩
    · rw [h2 v' hv] at hl
      exact h v' l hl

theorem deleteFiles_sublist (s : Server) (videoId : String) (names : List String)
    (v' : String) :
    (ListVideoFiles (DeleteFiles filePath removeFails s videoId names).1 v').Sublist
      (ListVideoFiles s v') := by
  cases hcur : mapGet? s.videoIndex videoId with
  | none =>
    rw [deleteFiles_absent filePath removeFails s videoId names hcur]
  | some cur =>
    obtain ⟨h1, h2⟩ := deleteFiles_index filePath removeFails s videoId names cur hcur
    unfold ListVideoFiles
    by_cases hv : v' = videoId
    · subst hv
      rw [h1, hcur]
      split
      · simp
      · simp
    · rw [h2 v' hv]

theorem deleteFiles_files (s : Server) (videoId : String) (names : List String) (p : Path)
    (h : mapGet? s.files p ≠ some []) :
    mapGet? (DeleteFiles filePath removeFails s videoId names).1.files p ≠ some [] := by
  unfold DeleteFiles
  cases hg : mapGet? s.videoIndex videoId with
  | none => simpa using h
  | some cur =>
    simp only
    rcases removeLoop_files filePath removeFails videoId p names s [] with h1 | h1
    · rw [h1]; exact h
    · rw [h1]; simp

theorem deleteFiles_keeps (s : Server) (videoId : String) (names : List String) (v f : String)
    (hkeep : videoId ≠ v ∨ f ∉ names) (hf : f ∈ ListVideoFiles s v) :
    f ∈ ListVideoFiles (DeleteFiles filePath removeFails s videoId names).1 v := by
  cases hcur : mapGet? s.videoIndex videoId with
  | none =>
    rw [deleteFiles_absent filePath removeFails s videoId names hcur]
    exact hf
  | some cur =>
    obtain ⟨h1, h2⟩ := deleteFiles_index filePath removeFails s videoId names cur hcur
    unfold ListVideoFiles at hf ⊢
    by_cases hv : v = videoId
    · subst hv
      have hnames : f ∉ names := by
        rcases hkeep with h | h
        · exact absurd rfl h
        · exact h
      have hcurf : f ∈ cur := by simpa [hcur] using hf
      have hrem : f ∈ cur.filter (fun f =>
          decide ((f, true) ∉ removeOutcomes filePath removeFails v names s)) := by
        rw [List.mem_filter]
        refine ⟨hcurf, ?_⟩
        simp only [decide_eq_true_eq]
        exact fun hm => hnames (removeOutcomes_names filePath removeFails v f true names s hm)
      rw [h1]
      split
      · rename_i hnil
        rw [hnil] at hrem
        exact absurd hrem (List.not_mem_nil _)
      · simpa using hrem
    · rw [h2 v hv]
      exact hf

/-- A requested name whose file is on the disk, whose removal the environment
does not fail, and whose path no other requested name shares, is removed. -/
theorem removeOutcomes_hit (videoId f : String)
    (hfault : removeFails (filePath videoId f) = false) :
    ∀ (names : List String) (s : Server), f ∈ names →
      (mapGet? s.files (filePath videoId f)).isSome = true →
      (∀ g ∈ names, filePath videoId g = filePath videoId f → g = f) →
      (f, true) ∈ removeOutcomes filePath removeFails videoId names s := by
  intro names
  induction names with
  | nil => intro s h; exact absurd h (List.not_mem_nil _)
  | cons n rest ih =>
    intro s hmem hfile huniq
    simp only [removeOutcomes]
    by_cases hn : n = f
    · subst hn
      have hr : osRemove removeFails s (filePath videoId n) =
          some { s with files := mapDelete s.files (filePath videoId n) } := by
        simp [osRemove, hfault, hfile]
      rw [hr]
      exact List.mem_cons_self _ _
    · have hrest : f ∈ rest := by
        rcases List.mem_cons.1 hmem with h | h
        · exact absurd h.symm hn
        · exact h
      have hpath : filePath videoId f ≠ filePath videoId n := fun h =>
        hn (huniq n (List.mem_cons_self _ _) h.symm)
      have huniq2 : ∀ g ∈ rest, filePath videoId g = filePath videoId f → g = f :=
        fun g hg => huniq g (List.mem_cons_of_mem _ hg)
      cases hr : osRemove removeFails s (filePath videoId n) with
      | none => exact List.mem_cons_of_mem _ (ih s hrest hfile huniq2)
      | some removed =>
        refine List.mem_cons_of_mem _ (ih removed hrest ?_ huniq2)
        rcases (osRemove_frame _ _ _ _ hr).2 with h2 | h2
        · rw [h2, mapGet?_mapDelete_ne _ _ _ hpath]
          exact hfile
        · rw [h2]
          exact hfile

/-- After `DeleteFiles` a requested name is out of the index when its file was
on the disk, its removal is not failed by the environment and no other
requested name shares its path. -/
theorem deleteFiles_drops (s : Server) (videoId f : String) (names : List String)
    (hfault : removeFails (filePath videoId f) = false) (hmem : f ∈ names)
    (hfile : (mapGet? s.files (filePath videoId f)).isSome = true)
    (huniq : ∀ g ∈ names, filePath videoId g = filePath videoId f → g = f) :
    f ∉ ListVideoFiles (DeleteFiles filePath removeFails s videoId names).1 videoId := by
  have hhit := removeOutcomes_hit filePath removeFails videoId f hfault names s hmem hfile huniq
  cases hcur : mapGet? s.videoIndex videoId with
  | none =>
    rw [deleteFiles_absent filePath removeFails s videoId names hcur]
    simp [ListVideoFiles, hcur]
  | some cur =>
    obtain ⟨h1, _⟩ := deleteFiles_index filePath removeFails s videoId names cur hcur
    unfold ListVideoFiles
    rw [h1]
    split
    · simp
    · simp only [Option.getD_some, List.mem_filter, decide_eq_true_eq, not_and, not_not]
      exact fun _ => hhit

end DeleteIndex

section Migrate

variable (filePath : String → String → Path) (F : Faults)

theorem migrateFileSync_other (servers : String → Server) (vid fname src dst x : String)
    (hx : x ≠ dst) :
    (migrateFileSync filePath F servers vid fname src (some dst)).1 x = servers x := by
  unfold migrateFileSync
  split
  · rfl
  · simp only
    split
    · exact setServer_ne _ _ _ _ hx
    · rfl
    · rfl

theorem migrateFileSync_index_mono (servers : String → Server) (vid fname src dst v g : String)
    (hg : g ∈ ListVideoFiles (servers dst) v) :
    g ∈ ListVideoFiles ((migrateFileSync filePath F servers vid fname src (some dst)).1 dst) v := by
  unfold migrateFileSync
  split
  · exact hg
  · simp only
    split
    · simp only [setServer_same]
      exact upload_index_mono filePath _ _ _ _ _ hg
    · exact hg
    · exact hg

theorem migrateFileSync_ok_indexes (servers : String → Server) (vid fname src dst : String)
    (hdata : mapGet? (servers src).files (filePath vid fname) ≠ some [])
    (hok : (migrateFileSync filePath F servers vid fname src (some dst)).2 = Outcome.ok ()) :
    fname ∈ ListVideoFiles
      ((migrateFileSync filePath F servers vid fname src (some dst)).1 dst) vid := by
  unfold migrateFileSync at hok ⊢
  by_cases hd : F.download vid fname = true
  · simp [hd] at hok
  · simp only [hd] at hok ⊢
    unfold Download at hok ⊢
    cases hfile : mapGet? (servers src).files (filePath vid fname) with
    | none =>
      by_cases hdir : filePath vid fname ∈ (servers src).dirs
      · simp [hfile, hdir] at hok
      · simp [hfile, hdir] at hok
    | some content =>
      have hne : content ≠ [] := by
        intro h
        exact hdata (by rw [hfile, h])
      obtain ⟨c, cs, hsplit, hcv, hcf⟩ := splitChunks_of_ne_nil vid fname content hne
      simp only [hfile, hsplit, Bool.false_eq_true, if_false, setServer_same] at hok ⊢
      cases hup : (Upload filePath (servers dst) (c :: cs) (F.upload vid fname)).2 with
      | ok b =>
        have := upload_ok_indexes_first filePath (servers dst) c cs (F.upload vid fname) b hup
        rwa [hcv, hcf] at this
      | err e => simp [hup] at hok
      | crash => simp [hup] at hok

theorem migrateFileSync_ok_file (servers : String → Server) (vid fname src : String)
    (dst : Option String)
    (hok : (migrateFileSync filePath F servers vid fname src dst).2 = Outcome.ok ()) :
    (mapGet? (servers src).files (filePath vid fname)).isSome = true := by
  unfold migrateFileSync at hok
  split at hok
  · simp at hok
  · cases dst with
    | none => simp at hok
    | some d =>
      simp only at hok
      unfold Download at hok
      cases hfile : mapGet? (servers src).files (filePath vid fname) with
      | none =>
        by_cases hdir : filePath vid fname ∈ (servers src).dirs
        · simp [hfile, hdir] at hok
        · simp [hfile, hdir] at hok
      | some content => rfl

end Migrate

/-! ## The migration loops of `AddNode` -/

section AddNodeLoops

variable (hashStringToUint64 : String → Nat) (filePath : String → String → Path) (F : Faults)
  (predHash newHash : Nat) (src dst : String)

theorem addNodeFiles_cons (vid fname : String) (rest : List String) (m : Migration)
    (del : List String) :
    addNodeFiles hashStringToUint64 filePath F predHash newHash vid src dst (fname :: rest)
        (m, del) =
      if inRangeExclusive predHash newHash (hashStringToUint64 (vid ++ "/" ++ fname)) = true then
        if (migrateFileSync filePath F m.servers vid fname src (some dst)).2 = Outcome.ok () then
          addNodeFiles hashStringToUint64 filePath F predHash newHash vid src dst rest
            ({ servers := (migrateFileSync filePath F m.servers vid fname src (some dst)).1,
               count := int32 (m.count + 1),
               log := m.log ++ [LogEvent.migrated vid fname] }, del ++ [fname])
        else
          addNodeFiles hashStringToUint64 filePath F predHash newHash vid src dst rest
            ({ servers := (migrateFileSync filePath F m.servers vid fname src (some dst)).1,
               count := m.count,
               log := m.log ++ [LogEvent.migrateFailed vid fname] }, del)
      else
        addNodeFiles hashStringToUint64 filePath F predHash newHash vid src dst rest (m, del) := by
  simp only [addNodeFiles]
  split
  · cases hms : migrateFileSync filePath F m.servers vid fname src (some dst) with
    | mk sv res =>
      cases res with
      | ok u => simp
      | err e => simp
      | crash => simp
  · rfl

theorem addNodeFiles_inv (hne : src ≠ dst) (vid v f : String) :
    ∀ (names : List String) (m : Migration) (del : List String),
      (addNodeFiles hashStringToUint64 filePath F predHash newHash vid src dst names
          (m, del)).1.servers src = m.servers src ∧
      (∀ e ∈ m.log, e ∈ (addNodeFiles hashStringToUint64 filePath F predHash newHash vid src dst
          names (m, del)).1.log) ∧
      (∀ g ∈ del, g ∈ (addNodeFiles hashStringToUint64 filePath F predHash newHash vid src dst
          names (m, del)).2) ∧
      (f ∈ ListVideoFiles (m.servers dst) v →
        f ∈ ListVideoFiles ((addNodeFiles hashStringToUint64 filePath F predHash newHash vid src
          dst names (m, del)).1.servers dst) v) ∧
      (vid = v → mapGet? (m.servers src).files (filePath v f) ≠ some [] →
        f ∈ (addNodeFiles hashStringToUint64 filePath F predHash newHash vid src dst names
          (m, del)).2 →
        f ∈ del ∨ f ∈ ListVideoFiles ((addNodeFiles hashStringToUint64 filePath F predHash
          newHash vid src dst names (m, del)).1.servers dst) v) ∧
      (vid = v →
        inRangeExclusive predHash newHash (hashStringToUint64 (v ++ "/" ++ f)) = true →
        f ∈ names →
        f ∈ (addNodeFiles hashStringToUint64 filePath F predHash newHash vid src dst names
          (m, del)).2 ∨
        LogEvent.migrateFailed v f ∈ (addNodeFiles hashStringToUint64 filePath F predHash
          newHash vid src dst names (m, del)).1.log) := by
  intro names
  induction names with
  | nil =>
    intro m del
    refine ⟨rfl, fun e he => he, fun g hg => hg, fun h => h, fun _ _ h => Or.inl h,
      fun _ _ h => absurd h (List.not_mem_nil _)⟩
  | cons fname rest ih =>
    intro m del
    rw [addNodeFiles_cons]
    by_cases hr : inRangeExclusive predHash newHash (hashStringToUint64 (vid ++ "/" ++ fname)) = true
    · simp only [hr, if_true]
      have hsrc : (migrateFileSync filePath F m.servers vid fname src (some dst)).1 src =
          m.servers src := migrateFileSync_other filePath F _ _ _ _ _ _ hne
      by_cases hok : (migrateFileSync filePath F m.servers vid fname src (some dst)).2 = Outcome.ok ()
      · simp only [hok, if_true]
        obtain ⟨i1, i2, i3, i4, i5, i6⟩ := ih
          { servers := (migrateFileSync filePath F m.servers vid fname src (some dst)).1,
            count := int32 (m.count + 1),
            log := m.log ++ [LogEvent.migrated vid fname] } (del ++ [fname])
        refine ⟨i1.trans hsrc, fun e he => i2 e (List.mem_append_left _ he),
          fun g hg => i3 g (List.mem_append_left _ hg),
          fun h => i4 (migrateFileSync_index_mono filePath F _ _ _ _ _ _ _ h), ?_, ?_⟩
        · intro hv hdata hf
          rcases i5 hv (by simpa only [hsrc] using hdata) hf with h | h
          · rcases List.mem_append.1 h with h | h
            · exact Or.inl h
            · have hfn : f = fname := by simpa using h
              subst hfn
              subst hv
              exact Or.inr (i4 (migrateFileSync_ok_indexes filePath F _ _ _ _ _ hdata hok))
          · exact Or.inr h
        · intro hv hrange hf
          rcases List.mem_cons.1 hf with h | h
          · exact Or.inl (i3 f (by simp [h]))
          · exact i6 hv hrange h
      · simp only [hok, if_false]
        obtain ⟨i1, i2, i3, i4, i5, i6⟩ := ih
          { servers := (migrateFileSync filePath F m.servers vid fname src (some dst)).1,
            count := m.count,
            log := m.log ++ [LogEvent.migrateFailed vid fname] } del
        refine ⟨i1.trans hsrc, fun e he => i2 e (List.mem_append_left _ he), i3,
          fun h => i4 (migrateFileSync_index_mono filePath F _ _ _ _ _ _ _ h), ?_, ?_⟩
        · intro hv hdata hf
          exact i5 hv (by simpa only [hsrc] using hdata) hf
        · intro hv hrange hf
          rcases List.mem_cons.1 hf with h | h
          · exact Or.inr (i2 _ (by simp [h, hv]))
          · exact i6 hv hrange h
    · simp only [hr, if_false]
      obtain ⟨i1, i2, i3, i4, i5, i6⟩ := ih m del
      refine ⟨i1, i2, i3, i4, i5, ?_⟩
      intro hv hrange hf
      rcases List.mem_cons.1 hf with h | h
      · rw [hv, ← h] at hr
        exact absurd hrange hr
      · exact i6 hv hrange h

end AddNodeLoops

section AddNodeOuter

variable (hashStringToUint64 : String → Nat) (filePath : String → String → Path) (F : Faults)
  (predHash newHash : Nat) (src dst : String)

theorem addNodeVideo_inv (hne : src ≠ dst) (v f : String)
    (hrange : inRangeExclusive predHash newHash (hashStringToUint64 (v ++ "/" ++ f)) = true)
    (m : Migration) (vid : String) :
    (∀ e ∈ m.log, e ∈ (addNodeVideo hashStringToUint64 filePath F predHash newHash src dst
        m vid).log) ∧
      (f ∈ ListVideoFiles (m.servers dst) v →
        f ∈ ListVideoFiles ((addNodeVideo hashStringToUint64 filePath F predHash newHash src dst
          m vid).servers dst) v) ∧
      (mapGet? (m.servers src).files (filePath v f) ≠ some [] →
        mapGet? ((addNodeVideo hashStringToUint64 filePath F predHash newHash src dst
          m vid).servers src).files (filePath v f) ≠ some []) ∧
      (vid ≠ v → f ∈ ListVideoFiles (m.servers src) v →
        f ∈ ListVideoFiles ((addNodeVideo hashStringToUint64 filePath F predHash newHash src dst
          m vid).servers src) v) ∧
      (vid = v → mapGet? (m.servers src).files (filePath v f) ≠ some [] →
        f ∈ ListVideoFiles (m.servers src) v →
        f ∈ ListVideoFiles ((addNodeVideo hashStringToUint64 filePath F predHash newHash src dst
          m vid).servers dst) v ∨
        ((LogEvent.migrateFailed v f ∈ (addNodeVideo hashStringToUint64 filePath F predHash
            newHash src dst m vid).log ∨
          LogEvent.listFilesFailed v ∈ (addNodeVideo hashStringToUint64 filePath F predHash
            newHash src dst m vid).log) ∧
          f ∈ ListVideoFiles ((addNodeVideo hashStringToUint64 filePath F predHash newHash src
            dst m vid).servers src) v)) := by
  have hne' : dst ≠ src := fun h => hne h.symm
  unfold addNodeVideo
  by_cases hl : F.listVideoFiles vid = true
  · simp only [hl, if_true]
    refine ⟨fun e he => List.mem_append_left _ he, fun h => h, fun h => h, fun _ h => h, ?_⟩
    intro hv _ hs
    exact Or.inr ⟨Or.inr (by simp [hv]), hs⟩
  · simp only [hl]
    obtain ⟨i1, i2, i3, i4, i5, i6⟩ := addNodeFiles_inv hashStringToUint64 filePath F predHash
      newHash src dst hne vid v f (ListVideoFiles (m.servers src) vid) m []
    have key : ∀ (hv : vid = v), mapGet? (m.servers src).files (filePath v f) ≠ some [] →
        f ∈ ListVideoFiles (m.servers src) v →
        f ∈ ListVideoFiles ((addNodeFiles hashStringToUint64 filePath F predHash newHash vid src
          dst (ListVideoFiles (m.servers src) vid) (m, [])).1.servers dst) v ∨
        (f ∉ (addNodeFiles hashStringToUint64 filePath F predHash newHash vid src
          dst (ListVideoFiles (m.servers src) vid) (m, [])).2 ∧
          LogEvent.migrateFailed v f ∈ (addNodeFiles hashStringToUint64 filePath F predHash
            newHash vid src dst (ListVideoFiles (m.servers src) vid) (m, [])).1.log) := by
      intro hv hdata hs
      by_cases hin : f ∈ (addNodeFiles hashStringToUint64 filePath F predHash newHash vid src
          dst (ListVideoFiles (m.servers src) vid) (m, [])).2
      · rcases i5 hv hdata hin with h | h
        · exact absurd h (List.not_mem_nil _)
        · exact Or.inl h
      · rcases i6 hv hrange (by rw [hv]; exact hs) with h | h
        · exact absurd h hin
        · exact Or.inr ⟨hin, h⟩
    simp only [Bool.false_eq_true, if_false]
    split
    · split
      · refine ⟨fun e he => List.mem_append_left _ (i2 e he), i4, ?_, ?_, ?_⟩
        · intro h
          simpa only [i1] using h
        · intro _ h
          simpa only [i1] using h
        · intro hv hdata hs
          rcases key hv hdata hs with h | ⟨_, h⟩
          · exact Or.inl h
          · exact Or.inr ⟨Or.inl (List.mem_append_left _ h), by simpa only [i1] using hs⟩
      · refine ⟨i2, ?_, ?_, ?_, ?_⟩
        · intro h
          simp only [setServer_ne _ _ _ _ hne']
          exact i4 h
        · intro h
          simp only [setServer_same, i1]
          exact deleteFiles_files filePath _ _ _ _ _ h
        · intro hv h
          simp only [setServer_same, i1]
          exact deleteFiles_keeps filePath _ _ _ _ _ _ (Or.inl hv) h
        · intro hv hdata hs
          rcases key hv hdata hs with h | ⟨hnot, h⟩
          · left
            simp only [setServer_ne _ _ _ _ hne']
            exact h
          · right
            refine ⟨Or.inl h, ?_⟩
            simp only [setServer_same, i1]
            exact deleteFiles_keeps filePath _ _ _ _ _ _ (Or.inr hnot) hs
    · refine ⟨i2, i4, ?_, ?_, ?_⟩
      · intro h
        simpa only [i1] using h
      · intro _ h
        simpa only [i1] using h
      · intro hv hdata hs
        rcases key hv hdata hs with h | ⟨_, h⟩
        · exact Or.inl h
        · exact Or.inr ⟨Or.inl h, by simpa only [i1] using hs⟩

theorem addNodeVideos_inv (hne : src ≠ dst) (v f : String)
    (hrange : inRangeExclusive predHash newHash (hashStringToUint64 (v ++ "/" ++ f)) = true) :
    ∀ (vids : List String) (m : Migration),
      mapGet? (m.servers src).files (filePath v f) ≠ some [] →
      (f ∈ ListVideoFiles (m.servers dst) v ∨
        ((LogEvent.migrateFailed v f ∈ m.log ∨ LogEvent.listFilesFailed v ∈ m.log) ∧
          f ∈ ListVideoFiles (m.servers src) v) ∨
        (f ∈ ListVideoFiles (m.servers src) v ∧ v ∈ vids)) →
      f ∈ ListVideoFiles ((vids.foldl (addNodeVideo hashStringToUint64 filePath F predHash
          newHash src dst) m).servers dst) v ∨
        ((LogEvent.migrateFailed v f ∈ (vids.foldl (addNodeVideo hashStringToUint64 filePath F
            predHash newHash src dst) m).log ∨
          LogEvent.listFilesFailed v ∈ (vids.foldl (addNodeVideo hashStringToUint64 filePath F
            predHash newHash src dst) m).log) ∧
          f ∈ ListVideoFiles ((vids.foldl (addNodeVideo hashStringToUint64 filePath F predHash
            newHash src dst) m).servers src) v) := by
  intro vids
  induction vids with
  | nil =>
    intro m _ h
    rcases h with h | h | ⟨_, h⟩
    · exact Or.inl h
    · exact Or.inr h
    · exact absurd h (List.not_mem_nil _)
  | cons vid rest ih =>
    intro m hdata h
    obtain ⟨s1, s2, s3, s4, s5⟩ := addNodeVideo_inv hashStringToUint64 filePath F predHash
      newHash src dst hne v f hrange m vid
    simp only [List.foldl_cons]
    apply ih _ (s3 hdata)
    rcases h with h | ⟨hlog, hs⟩ | ⟨hs, hmem⟩
    · exact Or.inl (s2 h)
    · by_cases hv : vid = v
      · rcases s5 hv hdata hs with h | h
        · exact Or.inl h
        · exact Or.inr (Or.inl h)
      · refine Or.inr (Or.inl ⟨?_, s4 hv hs⟩)
        rcases hlog with h | h
        · exact Or.inl (s1 _ h)
        · exact Or.inr (s1 _ h)
    · by_cases hv : vid = v
      · rcases s5 hv hdata hs with h | h
        · exact Or.inl h
        · exact Or.inr (Or.inl h)
      · refine Or.inr (Or.inr ⟨s4 hv hs, ?_⟩)
        rcases List.mem_cons.1 hmem with h | h
        · exact absurd h.symm hv
        · exact h

end AddNodeOuter

section AddNodeDrop

variable (hashStringToUint64 : String → Nat) (filePath : String → String → Path) (F : Faults)
  (predHash newHash : Nat) (src dst : String)

theorem addNodeFiles_del (hne : src ≠ dst) (vid g : String) :
    ∀ (names : List String) (m : Migration) (del : List String),
      g ∈ (addNodeFiles hashStringToUint64 filePath F predHash newHash vid src dst names
        (m, del)).2 →
      g ∈ del ∨
        (g ∈ names ∧ (mapGet? (m.servers src).files (filePath vid g)).isSome = true) := by
  intro names
  induction names with
  | nil => intro m del h; exact Or.inl h
  | cons fname rest ih =>
    intro m del h
    rw [addNodeFiles_cons] at h
    have hsrc : (migrateFileSync filePath F m.servers vid fname src (some dst)).1 src =
        m.servers src := migrateFileSync_other filePath F _ _ _ _ _ _ hne
    by_cases hr : inRangeExclusive predHash newHash (hashStringToUint64 (vid ++ "/" ++ fname)) = true
    · simp only [hr, if_true] at h
      by_cases hok : (migrateFileSync filePath F m.servers vid fname src (some dst)).2 = Outcome.ok ()
      · simp only [hok, if_true] at h
        rcases ih _ _ h with h1 | ⟨h1, h2⟩
        · rcases List.mem_append.1 h1 with h1 | h1
          · exact Or.inl h1
          · have hg : g = fname := by simpa using h1
            subst hg
            exact Or.inr ⟨List.mem_cons_self _ _,
              migrateFileSync_ok_file filePath F _ _ _ _ _ hok⟩
        · simp only [hsrc] at h2
          exact Or.inr ⟨List.mem_cons_of_mem _ h1, h2⟩
      · simp only [hok, if_false] at h
        rcases ih _ _ h with h1 | ⟨h1, h2⟩
        · exact Or.inl h1
        · simp only [hsrc] at h2
          exact Or.inr ⟨List.mem_cons_of_mem _ h1, h2⟩
    · simp only [hr, if_false] at h
      rcases ih _ _ h with h1 | ⟨h1, h2⟩
      · exact Or.inl h1
      · exact Or.inr ⟨List.mem_cons_of_mem _ h1, h2⟩

theorem addNodeVideo_sublist (hne : src ≠ dst) (v : String) (m : Migration) (vid : String) :
    (ListVideoFiles ((addNodeVideo hashStringToUint64 filePath F predHash newHash src dst
        m vid).servers src) v).Sublist (ListVideoFiles (m.servers src) v) := by
  unfold addNodeVideo
  by_cases hl : F.listVideoFiles vid = true
  · simp only [hl, if_true]
    exact List.Sublist.refl _
  · simp only [hl]
    have i1 := (addNodeFiles_inv hashStringToUint64 filePath F predHash newHash src dst hne vid
      v "" (ListVideoFiles (m.servers src) vid) m []).1
    simp only [Bool.false_eq_true, if_false]
    split
    · split
      · simp only [i1]
        exact List.Sublist.refl _
      · simp only [setServer_same, i1]
        exact deleteFiles_sublist filePath _ _ _ _ _
    · simp only [i1]
      exact List.Sublist.refl _

/-- One video of the migration of `AddNode`: when the video is that of the
key, the `DeleteFiles` call is not failed, the removal of the file of the key
is not failed and no other indexed name shares its path, the key is off the
index of the source afterwards unless a failure was logged for it. -/
theorem addNodeVideo_drop (hne : src ≠ dst) (v f : String) (L : List String)
    (hrange : inRangeExclusive predHash newHash (hashStringToUint64 (v ++ "/" ++ f)) = true)
    (hdel : F.deleteFiles v = false) (hrem : F.remove (filePath v f) = false)
    (huniq : ∀ g ∈ L, filePath v g = filePath v f → g = f)
    (m : Migration) (hsub : ∀ g ∈ ListVideoFiles (m.servers src) v, g ∈ L) :
    f ∉ ListVideoFiles ((addNodeVideo hashStringToUint64 filePath F predHash newHash src dst
        m v).servers src) v ∨
      LogEvent.migrateFailed v f ∈ (addNodeVideo hashStringToUint64 filePath F predHash
        newHash src dst m v).log ∨
      LogEvent.listFilesFailed v ∈ (addNodeVideo hashStringToUint64 filePath F predHash
        newHash src dst m v).log := by
  by_cases hin : f ∈ ListVideoFiles (m.servers src) v
  · unfold addNodeVideo
    by_cases hl : F.listVideoFiles v = true
    · simp only [hl, if_true]
      exact Or.inr (Or.inr (by simp))
    · simp only [hl]
      obtain ⟨i1, i2, i3, i4, i5, i6⟩ := addNodeFiles_inv hashStringToUint64 filePath F predHash
        newHash src dst hne v v f (ListVideoFiles (m.servers src) v) m []
      have hdelmem := addNodeFiles_del hashStringToUint64 filePath F predHash newHash src dst hne v
      simp only [Bool.false_eq_true, if_false]
      rcases i6 rfl hrange hin with hmig | hlog
      · have hlen : (addNodeFiles hashStringToUint64 filePath F predHash newHash v src dst
            (ListVideoFiles (m.servers src) v) (m, [])).2.length > 0 :=
          List.length_pos_of_mem hmig
        simp only [hlen, if_true, hdel, Bool.false_eq_true, if_false, setServer_same, i1]
        left
        apply deleteFiles_drops filePath F.remove (m.servers src) v f _ hrem hmig
        · rcases hdelmem f _ _ _ hmig with h | h
          · exact absurd h (List.not_mem_nil _)
          · exact h.2
        · intro g hg hpath
          rcases hdelmem g _ _ _ hg with h | h
          · exact absurd h (List.not_mem_nil _)
          · exact huniq g (hsub g h.1) hpath
      · right
        left
        split
        · split
          · exact List.mem_append_left _ hlog
          · exact hlog
        · exact hlog
  · left
    exact fun h => hin ((addNodeVideo_sublist hashStringToUint64 filePath F predHash newHash
      src dst hne v m v).subset h)

theorem addNodeVideos_drop (hne : src ≠ dst) (v f : String) (L : List String)
    (hrange : inRangeExclusive predHash newHash (hashStringToUint64 (v ++ "/" ++ f)) = true)
    (hdel : F.deleteFiles v = false) (hrem : F.remove (filePath v f) = false)
    (huniq : ∀ g ∈ L, filePath v g = filePath v f → g = f) :
    ∀ (vids : List String) (m : Migration),
      (∀ g ∈ ListVideoFiles (m.servers src) v, g ∈ L) →
      (f ∉ ListVideoFiles (m.servers src) v ∨ LogEvent.migrateFailed v f ∈ m.log ∨
        LogEvent.listFilesFailed v ∈ m.log ∨ v ∈ vids) →
      f ∉ ListVideoFiles ((vids.foldl (addNodeVideo hashStringToUint64 filePath F predHash
          newHash src dst) m).servers src) v ∨
        LogEvent.migrateFailed v f ∈ (vids.foldl (addNodeVideo hashStringToUint64 filePath F
          predHash newHash src dst) m).log ∨
        LogEvent.listFilesFailed v ∈ (vids.foldl (addNodeVideo hashStringToUint64 filePath F
          predHash newHash src dst) m).log := by
  intro vids
  induction vids with
  | nil =>
    intro m _ h
    rcases h with h | h | h | h
    · exact Or.inl h
    · exact Or.inr (Or.inl h)
    · exact Or.inr (Or.inr h)
    · exact absurd h (List.not_mem_nil _)
  | cons vid rest ih =>
    intro m hsub h
    have hsl := addNodeVideo_sublist hashStringToUint64 filePath F predHash newHash src dst hne
      v m vid
    have hlog := (addNodeVideo_inv hashStringToUint64 filePath F predHash newHash src dst hne
      v f hrange m vid).1
    simp only [List.foldl_cons]
    apply ih _ (fun g hg => hsub g (hsl.subset hg))
    by_cases hv : vid = v
    · subst hv
      rcases addNodeVideo_drop hashStringToUint64 filePath F predHash newHash src dst hne vid f L
        hrange hdel hrem huniq m hsub with h1 | h1 | h1
      · exact Or.inl h1
      · exact Or.inr (Or.inl h1)
      · exact Or.inr (Or.inr (Or.inl h1))
    · rcases h with h | h | h | h
      · exact Or.inl (fun hc => h (hsl.subset hc))
      · exact Or.inr (Or.inl (hlog _ h))
      · exact Or.inr (Or.inr (Or.inl (hlog _ h)))
      · refine Or.inr (Or.inr (Or.inr ?_))
        rcases List.mem_cons.1 h with h | h
        · exact absurd h.symm hv
        · exact h

end AddNodeDrop

theorem addNodeSuccAddr_single (hashStringToUint64 : String → Nat)
    (svc : NetworkVideoContentService) (a : String)
    (hlen : (addNodeRing hashStringToUint64 svc a).nodesHashes.length = 1) :
    addNodeSuccAddr (addNodeRing hashStringToUint64 svc a) (hashStringToUint64 a) = a := by
  have hperm := (sortSlice_perm (svc.nodesHashes ++ [hashStringToUint64 a])).length_eq
  simp only [addNodeRing] at hlen
  rw [hlen] at hperm
  have hnil : svc.nodesHashes = [] := by
    cases hl : svc.nodesHashes with
    | nil => rfl
    | cons x xs => simp [hl] at hperm
  simp [addNodeSuccAddr, addNodeSuccHash, addNodeRing, hnil, sortSlice, insertAsc, firstIndex,
    mapGet?_mapSet_self]

theorem mem_listVideos_of_mem_files (s : Server) (v f : String)
    (h : f ∈ ListVideoFiles s v) : v ∈ ListVideos s := by
  unfold ListVideoFiles at h
  cases hg : mapGet? s.videoIndex v with
  | none => simp [hg] at h
  | some cur =>
    have := mem_of_mapGet? _ _ _ hg
    simp only [ListVideos, mapKeys, List.mem_map]
    exact ⟨(v, cur), this, rfl⟩

/-- C9 as stated fails: the file is migrated (no failure is logged) and its
removal on the successor fails, so the new node and the successor both hold
the key after `AddNode`. -/
theorem addNode_both_hold_when_remove_fails :
    "seg" ∈ ListVideoFiles (fleetWithSeg [1]
        (addNodeSuccAddr (addNodeRing demoHash ringB "c:1") (demoHash "c:1"))) "v" ∧
      inRangeExclusive (addNodePredHash (addNodeRing demoHash ringB "c:1") (demoHash "c:1"))
        (demoHash "c:1") (demoHash ("v" ++ "/" ++ "seg")) = true ∧
      addNodeSuccAddr (addNodeRing demoHash ringB "c:1") (demoHash "c:1") = "b:1" ∧
      (AddNode demoHash demoPath removeFails
        { svc := ringB, servers := fleetWithSeg [1] } "c:1").result = Outcome.ok 1 ∧
      (AddNode demoHash demoPath removeFails
        { svc := ringB, servers := fleetWithSeg [1] } "c:1").log = [LogEvent.migrated "v" "seg"] ∧
      "seg" ∈ ListVideoFiles ((AddNode demoHash demoPath removeFails
        { svc := ringB, servers := fleetWithSeg [1] } "c:1").world.servers "c:1") "v" ∧
      "seg" ∈ ListVideoFiles ((AddNode demoHash demoPath removeFails
        { svc := ringB, servers := fleetWithSeg [1] } "c:1").world.servers "b:1") "v" := by
  decide

/-- C9, amended: on a well-formed ring whose successor of the new token is
another node, after `AddNode a` returned, every key indexed on the former
successor whose hash lies in the arc of `a` and whose file there is not empty
is in one of three states: the new node holds it and the successor does not;
`AddNode` did not succeed or the migration of the key (or the listing of its
video) was logged as failed, and the successor still holds it; or both nodes
hold it, and then its deletion on the successor failed: the `DeleteFiles` call
for its video failed, or the `os.Remove` of its file failed, or another indexed
name of the video has the same path, so that the file was gone when the name
came up for removal. -/
theorem addNode_key_kept (hashStringToUint64 : String → Nat)
    (filePath : String → String → Path) (F : Faults) (w : World) (a : String)
    (v f : String)
    (hwf : WellFormed hashStringToUint64 w.svc)
    (hother : addNodeSuccAddr (addNodeRing hashStringToUint64 w.svc a)
      (hashStringToUint64 a) ≠ a)
    (hidx : f ∈ ListVideoFiles (w.servers (addNodeSuccAddr
      (addNodeRing hashStringToUint64 w.svc a) (hashStringToUint64 a))) v)
    (hrange : inRangeExclusive
      (addNodePredHash (addNodeRing hashStringToUint64 w.svc a) (hashStringToUint64 a))
      (hashStringToUint64 a) (hashStringToUint64 (v ++ "/" ++ f)) = true)
    (hdata : mapGet? (w.servers (addNodeSuccAddr
      (addNodeRing hashStringToUint64 w.svc a) (hashStringToUint64 a))).files (filePath v f) ≠
        some []) :
    (f ∈ ListVideoFiles ((AddNode hashStringToUint64 filePath F w a).world.servers a) v ∧
        f ∉ ListVideoFiles ((AddNode hashStringToUint64 filePath F w a).world.servers
          (addNodeSuccAddr (addNodeRing hashStringToUint64 w.svc a) (hashStringToUint64 a))) v) ∨
      (((∀ c, (AddNode hashStringToUint64 filePath F w a).result ≠ Outcome.ok c) ∨
          LogEvent.migrateFailed v f ∈ (AddNode hashStringToUint64 filePath F w a).log ∨
          LogEvent.listFilesFailed v ∈ (AddNode hashStringToUint64 filePath F w a).log) ∧
        f ∈ ListVideoFiles ((AddNode hashStringToUint64 filePath F w a).world.servers
          (addNodeSuccAddr (addNodeRing hashStringToUint64 w.svc a) (hashStringToUint64 a))) v) ∨
      (f ∈ ListVideoFiles ((AddNode hashStringToUint64 filePath F w a).world.servers a) v ∧
        f ∈ ListVideoFiles ((AddNode hashStringToUint64 filePath F w a).world.servers
          (addNodeSuccAddr (addNodeRing hashStringToUint64 w.svc a) (hashStringToUint64 a))) v ∧
        (F.deleteFiles v = true ∨ F.remove (filePath v f) = true ∨
          ∃ g, g ≠ f ∧
            g ∈ ListVideoFiles (w.servers (addNodeSuccAddr
              (addNodeRing hashStringToUint64 w.svc a) (hashStringToUint64 a))) v ∧
            filePath v g = filePath v f)) := by
  have core : (f ∈ ListVideoFiles ((AddNode hashStringToUint64 filePath F w a).world.servers a) v ∨
      (((∀ c, (AddNode hashStringToUint64 filePath F w a).result ≠ Outcome.ok c) ∨
          LogEvent.migrateFailed v f ∈ (AddNode hashStringToUint64 filePath F w a).log ∨
          LogEvent.listFilesFailed v ∈ (AddNode hashStringToUint64 filePath F w a).log) ∧
        f ∈ ListVideoFiles ((AddNode hashStringToUint64 filePath F w a).world.servers
          (addNodeSuccAddr (addNodeRing hashStringToUint64 w.svc a) (hashStringToUint64 a))) v)) ∧
      (F.deleteFiles v = false → F.remove (filePath v f) = false →
        (∀ g ∈ ListVideoFiles (w.servers (addNodeSuccAddr
            (addNodeRing hashStringToUint64 w.svc a) (hashStringToUint64 a))) v,
          filePath v g = filePath v f → g = f) →
        f ∉ ListVideoFiles ((AddNode hashStringToUint64 filePath F w a).world.servers
          (addNodeSuccAddr (addNodeRing hashStringToUint64 w.svc a) (hashStringToUint64 a))) v ∨
        (∀ c, (AddNode hashStringToUint64 filePath F w a).result ≠ Outcome.ok c) ∨
        LogEvent.migrateFailed v f ∈ (AddNode hashStringToUint64 filePath F w a).log ∨
        LogEvent.listFilesFailed v ∈ (AddNode hashStringToUint64 filePath F w a).log) := by
    unfold AddNode
    by_cases h1 : (mapGet? w.svc.nodes a).isSome = true
    · simp only [h1, if_true]
      exact ⟨Or.inr ⟨Or.inl (fun c h => by simp at h), hidx⟩,
        fun _ _ _ => Or.inr (Or.inl (fun c h => by simp at h))⟩
    · by_cases h2 : F.dial a = true
      · simp only [h1, h2, if_true, Bool.false_eq_true, if_false]
        exact ⟨Or.inr ⟨Or.inl (fun c h => by simp at h), hidx⟩,
          fun _ _ _ => Or.inr (Or.inl (fun c h => by simp at h))⟩
      · simp only [h1, h2, Bool.false_eq_true, if_false]
        have h3 : ¬ ((addNodeRing hashStringToUint64 w.svc a).nodesHashes.length = 1 ∨
            addNodeSuccAddr (addNodeRing hashStringToUint64 w.svc a) (hashStringToUint64 a) =
              a) := by
          rintro (h | h)
          · exact hother (addNodeSuccAddr_single hashStringToUint64 w.svc a h)
          · exact hother h
        simp only [h3, if_false]
        cases hcl : mapGet? (addNodeRing hashStringToUint64 w.svc a).nodes
            (addNodeSuccAddr (addNodeRing hashStringToUint64 w.svc a) (hashStringToUint64 a)) with
        | none =>
          simp only
          exact ⟨Or.inr ⟨Or.inl (fun c h => by simp at h), hidx⟩,
            fun _ _ _ => Or.inr (Or.inl (fun c h => by simp at h))⟩
        | some succClient =>
          have htarget : succClient.target = addNodeSuccAddr
              (addNodeRing hashStringToUint64 w.svc a) (hashStringToUint64 a) := by
            have h := hcl
            simp only [addNodeRing] at h
            rw [mapGet?_mapSet_ne _ _ _ _ (by simpa only [addNodeRing] using hother)] at h
            exact (hwf.2.2.2 _ (mem_of_mapGet? _ _ _ h)).1
          simp only [htarget]
          by_cases h4 : F.listVideos (addNodeSuccAddr
              (addNodeRing hashStringToUint64 w.svc a) (hashStringToUint64 a)) = true
          · simp only [h4, if_true]
            exact ⟨Or.inr ⟨Or.inl (fun c h => by simp at h), hidx⟩,
              fun _ _ _ => Or.inr (Or.inl (fun c h => by simp at h))⟩
          · simp only [h4, Bool.false_eq_true, if_false]
            constructor
            · rcases addNodeVideos_inv hashStringToUint64 filePath F _ _ _ _ hother v f hrange _
                { servers := w.servers, count := 0, log := [] } hdata
                (Or.inr (Or.inr ⟨hidx, mem_listVideos_of_mem_files _ _ _ hidx⟩)) with h | h
              · exact Or.inl h
              · exact Or.inr ⟨Or.inr h.1, h.2⟩
            · intro hdel hrem huniq
              rcases addNodeVideos_drop hashStringToUint64 filePath F _ _ _ _ hother v f _
                hrange hdel hrem huniq _ { servers := w.servers, count := 0, log := [] }
                (fun g hg => hg)
                (Or.inr (Or.inr (Or.inr (mem_listVideos_of_mem_files _ _ _ hidx)))) with h | h
              · exact Or.inl h
              · exact Or.inr (Or.inr h)
  obtain ⟨hkept, hdrop⟩ := core
  by_cases hs : f ∈ ListVideoFiles ((AddNode hashStringToUint64 filePath F w a).world.servers
      (addNodeSuccAddr (addNodeRing hashStringToUint64 w.svc a) (hashStringToUint64 a))) v
  · rcases hkept with h | h
    · by_cases hc1 : F.deleteFiles v = true
      · exact Or.inr (Or.inr ⟨h, hs, Or.inl hc1⟩)
      · by_cases hc2 : F.remove (filePath v f) = true
        · exact Or.inr (Or.inr ⟨h, hs, Or.inr (Or.inl hc2)⟩)
        · by_cases hc3 : ∃ g, g ≠ f ∧
              g ∈ ListVideoFiles (w.servers (addNodeSuccAddr
                (addNodeRing hashStringToUint64 w.svc a) (hashStringToUint64 a))) v ∧
              filePath v g = filePath v f
          · exact Or.inr (Or.inr ⟨h, hs, Or.inr (Or.inr hc3)⟩)
          · have huniq : ∀ g ∈ ListVideoFiles (w.servers (addNodeSuccAddr
                (addNodeRing hashStringToUint64 w.svc a) (hashStringToUint64 a))) v,
                filePath v g = filePath v f → g = f := by
              intro g hg hpath
              by_contra hgf
              exact hc3 ⟨g, hgf, hg, hpath⟩
            rcases hdrop (by simpa using hc1) (by simpa using hc2) huniq with h5 | h5
            · exact absurd hs h5
            · exact Or.inr (Or.inl ⟨h5, hs⟩)
    · exact Or.inr (Or.inl h)
  · rcases hkept with h | h
    · exact Or.inl ⟨h, hs⟩
    · exact absurd h.2 hs

/-- C10, failing input: the successor holds an empty file, as `Upload` stores
it from a single chunk without data, whose key lies in the arc of the new node,
and nothing fails; `AddNode` counts the file as migrated, yet afterwards the
pair is indexed neither on the new node nor on the successor, and the new node
indexes the pair of empty strings instead. -/
theorem addNode_loses_empty_file :
    (Upload demoPath emptyServer [{ videoId := "v", filename := "seg", data := [] }]
        StreamFault.none).1 = fleetWithSeg [] "b:1" ∧
      WellFormed demoHash ringB ∧ mapGet? ringB.nodes "c:1" = none ∧
      demoHash "c:1" ∉ ringB.nodesHashes ∧
      "seg" ∈ ListVideoFiles (fleetWithSeg [] "b:1") "v" ∧
      inRangeExclusive (addNodePredHash (addNodeRing demoHash ringB "c:1") (demoHash "c:1"))
        (demoHash "c:1") (demoHash ("v" ++ "/" ++ "seg")) = true ∧
      addNodeSuccAddr (addNodeRing demoHash ringB "c:1") (demoHash "c:1") = "b:1" ∧
      (AddNode demoHash demoPath noFaults
        { svc := ringB, servers := fleetWithSeg [] } "c:1").result = Outcome.ok 1 ∧
      (AddNode demoHash demoPath noFaults
        { svc := ringB, servers := fleetWithSeg [] } "c:1").log = [LogEvent.migrated "v" "seg"] ∧
      "seg" ∉ ListVideoFiles ((AddNode demoHash demoPath noFaults
        { svc := ringB, servers := fleetWithSeg [] } "c:1").world.servers "c:1") "v" ∧
      "seg" ∉ ListVideoFiles ((AddNode demoHash demoPath noFaults
        { svc := ringB, servers := fleetWithSeg [] } "c:1").world.servers "b:1") "v" ∧
      (AddNode demoHash demoPath noFaults
        { svc := ringB, servers := fleetWithSeg [] } "c:1").world.servers "c:1" =
          { files := [], dirs := [], videoIndex := [("", [""])] } := by
  decide

theorem addNode_key_kept_witness :
    ("seg" ∈ ListVideoFiles ((AddNode demoHash demoPath noFaults
          { svc := ringB, servers := fleetWithSeg [1] } "c:1").world.servers "c:1") "v" ∧
        "seg" ∉ ListVideoFiles ((AddNode demoHash demoPath noFaults
          { svc := ringB, servers := fleetWithSeg [1] } "c:1").world.servers
          (addNodeSuccAddr (addNodeRing demoHash ringB "c:1") (demoHash "c:1"))) "v") ∨
      (((∀ c, (AddNode demoHash demoPath noFaults
            { svc := ringB, servers := fleetWithSeg [1] } "c:1").result ≠ Outcome.ok c) ∨
          LogEvent.migrateFailed "v" "seg" ∈ (AddNode demoHash demoPath noFaults
            { svc := ringB, servers := fleetWithSeg [1] } "c:1").log ∨
          LogEvent.listFilesFailed "v" ∈ (AddNode demoHash demoPath noFaults
            { svc := ringB, servers := fleetWithSeg [1] } "c:1").log) ∧
        "seg" ∈ ListVideoFiles ((AddNode demoHash demoPath noFaults
          { svc := ringB, servers := fleetWithSeg [1] } "c:1").world.servers
          (addNodeSuccAddr (addNodeRing demoHash ringB "c:1") (demoHash "c:1"))) "v") ∨
      ("seg" ∈ ListVideoFiles ((AddNode demoHash demoPath noFaults
          { svc := ringB, servers := fleetWithSeg [1] } "c:1").world.servers "c:1") "v" ∧
        "seg" ∈ ListVideoFiles ((AddNode demoHash demoPath noFaults
          { svc := ringB, servers := fleetWithSeg [1] } "c:1").world.servers
          (addNodeSuccAddr (addNodeRing demoHash ringB "c:1") (demoHash "c:1"))) "v" ∧
        (noFaults.deleteFiles "v" = true ∨ noFaults.remove (demoPath "v" "seg") = true ∨
          ∃ g, g ≠ "seg" ∧
            g ∈ ListVideoFiles (fleetWithSeg [1]
              (addNodeSuccAddr (addNodeRing demoHash ringB "c:1") (demoHash "c:1"))) "v" ∧
            demoPath "v" g = demoPath "v" "seg")) :=
  addNode_key_kept demoHash demoPath noFaults { svc := ringB, servers := fleetWithSeg [1] }
    "c:1" "v" "seg" (by decide) (by decide) (by decide) (by decide) (by decide)

theorem getClientForKey_smallest_ge_with_wrap_witness :
    ∃ t a, t ∈ ringAB.nodesHashes ∧ mapGet? ringAB.hashToNode t = some a ∧
      getClientForKey demoHash ringAB "v/seg" = Outcome.ok (mapGet? ringAB.nodes a, a) ∧
      ((demoHash "v/seg" ≤ t ∧ ∀ u ∈ ringAB.nodesHashes, demoHash "v/seg" ≤ u → t ≤ u) ∨
        ((∀ u ∈ ringAB.nodesHashes, u < demoHash "v/seg") ∧
          ∀ u ∈ ringAB.nodesHashes, t ≤ u)) :=
  getClientForKey_smallest_ge_with_wrap demoHash ringAB "v/seg" (by decide) (by decide)
    (by decide)

/-! ## Round trip of a payload with at least one byte -/

theorem splitChunks_foldl (v f : String) (data : Bytes) :
    ∀ (fuel start : Nat) (acc : Bytes), data.length - start ≤ fuel →
      (splitChunks v f data fuel start).foldl (fun d c => d ++ c.data) acc =
        acc ++ data.drop start := by
  intro fuel
  induction fuel with
  | zero =>
    intro start acc h
    have : data.drop start = [] := List.drop_eq_nil_of_le (by omega)
    simp [splitChunks, this]
  | succ fuel ih =>
    intro start acc h
    simp only [splitChunks]
    by_cases hlt : start < data.length
    · simp only [hlt, if_true, List.foldl_cons]
      rw [ih (start + chunkSize) _ (by simp only [chunkSize]; omega), List.append_assoc]
      congr 1
      by_cases hbig : start + chunkSize > data.length
      · simp only [hbig, if_true]
        have h1 : data.drop (start + chunkSize) = [] := List.drop_eq_nil_of_le (by omega)
        have h2 : (data.drop start).take (data.length - start) = data.drop start :=
          List.take_of_length_le (by simp)
        rw [h1, h2, List.append_nil]
      · simp only [hbig, if_false, Nat.add_sub_cancel_left]
        rw [← List.drop_drop]
        exact List.take_append_drop _ _
    · have : data.drop start = [] := List.drop_eq_nil_of_le (by omega)
      simp [hlt, this]

theorem uploadLoop_files_started (filePath : String → String → Path) (p : Path) :
    ∀ (chunks : List FileChunk) (s : Server) (st : UploadLoop) (cur : Bytes),
      st.file = some p → mapGet? s.files p = some cur →
      mapGet? (uploadLoop filePath s st chunks StreamFault.none).1.files p =
          some (chunks.foldl (fun d c => d ++ c.data) cur) ∧
        (uploadLoop filePath s st chunks StreamFault.none).2 = Outcome.ok true := by
  intro chunks
  induction chunks with
  | nil =>
    intro s st cur _ hcur
    simpa [uploadLoop] using hcur
  | cons c cs ih =>
    intro s st cur hp hcur
    have hstep : uploadChunk filePath StreamFault.none s st c =
        ({ s with files := mapSet s.files p (cur ++ c.data) }, some st) := by
      simp [uploadChunk, hp, writeChunk, hcur]
    simp only [uploadLoop, hstep, StreamFault.step, List.foldl_cons]
    simp only [reduceCtorEq, if_false]
    exact ih _ st _ hp (by simp [mapGet?_mapSet_self])

theorem osMkdirAll_ok (s : Server) (dir : Path)
    (hclear : ∀ above ∈ dir.inits, mapGet? s.files above = none) :
    ∃ made, osMkdirAll s dir = some made ∧ made.files = s.files ∧ dir ∈ made.dirs ∧
      ∀ q, q ∈ made.dirs → q ∈ s.dirs ∨ q ∈ dir.inits := by
  have hany : (dir.inits.any (fun above => (mapGet? s.files above).isSome)) = false := by
    rw [List.any_eq_false]
    intro above habove
    simp [hclear above habove]
  refine ⟨{ s with dirs := s.dirs ++ List.filter (fun above => decide (above ∉ s.dirs)) dir.inits },
    by simp only [osMkdirAll, hany, Bool.false_eq_true, if_false], rfl, ?_, ?_⟩
  · by_cases h : dir ∈ s.dirs
    · exact List.mem_append_left _ h
    · refine List.mem_append_right _ (List.mem_filter.2 ⟨?_, by simpa using h⟩)
      exact (List.mem_inits _ _).2 (List.prefix_refl _)
  · intro q hq
    rcases List.mem_append.1 hq with h | h
    · exact Or.inl h
    · exact Or.inr (List.mem_filter.1 h).1

/-- Opening of the file by the first chunk when nothing fails: no regular file
is in the way of its directory and the path is not a directory. -/
theorem openUpload_ok (filePath : String → String → Path) (s : Server) (c : FileChunk)
    (hclear : ∀ above ∈ (filePath c.videoId c.filename).dropLast.inits,
      mapGet? s.files above = none)
    (hnodir : filePath c.videoId c.filename ∉ s.dirs)
    (hroot : filePath c.videoId c.filename ≠ []) :
    (openUpload filePath StreamFault.none s c).2 = some (filePath c.videoId c.filename) ∧
      mapGet? (openUpload filePath StreamFault.none s c).1.files
        (filePath c.videoId c.filename) = some [] := by
  have hnot : filePath c.videoId c.filename ∉ (filePath c.videoId c.filename).dropLast.inits := by
    intro hmem
    rw [List.mem_inits] at hmem
    have hlen := hmem.length_le
    rw [List.length_dropLast] at hlen
    have hpos : 0 < (filePath c.videoId c.filename).length := List.length_pos.2 hroot
    omega
  obtain ⟨made, hmk, hfiles, hparent, hdirs⟩ := osMkdirAll_ok s _ hclear
  have hfree : filePath c.videoId c.filename ∉ made.dirs := by
    intro h
    rcases hdirs _ h with h | h
    · exact hnodir h
    · exact hnot h
  have hcr : osCreate made (filePath c.videoId c.filename) =
      some { made with files := mapSet made.files (filePath c.videoId c.filename) [] } := by
    simp [osCreate, hfree, hparent]
  simp [openUpload, hmk, hcr, mapGet?_mapSet_self]

theorem upload_files (filePath : String → String → Path) (s : Server) (c : FileChunk)
    (cs : List FileChunk)
    (hclear : ∀ above ∈ (filePath c.videoId c.filename).dropLast.inits,
      mapGet? s.files above = none)
    (hnodir : filePath c.videoId c.filename ∉ s.dirs)
    (hroot : filePath c.videoId c.filename ≠ []) :
    mapGet? (Upload filePath s (c :: cs) StreamFault.none).1.files
        (filePath c.videoId c.filename) =
      some ((c :: cs).foldl (fun d c => d ++ c.data) []) ∧
    (Upload filePath s (c :: cs) StreamFault.none).2 = Outcome.ok true := by
  obtain ⟨ho1, ho2⟩ := openUpload_ok filePath s c hclear hnodir hroot
  have hstep : uploadChunk filePath StreamFault.none s
      { file := none, videoId := "", filename := "" } c =
      ({ (openUpload filePath StreamFault.none s c).1 with
          files := mapSet (openUpload filePath StreamFault.none s c).1.files
            (filePath c.videoId c.filename) ([] ++ c.data) },
        some { file := some (filePath c.videoId c.filename), videoId := c.videoId,
               filename := c.filename }) := by
    simp [uploadChunk, ho1, writeChunk, ho2]
  simp only [Upload, uploadLoop, hstep, StreamFault.step, List.foldl_cons, reduceCtorEq, if_false]
  exact uploadLoop_files_started filePath _ cs _ _ _ rfl (by simp [mapGet?_mapSet_self])

/-- `Write` of a payload with at least one byte under a name that is not
`.mp4`, with nothing failing, followed by `Read` returns the payload, when on
the owner no regular file is in the way of the directory of the path and the
path is not a directory. -/
theorem write_then_read_nonempty (hashStringToUint64 : String → Nat)
    (filePath : String → String → Path) (w : World) (v f : String) (data : Bytes)
    (client : StorageClient) (addr : String)
    (hroute : getClientForKey hashStringToUint64 w.svc (v ++ "/" ++ f) =
      Outcome.ok (some client, addr))
    (hname : hasSuffix f ".mp4" = false) (hne : data ≠ [])
    (hclear : ∀ above ∈ (filePath v f).dropLast.inits,
      mapGet? (w.servers client.target).files above = none)
    (hnodir : filePath v f ∉ (w.servers client.target).dirs)
    (hroot : filePath v f ≠ []) :
    (Write hashStringToUint64 filePath w StreamFault.none v f data).2 = Outcome.ok () ∧
      Read hashStringToUint64 filePath
        (Write hashStringToUint64 filePath w StreamFault.none v f data).1 false v f =
        Outcome.ok data := by
  obtain ⟨c, cs, hsplit, hcv, hcf⟩ := splitChunks_of_ne_nil v f data hne
  obtain ⟨hfiles, hack⟩ := upload_files filePath (w.servers client.target) c cs
    (by rw [hcv, hcf]; exact hclear) (by rw [hcv, hcf]; exact hnodir)
    (by rw [hcv, hcf]; exact hroot)
  have hcat := splitChunks_foldl v f data data.length 0 [] (by omega)
  rw [hsplit] at hcat
  simp only [List.nil_append, List.drop_zero] at hcat
  rw [hcat, hcv, hcf] at hfiles
  constructor
  · simp [Write, hname, hroute, hsplit, hack]
  · have hcat2 : List.foldl (fun d c => d ++ c.data) c.data cs = data := by
      simpa using hcat
    simp [Write, Read, hname, hroute, hsplit, setServer_same, Download, hfiles, hcat2]

/-! ## The `.mp4` policy of `Write` -/

theorem hasSuffix_append (base suffix : String) : hasSuffix (base ++ suffix) suffix = true := by
  simp [hasSuffix, List.isSuffixOf_iff_suffix]

theorem hasSuffix_iff (s suffix : String) :
    hasSuffix s suffix = true ↔ ∃ base : String, s = base ++ suffix := by
  constructor
  · intro h
    simp only [hasSuffix, List.isSuffixOf_iff_suffix] at h
    obtain ⟨t, ht⟩ := h
    refine ⟨⟨t⟩, ?_⟩
    apply String.ext
    simp [ht]
  · rintro ⟨base, rfl⟩
    exact hasSuffix_append base suffix

/-- C14: for a filename that ends in `.mp4`, `Write` returns success and
leaves the whole world (ring and every node) as it was, whatever the video id,
the data, the failures of the environment and the ring, the ring without nodes
included. -/
theorem write_mp4_is_skipped (hashStringToUint64 : String → Nat)
    (filePath : String → String → Path) (w : World) (fault : StreamFault)
    (videoId filename : String) (data : Bytes) (hmp4 : hasSuffix filename ".mp4" = true) :
    Write hashStringToUint64 filePath w fault videoId filename data = (w, Outcome.ok ()) := by
  simp [Write, hmp4]

theorem write_mp4_is_skipped_witness :
    Write demoHash demoPath
        { svc := { nodes := [], nodesHashes := [], hashToNode := [] }, servers := emptyFleet }
        StreamFault.none "v" "v.mp4" [1, 2] =
      ({ svc := { nodes := [], nodesHashes := [], hashToNode := [] }, servers := emptyFleet },
        Outcome.ok ()) :=
  write_mp4_is_skipped demoHash demoPath
    { svc := { nodes := [], nodesHashes := [], hashToNode := [] }, servers := emptyFleet }
    StreamFault.none "v" "v.mp4" [1, 2] (by decide)

/-! ## The chunks `Write` sends -/

theorem chunkSize_eq : chunkSize = 1048576 := rfl

theorem splitChunks_of_le (v f : String) (data : Bytes) (fuel start : Nat)
    (h : data.length ≤ start) : splitChunks v f data fuel start = [] := by
  cases fuel with
  | zero => rfl
  | succ k =>
    have : ¬ start < data.length := by omega
    simp [splitChunks, this]

theorem splitChunks_shape (v f : String) (data : Bytes) :
    ∀ (fuel start : Nat), data.length - start ≤ fuel →
      (splitChunks v f data fuel start).length =
          (data.length - start + chunkSize - 1) / chunkSize ∧
        (∀ c ∈ (splitChunks v f data fuel start).dropLast, c.data.length = chunkSize) ∧
        (∀ c ∈ (splitChunks v f data fuel start).getLast?,
          1 ≤ c.data.length ∧ c.data.length ≤ chunkSize) ∧
        (∀ c ∈ splitChunks v f data fuel start, c.videoId = v ∧ c.filename = f) ∧
        ((splitChunks v f data fuel start).map (fun c => c.data)).flatten = data.drop start := by
  intro fuel
  induction fuel with
  | zero =>
    intro start h
    have hd : data.drop start = [] := List.drop_eq_nil_of_le (by omega)
    have hz : data.length - start = 0 := by omega
    simp [splitChunks, hd, hz, chunkSize_eq]
  | succ fuel ih =>
    intro start h
    by_cases hlt : start < data.length
    · have hunf : splitChunks v f data (fuel + 1) start =
          { videoId := v, filename := f,
            data := (data.drop start).take
              ((if start + chunkSize > data.length then data.length else start + chunkSize) -
                start) } :: splitChunks v f data fuel (start + chunkSize) := by
        simp [splitChunks, hlt]
      rw [hunf]
      by_cases hbig : data.length ≤ start + chunkSize
      · have hrest : splitChunks v f data fuel (start + chunkSize) = [] :=
          splitChunks_of_le v f data fuel _ hbig
        have hstop : (if start + chunkSize > data.length then data.length
            else start + chunkSize) - start = data.length - start := by
          split <;> omega
        have h2 : (data.drop start).take (data.length - start) = data.drop start :=
          List.take_of_length_le (by simp)
        rw [hrest, hstop, h2]
        simp only [chunkSize_eq] at hbig
        refine ⟨?_, ?_, ?_, ?_, ?_⟩
        · simp only [List.length_singleton, chunkSize_eq]
          omega
        · simp
        · intro c hc
          simp only [List.getLast?_singleton, Option.mem_def, Option.some.injEq] at hc
          subst hc
          simp only [List.length_drop, chunkSize_eq]
          omega
        · intro c hc
          simp only [List.mem_singleton] at hc
          subst hc
          exact ⟨rfl, rfl⟩
        · simp
      · obtain ⟨i1, i2, i3, i4, i5⟩ := ih (start + chunkSize)
          (by simp only [chunkSize_eq] at hbig ⊢; omega)
        have hsmall : ¬ start + chunkSize > data.length := by omega
        have hne : splitChunks v f data fuel (start + chunkSize) ≠ [] := by
          intro hnil
          rw [hnil] at i1
          simp only [List.length_nil, chunkSize_eq] at i1 hbig
          omega
        obtain ⟨r0, rs, hr⟩ := List.exists_cons_of_ne_nil hne
        simp only [hsmall, if_false, Nat.add_sub_cancel_left]
        have hlen0 : ((data.drop start).take chunkSize).length = chunkSize := by
          simp only [List.length_take, List.length_drop, chunkSize_eq] at hbig ⊢
          omega
        refine ⟨?_, ?_, ?_, ?_, ?_⟩
        · rw [List.length_cons, i1]
          simp only [chunkSize_eq] at hbig ⊢
          omega
        · intro c hc
          rw [hr, List.dropLast_cons₂, ← hr] at hc
          rcases List.mem_cons.1 hc with h1 | h1
          · subst h1
            exact hlen0
          · exact i2 c h1
        · intro c hc
          rw [hr, List.getLast?_cons_cons, ← hr] at hc
          exact i3 c hc
        · intro c hc
          rcases List.mem_cons.1 hc with h1 | h1
          · subst h1
            exact ⟨rfl, rfl⟩
          · exact i4 c h1
        · simp only [List.map_cons, List.flatten_cons, i5]
          rw [← List.drop_drop]
          exact List.take_append_drop _ _
    · have hrest : splitChunks v f data (fuel + 1) start = [] :=
        splitChunks_of_le v f data _ _ (by omega)
      have hd : data.drop start = [] := List.drop_eq_nil_of_le (by omega)
      have hz : data.length - start = 0 := by omega
      simp [hrest, hd, hz, chunkSize_eq]

/-- C15: the chunks `Write` sends for `data` number `ceil(len(data) / 1048576)`,
every chunk but the last carries exactly 1 MiB, the last between one byte and
1 MiB, every chunk carries the video id and the filename of the call, and the
payloads concatenated in send order are `data`. -/
theorem write_chunks (videoId filename : String) (data : Bytes) :
    (splitChunks videoId filename data data.length 0).length =
        (data.length + 1048576 - 1) / 1048576 ∧
      (∀ c ∈ (splitChunks videoId filename data data.length 0).dropLast,
        c.data.length = 1048576) ∧
      (∀ c ∈ (splitChunks videoId filename data data.length 0).getLast?,
        1 ≤ c.data.length ∧ c.data.length ≤ 1048576) ∧
      (∀ c ∈ splitChunks videoId filename data data.length 0,
        c.videoId = videoId ∧ c.filename = filename) ∧
      ((splitChunks videoId filename data data.length 0).map (fun c => c.data)).flatten =
        data := by
  have h := splitChunks_shape videoId filename data data.length 0 (by omega)
  simpa only [chunkSize_eq, Nat.sub_zero, List.drop_zero] using h

/-- The stream `Write` hands to `Upload` on the owner of the key is the list of
chunks of `splitChunks`. -/
theorem write_stream (hashStringToUint64 : String → Nat)
    (filePath : String → String → Path) (w : World) (fault : StreamFault)
    (videoId filename : String) (data : Bytes) (client : StorageClient) (addr : String)
    (hname : hasSuffix filename ".mp4" = false)
    (hroute : getClientForKey hashStringToUint64 w.svc (videoId ++ "/" ++ filename) =
      Outcome.ok (some client, addr)) :
    (Write hashStringToUint64 filePath w fault videoId filename data).1.servers client.target =
      (Upload filePath (w.servers client.target)
        (splitChunks videoId filename data data.length 0) fault).1 := by
  simp [Write, hname, hroute, setServer_same]

/-! ## The index of a storage node -/

theorem recordUpload_files (idx : List (String × List String)) (v f : String) :
    (mapGet? (recordUpload idx v f) v).getD [] =
      if f ∈ (mapGet? idx v).getD [] then (mapGet? idx v).getD []
      else (mapGet? idx v).getD [] ++ [f] := by
  rw [mapGet?_recordUpload]
  by_cases hf : f ∈ (mapGet? idx v).getD [] <;> simp [hf]

theorem recordUpload_preserves (idx : List (String × List String)) (v f : String)
    (h : ∀ v' l, mapGet? idx v' = some l → l.Nodup ∧ l ≠ []) :
    ∀ v' l, mapGet? (recordUpload idx v f) v' = some l → l.Nodup ∧ l ≠ [] := by
  intro v' l hl
  rw [mapGet?_recordUpload] at hl
  by_cases hv : v' = v
  · simp only [hv, if_true] at hl
    by_cases hf : f ∈ (mapGet? idx v).getD []
    · simp only [hf, if_true] at hl
      exact h v l hl
    · simp only [hf, if_false, Option.some.injEq] at hl
      subst hl
      refine ⟨?_, by simp⟩
      have hnd : ((mapGet? idx v).getD []).Nodup := by
        cases hg : mapGet? idx v with
        | none => simp
        | some cur => simpa using (h v cur hg).1
      rw [List.nodup_append]
      refine ⟨hnd, List.nodup_singleton f, ?_⟩
      intro x hx hx2
      simp only [List.mem_singleton] at hx2
      exact hf (hx2 ▸ hx)
  · simp only [hv, if_false] at hl
    exact h v' l hl


theorem nodeReachable_index (filePath : String → String → Path) (s : Server)
    (hs : NodeReachable filePath s) :
    ∀ v l, mapGet? s.videoIndex v = some l → l.Nodup ∧ l ≠ [] := by
  induction hs with
  | init files dirs => intro v l h; simp [NewServer, mapGet?] at h
  | upload s stream fault _ ih =>
    rcases upload_videoIndex_cases filePath s stream fault with h | h
    · rw [h]; exact ih
    · rw [h]; exact recordUpload_preserves _ _ _ ih
  | delete s removeFails videoId filenames _ ih =>
    exact deleteFiles_preserves filePath removeFails s videoId filenames ih

theorem nodeReachable_nodup (filePath : String → String → Path) (s : Server)
    (hs : NodeReachable filePath s) (v : String) : (ListVideoFiles s v).Nodup := by
  unfold ListVideoFiles
  cases hg : mapGet? s.videoIndex v with
  | none => simp
  | some l => simpa using (nodeReachable_index filePath s hs v l hg).1

/-- C11: a completed `Upload` leaves the list of its video id as it was when
the filename was in it and appends the filename otherwise, and touches no other
list; every list of a node reached from `NewServer` by `Upload` and
`DeleteFiles` is free of duplicates; `DeleteFiles` keeps the relative order of
what remains; and two completed uploads of the same pair leave the filename in
the list exactly once. -/
theorem upload_index_law (filePath : String → String → Path) :
    (∀ (s : Server) (stream : List FileChunk) (fault : StreamFault) (b : Bool),
        (Upload filePath s stream fault).2 = Outcome.ok b →
        ListVideoFiles (Upload filePath s stream fault).1 (uploadIds stream).1 =
            (if (uploadIds stream).2 ∈ ListVideoFiles s (uploadIds stream).1 then
              ListVideoFiles s (uploadIds stream).1
            else ListVideoFiles s (uploadIds stream).1 ++ [(uploadIds stream).2]) ∧
          ∀ v', v' ≠ (uploadIds stream).1 →
            ListVideoFiles (Upload filePath s stream fault).1 v' = ListVideoFiles s v') ∧
      (∀ s, NodeReachable filePath s → ∀ v, (ListVideoFiles s v).Nodup) ∧
      (∀ (s : Server) (removeFails : Path → Bool) (videoId : String) (names : List String)
          (v' : String),
        (ListVideoFiles (DeleteFiles filePath removeFails s videoId names).1 v').Sublist
          (ListVideoFiles s v')) ∧
      (∀ (s : Server) (stream1 stream2 : List FileChunk) (fault1 fault2 : StreamFault)
          (b1 b2 : Bool),
        NodeReachable filePath s → uploadIds stream2 = uploadIds stream1 →
        (Upload filePath s stream1 fault1).2 = Outcome.ok b1 →
        (Upload filePath (Upload filePath s stream1 fault1).1 stream2 fault2).2 = Outcome.ok b2 →
        ListVideoFiles (Upload filePath (Upload filePath s stream1 fault1).1 stream2 fault2).1
            (uploadIds stream1).1 =
          ListVideoFiles (Upload filePath s stream1 fault1).1 (uploadIds stream1).1 ∧
        (ListVideoFiles (Upload filePath (Upload filePath s stream1 fault1).1 stream2 fault2).1
            (uploadIds stream1).1).count (uploadIds stream1).2 = 1) := by
  have step : ∀ (s : Server) (stream : List FileChunk) (fault : StreamFault) (b : Bool),
      (Upload filePath s stream fault).2 = Outcome.ok b →
      ListVideoFiles (Upload filePath s stream fault).1 (uploadIds stream).1 =
          (if (uploadIds stream).2 ∈ ListVideoFiles s (uploadIds stream).1 then
            ListVideoFiles s (uploadIds stream).1
          else ListVideoFiles s (uploadIds stream).1 ++ [(uploadIds stream).2]) ∧
        ∀ v', v' ≠ (uploadIds stream).1 →
          ListVideoFiles (Upload filePath s stream fault).1 v' = ListVideoFiles s v' := by
    intro s stream fault b hok
    have hidx := upload_ok_videoIndex filePath s stream fault b hok
    constructor
    · simp only [ListVideoFiles, hidx]
      exact recordUpload_files _ _ _
    · intro v' hv'
      simp only [ListVideoFiles, hidx, mapGet?_recordUpload, hv', if_false]
  refine ⟨step, fun s hs v => nodeReachable_nodup filePath s hs v,
    fun s removeFails videoId names v' =>
      deleteFiles_sublist filePath removeFails s videoId names v', ?_⟩
  intro s stream1 stream2 fault1 fault2 b1 b2 hs hids hok1 hok2
  have h1 := (step s stream1 fault1 b1 hok1).1
  have h2 := (step (Upload filePath s stream1 fault1).1 stream2 fault2 b2 hok2).1
  rw [hids] at h2
  have hmem : (uploadIds stream1).2 ∈
      ListVideoFiles (Upload filePath s stream1 fault1).1 (uploadIds stream1).1 := by
    rw [h1]
    split
    · assumption
    · simp
  rw [if_pos hmem] at h2
  refine ⟨h2, ?_⟩
  rw [h2]
  exact List.count_eq_one_of_mem
    (nodeReachable_nodup filePath _ (NodeReachable.upload s stream1 fault1 hs) _) hmem

theorem upload_index_law_witness :
    (ListVideoFiles (Upload demoPath (NewServer [] [])
          [{ videoId := "v", filename := "seg", data := [1] }] StreamFault.none).1 "v" =
        ["seg"] ∧
      ∀ v', v' ≠ "v" →
        ListVideoFiles (Upload demoPath (NewServer [] [])
          [{ videoId := "v", filename := "seg", data := [1] }] StreamFault.none).1 v' =
          ListVideoFiles (NewServer [] []) v') ∧
      (ListVideoFiles (Upload demoPath (NewServer [] [])
          [{ videoId := "v", filename := "seg", data := [1] }] StreamFault.none).1 "v").Nodup ∧
      (ListVideoFiles (Upload demoPath (Upload demoPath (NewServer [] [])
            [{ videoId := "v", filename := "seg", data := [1] }] StreamFault.none).1
            [{ videoId := "v", filename := "seg", data := [2] }] StreamFault.none).1 "v" =
          ListVideoFiles (Upload demoPath (NewServer [] [])
            [{ videoId := "v", filename := "seg", data := [1] }] StreamFault.none).1 "v" ∧
        (ListVideoFiles (Upload demoPath (Upload demoPath (NewServer [] [])
            [{ videoId := "v", filename := "seg", data := [1] }] StreamFault.none).1
            [{ videoId := "v", filename := "seg", data := [2] }] StreamFault.none).1
            "v").count "seg" = 1) :=
  ⟨(upload_index_law demoPath).1 (NewServer [] [])
      [{ videoId := "v", filename := "seg", data := [1] }] StreamFault.none true (by decide),
    (upload_index_law demoPath).2.1 _
      (NodeReachable.upload _ _ _ (NodeReachable.init [] [])) "v",
    (upload_index_law demoPath).2.2.2 (NewServer [] [])
      [{ videoId := "v", filename := "seg", data := [1] }]
      [{ videoId := "v", filename := "seg", data := [2] }] StreamFault.none StreamFault.none
      true true (NodeReachable.init [] []) (by decide) (by decide) (by decide)⟩

/-- C12: on a video id that is present, `DeleteFiles` leaves its list equal to
the old list without the names whose removal from disk succeeded, in the old
order; when nothing is left the key is deleted, so the key never maps to the
empty list; the entry of every other video id is unchanged; and on a node
reached from `NewServer` no video id maps to the empty list. -/
theorem deleteFiles_index_law (filePath : String → String → Path)
    (removeFails : Path → Bool) (s : Server) (videoId : String) (names cur : List String)
    (hcur : mapGet? s.videoIndex videoId = some cur) :
    ListVideoFiles (DeleteFiles filePath removeFails s videoId names).1 videoId =
        cur.filter (fun f =>
          decide ((f, true) ∉ removeOutcomes filePath removeFails videoId names s)) ∧
      (cur.filter (fun f =>
          decide ((f, true) ∉ removeOutcomes filePath removeFails videoId names s))).Sublist
        cur ∧
      (cur.filter (fun f =>
          decide ((f, true) ∉ removeOutcomes filePath removeFails videoId names s)) = [] →
        mapGet? (DeleteFiles filePath removeFails s videoId names).1.videoIndex videoId = none) ∧
      mapGet? (DeleteFiles filePath removeFails s videoId names).1.videoIndex videoId ≠ some [] ∧
      (∀ v', v' ≠ videoId →
        mapGet? (DeleteFiles filePath removeFails s videoId names).1.videoIndex v' =
          mapGet? s.videoIndex v') ∧
      (∀ s', NodeReachable filePath s' → ∀ v' l, mapGet? s'.videoIndex v' = some l → l ≠ []) := by
  obtain ⟨h1, h2⟩ := deleteFiles_index filePath removeFails s videoId names cur hcur
  refine ⟨?_, List.filter_sublist _, ?_, ?_, h2,
    fun s' hs' v' l hl => (nodeReachable_index filePath s' hs' v' l hl).2⟩
  · simp only [ListVideoFiles, h1]
    split
    · rename_i hnil
      rw [hnil]
      rfl
    · rfl
  · intro hnil
    rw [h1, if_pos hnil]
  · rw [h1]
    split
    · simp
    · rename_i hne
      intro h
      exact hne (Option.some.inj h)

theorem deleteFiles_index_law_witness :
    ListVideoFiles (DeleteFiles demoPath (fun _ => false) serverTwo "v" ["s2", "s9"]).1 "v" =
        ["s1", "s2"].filter (fun f =>
          decide ((f, true) ∉ removeOutcomes demoPath (fun _ => false) "v" ["s2", "s9"]
            serverTwo)) ∧
      ListVideoFiles (DeleteFiles demoPath (fun _ => false) serverTwo "v" ["s2", "s9"]).1 "v" =
        ["s1"] :=
  ⟨(deleteFiles_index_law demoPath (fun _ => false) serverTwo "v" ["s2", "s9"] ["s1", "s2"]
      (by decide)).1, by decide⟩

/-- C13: when `DeleteFiles` returns success, the video id was in the index and
the `os.Remove` of every requested name, in request order, succeeded; when the
video id is not in the index the call returns failure and leaves disk and index
as they were. -/
theorem deleteFiles_success_law (filePath : String → String → Path)
    (removeFails : Path → Bool) (s : Server) (videoId : String) (names : List String) :
    ((DeleteFiles filePath removeFails s videoId names).2 = true →
        (mapGet? s.videoIndex videoId).isSome = true ∧
        (removeOutcomes filePath removeFails videoId names s).map Prod.fst = names ∧
        ∀ p ∈ removeOutcomes filePath removeFails videoId names s, p.2 = true) ∧
      (mapGet? s.videoIndex videoId = none →
        DeleteFiles filePath removeFails s videoId names = (s, false)) := by
  refine ⟨?_, deleteFiles_absent filePath removeFails s videoId names⟩
  intro hsucc
  cases hcur : mapGet? s.videoIndex videoId with
  | none =>
    rw [deleteFiles_absent filePath removeFails s videoId names hcur] at hsucc
    exact absurd hsucc (by simp)
  | some cur =>
    refine ⟨rfl, removeOutcomes_fst filePath removeFails videoId names s, ?_⟩
    simp only [DeleteFiles, hcur, decide_eq_true_eq] at hsucc
    have hlen := removeLoop_length filePath removeFails videoId names s []
    have hout := removeOutcomes_length filePath removeFails videoId names s
    have hle := List.length_filter_le (fun p : String × Bool => p.2)
      (removeOutcomes filePath removeFails videoId names s)
    simp only [List.length_nil, Nat.zero_add] at hlen
    have heq : ((removeOutcomes filePath removeFails videoId names s).filter
        (fun p => p.2)).length =
        (removeOutcomes filePath removeFails videoId names s).length := by
      omega
    exact List.filter_length_eq_length.1 heq

theorem deleteFiles_success_law_witness :
    ((mapGet? (fleetWithSeg [1] "b:1").videoIndex "v").isSome = true ∧
        (removeOutcomes demoPath (fun _ => false) "v" ["seg", ""]
          (fleetWithSeg [1] "b:1")).map Prod.fst = ["seg", ""] ∧
        ∀ p ∈ removeOutcomes demoPath (fun _ => false) "v" ["seg", ""] (fleetWithSeg [1] "b:1"),
          p.2 = true) ∧
      DeleteFiles demoPath (fun _ => false) (fleetWithSeg [1] "b:1") "w" ["seg"] =
        (fleetWithSeg [1] "b:1", false) :=
  ⟨(deleteFiles_success_law demoPath (fun _ => false) (fleetWithSeg [1] "b:1")
      "v" ["seg", ""]).1 (by decide),
    (deleteFiles_success_law demoPath (fun _ => false) (fleetWithSeg [1] "b:1")
      "w" ["seg"]).2 (by decide)⟩

/-- The disk under `DeleteFiles` and `Upload`: `os.Remove` removes a directory
that is empty, `os.Create` fails on a directory. After the file `seg` of video
`v` the request names the directory of the video (the empty name), both removals
succeed and the call reports success. Over an empty base directory the empty
name of the empty video id is the base directory: its removal succeeds and the
key goes, and `Upload` of that pair fails and leaves files and index as they
were. -/
theorem deleteFiles_removes_empty_directory :
    DeleteFiles demoPath (fun _ => false) (fleetWithSeg [1] "b:1") "v" ["seg", ""] =
        (freshServer, true) ∧
      DeleteFiles demoPath (fun _ => false) { freshServer with videoIndex := [("", [""])] }
          "" [""] =
        ({ files := [], dirs := [[]], videoIndex := [] }, true) ∧
      Upload demoPath freshServer [{ videoId := "", filename := "", data := [1] }]
          StreamFault.none =
        (freshServer, Outcome.err Err.uploadFailed) := by
  decide

/-! ## The arc of a new token -/

theorem find?_ge_eq_none_iff (l : List Nat) (x : Nat) :
    l.find? (fun t => decide (x ≤ t)) = none ↔ ∀ a ∈ l, a < x := by
  rw [List.find?_eq_none]
  constructor
  · intro h a ha
    have := h a ha
    simp only [decide_eq_true_eq] at this
    omega
  · intro h a ha
    have := h a ha
    simp only [decide_eq_true_eq]
    omega

theorem pairwise_lt_concat (l : List Nat) (q : Nat) (h : (l ++ [q]).Pairwise (· < ·)) :
    ∀ a ∈ l, a < q := by
  rw [List.pairwise_append] at h
  intro a ha
  exact h.2.2 a ha q (List.mem_singleton_self q)

theorem all_lt_concat_iff (l : List Nat) (q x : Nat) (h : (l ++ [q]).Pairwise (· < ·)) :
    (∀ a ∈ l ++ [q], a < x) ↔ q < x := by
  constructor
  · intro hall
    exact hall q (by simp)
  · intro hq a ha
    rcases List.mem_append.1 ha with h1 | h1
    · exact lt_trans (pairwise_lt_concat l q h a h1) hq
    · simp only [List.mem_singleton] at h1
      omega

theorem mem_concat_le (l : List Nat) (q u : Nat) (h : (l ++ [q]).Pairwise (· < ·))
    (hu : u ∈ l ++ [q]) : u ≤ q := by
  rcases List.mem_append.1 hu with h1 | h1
  · exact Nat.le_of_lt (pairwise_lt_concat l q h u h1)
  · simp only [List.mem_singleton] at h1
    omega

theorem getD_concat_length (l r : List Nat) (q : Nat) :
    (l ++ q :: r).getD l.length 0 = q := by
  rw [List.getD_eq_getElem?_getD, List.getElem?_append_right (le_refl _)]
  simp

theorem ownerToken_cons_new_iff (B : List Nat) (n x : Nat)
    (hasc : (n :: B).Pairwise (· < ·)) :
    ownerToken (n :: B) x = some n ↔
      inRangeExclusive ((n :: B).getD ((n :: B).length - 1) 0) n x = true := by
  have hB : ∀ y ∈ B, n < y := (List.pairwise_cons.1 hasc).1
  have hBasc : B.Pairwise (· < ·) := (List.pairwise_cons.1 hasc).2
  unfold ownerToken
  rcases List.eq_nil_or_concat B with hBnil | ⟨B', q, hBcat⟩
  · subst hBnil
    have hr : inRangeExclusive n n x = true := by
      unfold inRangeExclusive
      simp only [lt_irrefl, if_false, Bool.or_eq_true, decide_eq_true_eq]
      omega
    simp only [List.length_singleton, Nat.sub_self, List.getD_cons_zero, hr, iff_true]
    by_cases hx : x ≤ n <;> simp [hx]
  · rw [List.concat_eq_append] at hBcat
    subst hBcat
    have hget : (n :: (B' ++ [q])).getD ((n :: (B' ++ [q])).length - 1) 0 = q := by
      simp
    have hnq : n < q := hB q (by simp)
    rw [hget]
    unfold inRangeExclusive
    have hnot : ¬ q < n := by omega
    simp only [hnot, if_false, Bool.or_eq_true, decide_eq_true_eq]
    by_cases hx : x ≤ n
    · simp [hx]
    · rw [List.find?_cons_of_neg _ (by simpa using hx)]
      cases hf : (B' ++ [q]).find? (fun t => decide (x ≤ t)) with
      | none =>
        have hall := (find?_ge_eq_none_iff _ x).1 hf
        have hq := (all_lt_concat_iff B' q x hBasc).1 hall
        simp only [List.head?_cons, true_iff]
        omega
      | some u =>
        have hu : u ∈ B' ++ [q] := List.mem_of_find?_eq_some hf
        have hun : u ≠ n := Nat.ne_of_gt (hB u hu)
        have hxu : x ≤ u := by
          have := List.find?_some hf
          simpa using this
        have huq : u ≤ q := mem_concat_le B' q u hBasc hu
        simp only [Option.some.injEq, hun, false_iff]
        omega

/-- Owner of `x` on an ascending list that holds `n`: it is `n` exactly when `x`
lies in the arc from the token before `n` (the last token when `n` is the
first) up to `n`. -/
theorem ownerToken_eq_new_iff (A B : List Nat) (n x : Nat)
    (hasc : (A ++ n :: B).Pairwise (· < ·)) :
    ownerToken (A ++ n :: B) x = some n ↔
      inRangeExclusive
        ((A ++ n :: B).getD (if A.length = 0 then (A ++ n :: B).length - 1 else A.length - 1) 0)
        n x = true := by
  obtain ⟨hA, hB, _, _⟩ := pairwise_lt_split A B n hasc
  have hAasc : A.Pairwise (· < ·) := (List.pairwise_append.1 hasc).1
  rcases List.eq_nil_or_concat A with hnil | ⟨A', p, hcat⟩
  · subst hnil
    simpa using ownerToken_cons_new_iff B n x (by simpa using hasc)
  · rw [List.concat_eq_append] at hcat
    subst hcat
    have hpn : p < n := hA p (by simp)
    have hlen : (A' ++ [p]).length ≠ 0 := by simp
    have hget : (A' ++ [p] ++ n :: B).getD ((A' ++ [p]).length - 1) 0 = p := by
      have := getD_concat_length A' (n :: B) p
      simpa using this
    simp only [hlen, if_false, hget]
    unfold inRangeExclusive ownerToken
    simp only [hpn, if_true, Bool.and_eq_true, decide_eq_true_eq]
    rw [List.find?_append]
    cases hf : (A' ++ [p]).find? (fun t => decide (x ≤ t)) with
    | some u =>
      have hu : u ∈ A' ++ [p] := List.mem_of_find?_eq_some hf
      have hun : u ≠ n := Nat.ne_of_lt (hA u hu)
      have hxu : x ≤ u := by
        have := List.find?_some hf
        simpa using this
      have hup : u ≤ p := mem_concat_le A' p u hAasc hu
      simp only [Option.or_some, Option.some.injEq, hun, false_iff]
      omega
    | none =>
      have hall := (find?_ge_eq_none_iff _ x).1 hf
      have hpx := (all_lt_concat_iff A' p x hAasc).1 hall
      simp only [Option.none_or]
      by_cases hx : x ≤ n
      · rw [List.find?_cons_of_pos _ (by simpa using hx)]
        simp [hx, hpx]
      · rw [List.find?_cons_of_neg _ (by simpa using hx)]
        have hhead : ∀ u, (A' ++ [p] ++ n :: B).head? = some u → u ≠ n := by
          intro u hu
          cases A' with
          | nil =>
            simp only [List.nil_append, List.singleton_append, List.head?_cons,
              Option.some.injEq] at hu
            omega
          | cons a0 A'' =>
            simp only [List.cons_append, List.head?_cons, Option.some.injEq] at hu
            have := hA a0 (by simp)
            omega
        cases hfB : B.find? (fun t => decide (x ≤ t)) with
        | some u =>
          have hu : u ∈ B := List.mem_of_find?_eq_some hfB
          have hun : u ≠ n := Nat.ne_of_gt (hB u hu)
          simp only [Option.some.injEq, hun, false_iff]
          omega
        | none =>
          simp only
          constructor
          · intro h
            exact absurd rfl (hhead n h)
          · intro h
            omega

theorem ownerToken_new_iff_inRange (svc : NetworkVideoContentService) (n x : Nat)
    (hasc : svc.nodesHashes.Pairwise (· < ·)) (hn : n ∈ svc.nodesHashes) :
    ownerToken svc.nodesHashes x = some n ↔
      inRangeExclusive (addNodePredHash svc n) n x = true := by
  obtain ⟨i, hi, _, _⟩ := firstIndex_of_mem n _ hn
  obtain ⟨hsplit, hlenA⟩ := firstIndex_split n _ i hi
  have hasc2 : (svc.nodesHashes.take i ++ n :: svc.nodesHashes.drop (i + 1)).Pairwise (· < ·) := by
    rw [← hsplit]; exact hasc
  have h := ownerToken_eq_new_iff _ _ n x hasc2
  rw [← hsplit, hlenA] at h
  simpa only [addNodePredHash, hi, Option.getD_some] using h

/-- C16: on a strictly ascending ring that holds the token `n`, with `pred` the
token `AddNode` reads at the previous index (wrapping), the owner of a key hash
`x` found by the search of `getClientForKey` is `n` if and only if
`inRangeExclusive pred n x` holds; on the ring of size one `pred` is `n`. -/
theorem owner_is_new_iff_inRange (svc : NetworkVideoContentService) (n x : Nat)
    (hasc : svc.nodesHashes.Pairwise (· < ·)) (hn : n ∈ svc.nodesHashes) :
    (svc.nodesHashes[ownerIndex svc.nodesHashes x]? = some n ↔
        inRangeExclusive (addNodePredHash svc n) n x = true) ∧
      (svc.nodesHashes = [n] → addNodePredHash svc n = n) := by
  refine ⟨?_, ?_⟩
  · rw [getElem?_ownerIndex _ _ hasc]
    exact ownerToken_new_iff_inRange svc n x hasc hn
  · intro h1
    simp [addNodePredHash, h1, firstIndex]

theorem owner_is_new_iff_inRange_witness :
    ((addNodeRing demoHash ringAB "c:1").nodesHashes[
          ownerIndex (addNodeRing demoHash ringAB "c:1").nodesHashes 120]? = some 150 ↔
        inRangeExclusive (addNodePredHash (addNodeRing demoHash ringAB "c:1") 150) 150 120 =
          true) ∧
      ((addNodeRing demoHash ringAB "c:1").nodesHashes = [150] →
        addNodePredHash (addNodeRing demoHash ringAB "c:1") 150 = 150) :=
  owner_is_new_iff_inRange (addNodeRing demoHash ringAB "c:1") 150 120 (by decide) (by decide)

/-! ## The ring before and after a token joins -/

theorem sortSlice_strict (l : List Nat) (n : Nat) (hasc : l.Pairwise (· < ·))
    (hfresh : n ∉ l) : (sortSlice (l ++ [n])).Pairwise (· < ·) := by
  have hnd : (l ++ [n]).Nodup := by
    rw [List.nodup_append]
    refine ⟨hasc.imp (fun h => Nat.ne_of_lt h), List.nodup_singleton n, ?_⟩
    intro x hx hx2
    simp only [List.mem_singleton] at hx2
    exact hfresh (hx2 ▸ hx)
  have hnd2 : (sortSlice (l ++ [n])).Nodup := (sortSlice_perm _).nodup_iff.2 hnd
  have hboth := (sortSlice_sorted (l ++ [n])).and hnd2
  exact hboth.imp (fun h => lt_of_le_of_ne h.1 h.2)

/-- Cutting the new token out of the updated token list gives back the list
before the insertion. -/
theorem sortSlice_split (l : List Nat) (n : Nat) (hasc : l.Pairwise (· < ·))
    (hfresh : n ∉ l) :
    ∃ A B, sortSlice (l ++ [n]) = A ++ n :: B ∧ A ++ B = l ∧
      firstIndex (sortSlice (l ++ [n])) n = some A.length := by
  have hmem : n ∈ sortSlice (l ++ [n]) := (sortSlice_perm _).mem_iff.2 (by simp)
  obtain ⟨i, hi, _, _⟩ := firstIndex_of_mem n _ hmem
  obtain ⟨hsplit, hlenA⟩ := firstIndex_split n _ i hi
  have hstrict := sortSlice_strict l n hasc hfresh
  refine ⟨(sortSlice (l ++ [n])).take i, (sortSlice (l ++ [n])).drop (i + 1), hsplit, ?_,
    by rw [hlenA]; exact hi⟩
  have hasc2 : ((sortSlice (l ++ [n])).take i ++
      n :: (sortSlice (l ++ [n])).drop (i + 1)).Pairwise (· < ·) := by
    rw [← hsplit]; exact hstrict
  obtain ⟨_, _, hAB, _⟩ := pairwise_lt_split _ _ _ hasc2
  have hperm : ((sortSlice (l ++ [n])).take i ++ (sortSlice (l ++ [n])).drop (i + 1)).Perm l := by
    have h1 : ((sortSlice (l ++ [n])).take i ++
        n :: (sortSlice (l ++ [n])).drop (i + 1)).Perm (l ++ [n]) := by
      rw [← hsplit]; exact sortSlice_perm _
    have h2 : (n :: ((sortSlice (l ++ [n])).take i ++
        (sortSlice (l ++ [n])).drop (i + 1))).Perm (n :: l) :=
      (List.perm_middle.symm.trans h1).trans (List.perm_append_singleton n l)
    exact h2.cons_inv
  exact List.eq_of_perm_of_sorted hperm hAB hasc

theorem inRangeExclusive_end (p n : Nat) : inRangeExclusive p n n = true := by
  unfold inRangeExclusive
  by_cases h : p < n
  · simp [h]
  · simp [h]

/-- Owner of `x` before the insertion of a fresh token, read off the updated
ring: the successor `AddNode` computes when `x` lies in the arc of the new
token, the owner in the updated ring otherwise; the successor is not the new
token. -/
theorem ownerToken_before_insert (hashStringToUint64 : String → Nat)
    (svc : NetworkVideoContentService) (a : String) (x : Nat)
    (hasc : svc.nodesHashes.Pairwise (· < ·)) (hne : svc.nodesHashes ≠ [])
    (hfresh : hashStringToUint64 a ∉ svc.nodesHashes) :
    ownerToken svc.nodesHashes x =
        (if inRangeExclusive
            (addNodePredHash (addNodeRing hashStringToUint64 svc a) (hashStringToUint64 a))
            (hashStringToUint64 a) x = true then
          some (addNodeSuccHash (addNodeRing hashStringToUint64 svc a) (hashStringToUint64 a))
        else ownerToken (addNodeRing hashStringToUint64 svc a).nodesHashes x) ∧
      addNodeSuccHash (addNodeRing hashStringToUint64 svc a) (hashStringToUint64 a) ∈
        svc.nodesHashes := by
  obtain ⟨A, B, hsplit, hAB, hfirst⟩ :=
    sortSlice_split svc.nodesHashes (hashStringToUint64 a) hasc hfresh
  have hstrict := sortSlice_strict svc.nodesHashes (hashStringToUint64 a) hasc hfresh
  have hnodes : (addNodeRing hashStringToUint64 svc a).nodesHashes =
      sortSlice (svc.nodesHashes ++ [hashStringToUint64 a]) := rfl
  have hmem : hashStringToUint64 a ∈ (addNodeRing hashStringToUint64 svc a).nodesHashes := by
    rw [hnodes, hsplit]; simp
  have hasc2 : (A ++ hashStringToUint64 a :: B).Pairwise (· < ·) := by
    rw [← hsplit]; exact hstrict
  obtain ⟨hA, hB, _, _⟩ := pairwise_lt_split A B _ hasc2
  have hrem : ∀ y, ownerToken svc.nodesHashes y =
      (if inRangeExclusive
          (addNodePredHash (addNodeRing hashStringToUint64 svc a) (hashStringToUint64 a))
          (hashStringToUint64 a) y = true then
        some (addNodeSuccHash (addNodeRing hashStringToUint64 svc a) (hashStringToUint64 a))
      else ownerToken (addNodeRing hashStringToUint64 svc a).nodesHashes y) := by
    intro y
    have h1 := ownerToken_remove A B (hashStringToUint64 a) y hA hB (by rw [hAB]; exact hne)
    have h2 := ownerToken_new_iff_inRange (addNodeRing hashStringToUint64 svc a)
      (hashStringToUint64 a) y (by rw [hnodes]; exact hstrict) hmem
    have hsucc : addNodeSuccHash (addNodeRing hashStringToUint64 svc a) (hashStringToUint64 a) =
        (A ++ hashStringToUint64 a :: B).getD
          ((A.length + 1) % (A ++ hashStringToUint64 a :: B).length) 0 := by
      have hfirst2 := hfirst
      rw [hsplit] at hfirst2
      simp only [addNodeSuccHash, hnodes, hsplit, hfirst2, Option.getD_some]
    rw [hAB] at h1
    rw [h1, hsucc, ← hsplit, ← hnodes]
    by_cases hr : inRangeExclusive
        (addNodePredHash (addNodeRing hashStringToUint64 svc a) (hashStringToUint64 a))
        (hashStringToUint64 a) y = true
    · rw [if_pos hr, if_pos (h2.2 hr)]
    · rw [if_neg hr, if_neg (fun h => hr (h2.1 h))]
  refine ⟨hrem x, ?_⟩
  have hself := hrem (hashStringToUint64 a)
  rw [if_pos (inRangeExclusive_end _ _)] at hself
  exact ownerToken_mem _ _ _ hself

/-- C17: for a strictly ascending ring with at least one token and a new token
not in it, with `pred` and `succ` as `AddNode` computes them in the updated
ring: the owner of a key hash `x` before the insertion is `succ` when
`inRangeExclusive pred n x` holds and the owner in the updated ring otherwise;
`succ` is a token of the ring before the insertion, so it is not the new token. -/
theorem owner_before_insertion (hashStringToUint64 : String → Nat)
    (svc : NetworkVideoContentService) (a : String) (x : Nat)
    (hasc : svc.nodesHashes.Pairwise (· < ·)) (hne : svc.nodesHashes ≠ [])
    (hfresh : hashStringToUint64 a ∉ svc.nodesHashes) :
    svc.nodesHashes[ownerIndex svc.nodesHashes x]? =
        (if inRangeExclusive
            (addNodePredHash (addNodeRing hashStringToUint64 svc a) (hashStringToUint64 a))
            (hashStringToUint64 a) x = true then
          some (addNodeSuccHash (addNodeRing hashStringToUint64 svc a) (hashStringToUint64 a))
        else
          (addNodeRing hashStringToUint64 svc a).nodesHashes[
            ownerIndex (addNodeRing hashStringToUint64 svc a).nodesHashes x]?) ∧
      addNodeSuccHash (addNodeRing hashStringToUint64 svc a) (hashStringToUint64 a) ∈
        svc.nodesHashes ∧
      addNodeSuccHash (addNodeRing hashStringToUint64 svc a) (hashStringToUint64 a) ≠
        hashStringToUint64 a := by
  obtain ⟨h1, h2⟩ := ownerToken_before_insert hashStringToUint64 svc a x hasc hne hfresh
  have hstrict : (addNodeRing hashStringToUint64 svc a).nodesHashes.Pairwise (· < ·) :=
    sortSlice_strict svc.nodesHashes (hashStringToUint64 a) hasc hfresh
  refine ⟨?_, h2, fun h => hfresh (h ▸ h2)⟩
  rw [getElem?_ownerIndex _ _ hasc, getElem?_ownerIndex _ _ hstrict]
  exact h1

theorem owner_before_insertion_witness :
    ringAB.nodesHashes[ownerIndex ringAB.nodesHashes 120]? =
        (if inRangeExclusive
            (addNodePredHash (addNodeRing demoHash ringAB "c:1") (demoHash "c:1"))
            (demoHash "c:1") 120 = true then
          some (addNodeSuccHash (addNodeRing demoHash ringAB "c:1") (demoHash "c:1"))
        else
          (addNodeRing demoHash ringAB "c:1").nodesHashes[
            ownerIndex (addNodeRing demoHash ringAB "c:1").nodesHashes 120]?) ∧
      addNodeSuccHash (addNodeRing demoHash ringAB "c:1") (demoHash "c:1") ∈
        ringAB.nodesHashes ∧
      addNodeSuccHash (addNodeRing demoHash ringAB "c:1") (demoHash "c:1") ≠ demoHash "c:1" :=
  owner_before_insertion demoHash ringAB "c:1" 120 (by decide) (by decide) (by decide)

/-! ## `AddNode` when the successor cannot be listed -/

/-- Successor `AddNode` finds for a fresh token on a well-formed ring with at
least one node: an address of the ring, other than the new one, whose client
is in `nodes`. -/
theorem addNode_successor (hashStringToUint64 : String → Nat)
    (svc : NetworkVideoContentService) (a : String)
    (hwf : WellFormed hashStringToUint64 svc) (hne : svc.nodesHashes ≠ [])
    (hfresh : hashStringToUint64 a ∉ svc.nodesHashes) :
    addNodeSuccAddr (addNodeRing hashStringToUint64 svc a) (hashStringToUint64 a) ≠ a ∧
      (addNodeRing hashStringToUint64 svc a).nodesHashes.length ≠ 1 ∧
      ∃ client, mapGet? (addNodeRing hashStringToUint64 svc a).nodes
          (addNodeSuccAddr (addNodeRing hashStringToUint64 svc a) (hashStringToUint64 a)) =
            some client ∧
        client.target =
          addNodeSuccAddr (addNodeRing hashStringToUint64 svc a) (hashStringToUint64 a) := by
  obtain ⟨_, hsuccmem⟩ :=
    ownerToken_before_insert hashStringToUint64 svc a 0 hwf.1 hne hfresh
  obtain ⟨b, hb1, hb2⟩ := wellFormed_lookup hashStringToUint64 svc hwf _ hsuccmem
  have hsne : addNodeSuccHash (addNodeRing hashStringToUint64 svc a) (hashStringToUint64 a) ≠
      hashStringToUint64 a := fun h => hfresh (h ▸ hsuccmem)
  have haddr : addNodeSuccAddr (addNodeRing hashStringToUint64 svc a) (hashStringToUint64 a) =
      b := by
    unfold addNodeSuccAddr
    have : (addNodeRing hashStringToUint64 svc a).hashToNode =
        mapSet svc.hashToNode (hashStringToUint64 a) a := rfl
    rw [this, mapGet?_mapSet_ne _ _ _ _ hsne, hb1]
    rfl
  have hba : b ≠ a := by
    intro h
    rw [h] at hb2
    exact hsne hb2
  have hlen : (addNodeRing hashStringToUint64 svc a).nodesHashes.length ≠ 1 := by
    have hperm := (sortSlice_perm (svc.nodesHashes ++ [hashStringToUint64 a])).length_eq
    have hpos : 0 < svc.nodesHashes.length := List.length_pos.2 hne
    simp only [addNodeRing]
    rw [hperm, List.length_append, List.length_singleton]
    omega
  refine ⟨by rw [haddr]; exact hba, hlen, ?_⟩
  rw [haddr]
  have hsome := (hwf.2.2.1 _ (mem_of_mapGet? _ _ _ hb1)).2.2
  cases hcl : mapGet? svc.nodes b with
  | none => simp [hcl] at hsome
  | some client =>
    refine ⟨client, ?_, (hwf.2.2.2 _ (mem_of_mapGet? _ _ _ hcl)).1⟩
    have : (addNodeRing hashStringToUint64 svc a).nodes =
        mapSet svc.nodes a { target := a } := rfl
    rw [this, mapGet?_mapSet_ne _ _ _ _ hba]
    exact hcl

/-- C19: on a well-formed ring with at least one node, for an absent address
`a` with a fresh token whose dial succeeds, when `ListVideos` on the successor
fails `AddNode a` returns an error and migrates nothing, yet the ring after the
call holds `a` in all three structures, and every key whose hash lies in the
arc of `a` is routed to `a`. -/
theorem addNode_not_atomic (hashStringToUint64 : String → Nat)
    (filePath : String → String → Path) (F : Faults) (w : World) (a : String)
    (hwf : WellFormed hashStringToUint64 w.svc) (hne : w.svc.nodesHashes ≠ [])
    (habsent : mapGet? w.svc.nodes a = none)
    (hfresh : hashStringToUint64 a ∉ w.svc.nodesHashes)
    (hdial : F.dial a = false)
    (hfail : F.listVideos (addNodeSuccAddr (addNodeRing hashStringToUint64 w.svc a)
      (hashStringToUint64 a)) = true) :
    (AddNode hashStringToUint64 filePath F w a).result = Outcome.err Err.listVideosFailed ∧
      (AddNode hashStringToUint64 filePath F w a).world.servers = w.servers ∧
      (AddNode hashStringToUint64 filePath F w a).log = [] ∧
      hashStringToUint64 a ∈ (AddNode hashStringToUint64 filePath F w a).world.svc.nodesHashes ∧
      mapGet? (AddNode hashStringToUint64 filePath F w a).world.svc.hashToNode
        (hashStringToUint64 a) = some a ∧
      mapGet? (AddNode hashStringToUint64 filePath F w a).world.svc.nodes a =
        some { target := a } ∧
      ∀ k, inRangeExclusive
          (addNodePredHash (addNodeRing hashStringToUint64 w.svc a) (hashStringToUint64 a))
          (hashStringToUint64 a) (hashStringToUint64 k) = true →
        getClientForKey hashStringToUint64
          (AddNode hashStringToUint64 filePath F w a).world.svc k =
          Outcome.ok (some { target := a }, a) := by
  obtain ⟨hsa, hlen, client, hcl, htarget⟩ :=
    addNode_successor hashStringToUint64 w.svc a hwf hne hfresh
  have hguard : ¬ ((addNodeRing hashStringToUint64 w.svc a).nodesHashes.length = 1 ∨
      addNodeSuccAddr (addNodeRing hashStringToUint64 w.svc a) (hashStringToUint64 a) = a) := by
    intro h
    rcases h with h | h
    · exact hlen h
    · exact hsa h
  have hres : AddNode hashStringToUint64 filePath F w a =
      { world := { svc := addNodeRing hashStringToUint64 w.svc a, servers := w.servers },
        log := [], result := Outcome.err Err.listVideosFailed } := by
    unfold AddNode
    simp only [habsent, Option.isSome_none, Bool.false_eq_true, if_false, hdial, hguard, hcl,
      htarget, hfail, if_true]
  have hstrict : (addNodeRing hashStringToUint64 w.svc a).nodesHashes.Pairwise (· < ·) :=
    sortSlice_strict w.svc.nodesHashes (hashStringToUint64 a) hwf.1 hfresh
  have hmem : hashStringToUint64 a ∈ (addNodeRing hashStringToUint64 w.svc a).nodesHashes :=
    (sortSlice_perm _).mem_iff.2 (by simp)
  have hmap : mapGet? (addNodeRing hashStringToUint64 w.svc a).hashToNode
      (hashStringToUint64 a) = some a := mapGet?_mapSet_self _ _ _
  have hnode : mapGet? (addNodeRing hashStringToUint64 w.svc a).nodes a =
      some { target := a } := mapGet?_mapSet_self _ _ _
  rw [hres]
  refine ⟨rfl, rfl, rfl, hmem, hmap, hnode, ?_⟩
  intro k hk
  have hown := (ownerToken_new_iff_inRange (addNodeRing hashStringToUint64 w.svc a)
    (hashStringToUint64 a) (hashStringToUint64 k) hstrict hmem).2 hk
  rw [getClientForKey_eq hashStringToUint64 _ _ hstrict]
  simp only [hown, hmap, Option.getD_some, hnode]

theorem addNode_not_atomic_witness :
    (AddNode demoHash demoPath listVideosFails
          { svc := ringB, servers := fleetWithSeg [1] } "c:1").result =
        Outcome.err Err.listVideosFailed ∧
      (AddNode demoHash demoPath listVideosFails
          { svc := ringB, servers := fleetWithSeg [1] } "c:1").world.servers =
        fleetWithSeg [1] ∧
      (AddNode demoHash demoPath listVideosFails
          { svc := ringB, servers := fleetWithSeg [1] } "c:1").log = [] ∧
      demoHash "c:1" ∈ (AddNode demoHash demoPath listVideosFails
          { svc := ringB, servers := fleetWithSeg [1] } "c:1").world.svc.nodesHashes ∧
      mapGet? (AddNode demoHash demoPath listVideosFails
          { svc := ringB, servers := fleetWithSeg [1] } "c:1").world.svc.hashToNode
        (demoHash "c:1") = some "c:1" ∧
      mapGet? (AddNode demoHash demoPath listVideosFails
          { svc := ringB, servers := fleetWithSeg [1] } "c:1").world.svc.nodes "c:1" =
        some { target := "c:1" } ∧
      ∀ k, inRangeExclusive
          (addNodePredHash (addNodeRing demoHash ringB "c:1") (demoHash "c:1"))
          (demoHash "c:1") (demoHash k) = true →
        getClientForKey demoHash
          (AddNode demoHash demoPath listVideosFails
            { svc := ringB, servers := fleetWithSeg [1] } "c:1").world.svc k =
          Outcome.ok (some { target := "c:1" }, "c:1") :=
  addNode_not_atomic demoHash demoPath listVideosFails
    { svc := ringB, servers := fleetWithSeg [1] } "c:1" (by decide) (by decide) (by decide)
    (by decide) (by decide) (by decide)

/-! ## Ring well-formedness under `AddNode` and `RemoveNode` -/

theorem addNode_world_svc (hashStringToUint64 : String → Nat)
    (filePath : String → String → Path) (F : Faults) (w : World) (a : String) :
    (AddNode hashStringToUint64 filePath F w a).world.svc = w.svc ∨
      (AddNode hashStringToUint64 filePath F w a).world.svc =
        addNodeRing hashStringToUint64 w.svc a := by
  unfold AddNode
  by_cases h1 : (mapGet? w.svc.nodes a).isSome = true
  · simp [h1]
  · by_cases h2 : F.dial a = true
    · simp [h1, h2]
    · right
      simp only [h1, h2, Bool.false_eq_true, if_false]
      split
      · rfl
      · split
        · rfl
        · split <;> rfl

theorem removeNode_world_svc (hashStringToUint64 : String → Nat)
    (filePath : String → String → Path) (F : Faults) (w : World) (a : String) :
    (RemoveNode hashStringToUint64 filePath F w a).world.svc = w.svc ∨
      (w.svc.nodesHashes.length ≠ 1 ∧ (mapGet? w.svc.nodes a).isSome = true ∧
        (RemoveNode hashStringToUint64 filePath F w a).world.svc =
          removeNodeRing hashStringToUint64 w.svc a) := by
  unfold RemoveNode
  by_cases hlen : w.svc.nodesHashes.length = 1
  · simp [hlen]
  · simp only [hlen, if_false]
    cases hn : mapGet? w.svc.nodes a with
    | none => simp
    | some client =>
      simp only
      split
      · exact Or.inl rfl
      · split
        · exact Or.inl rfl
        · exact Or.inr ⟨fun h => hlen h, rfl, rfl⟩

theorem addNodeRing_invariant (hashStringToUint64 : String → Nat)
    (svc : NetworkVideoContentService) (a : String)
    (hagree : RingAgrees hashStringToUint64 svc) (hown : TokensOwnHash hashStringToUint64 svc)
    (hfresh : hashStringToUint64 a ∉ svc.nodesHashes) :
    RingAgrees hashStringToUint64 (addNodeRing hashStringToUint64 svc a) ∧
      TokensOwnHash hashStringToUint64 (addNodeRing hashStringToUint64 svc a) := by
  obtain ⟨h1, h2, h3, h4⟩ := hagree
  have hnone : mapGet? svc.hashToNode (hashStringToUint64 a) = none := by
    cases hg : mapGet? svc.hashToNode (hashStringToUint64 a) with
    | none => rfl
    | some b => exact absurd ((h2 _).1 (by simp [hg])) hfresh
  have hkey : ∀ t b, mapGet? svc.hashToNode t = some b → t ≠ hashStringToUint64 a := by
    intro t b htb h
    rw [h, hnone] at htb
    exact absurd htb (by simp)
  refine ⟨⟨sortSlice_strict _ _ h1 hfresh, ?_, ?_, ?_⟩, ?_⟩
  · intro t
    simp only [addNodeRing]
    by_cases ht : t = hashStringToUint64 a
    · subst ht
      simp only [mapGet?_mapSet_self, Option.isSome_some, true_iff]
      exact (sortSlice_perm _).mem_iff.2 (by simp)
    · rw [mapGet?_mapSet_ne _ _ _ _ ht, h2 t, (sortSlice_perm _).mem_iff]
      simp [ht]
  · intro b
    simp only [addNodeRing]
    by_cases hb : b = a
    · subst hb
      simp only [mapGet?_mapSet_self, Option.isSome_some, true_iff]
      exact ⟨hashStringToUint64 b, mapGet?_mapSet_self _ _ _⟩
    · rw [mapGet?_mapSet_ne _ _ _ _ hb, h3 b]
      constructor
      · rintro ⟨t, ht⟩
        exact ⟨t, by rw [mapGet?_mapSet_ne _ _ _ _ (hkey t b ht)]; exact ht⟩
      · rintro ⟨t, ht⟩
        by_cases htn : t = hashStringToUint64 a
        · rw [htn, mapGet?_mapSet_self] at ht
          exact absurd (Option.some.inj ht).symm hb
        · rw [mapGet?_mapSet_ne _ _ _ _ htn] at ht
          exact ⟨t, ht⟩
  · intro b hb
    simp only [addNodeRing] at hb ⊢
    by_cases hba : b = a
    · subst hba
      exact mapGet?_mapSet_self _ _ _
    · rw [mapGet?_mapSet_ne _ _ _ _ hba] at hb
      have := h4 b hb
      rw [mapGet?_mapSet_ne _ _ _ _ (hkey _ b this)]
      exact this
  · intro t b htb
    simp only [addNodeRing] at htb
    by_cases htn : t = hashStringToUint64 a
    · rw [htn, mapGet?_mapSet_self] at htb
      rw [htn, ← Option.some.inj htb]
    · rw [mapGet?_mapSet_ne _ _ _ _ htn] at htb
      exact hown t b htb

theorem removeNodeRing_invariant (hashStringToUint64 : String → Nat)
    (svc : NetworkVideoContentService) (a : String)
    (hagree : RingAgrees hashStringToUint64 svc) (hown : TokensOwnHash hashStringToUint64 svc)
    (hin : (mapGet? svc.nodes a).isSome = true) :
    RingAgrees hashStringToUint64 (removeNodeRing hashStringToUint64 svc a) ∧
      TokensOwnHash hashStringToUint64 (removeNodeRing hashStringToUint64 svc a) := by
  obtain ⟨h1, h2, h3, h4⟩ := hagree
  have hHa : mapGet? svc.hashToNode (hashStringToUint64 a) = some a := h4 a hin
  have hmem : hashStringToUint64 a ∈ svc.nodesHashes := (h2 _).1 (by simp [hHa])
  obtain ⟨i, hi, _, _⟩ := firstIndex_of_mem _ _ hmem
  obtain ⟨hsplit, _⟩ := firstIndex_split _ _ i hi
  have hasc2 : (svc.nodesHashes.take i ++
      hashStringToUint64 a :: svc.nodesHashes.drop (i + 1)).Pairwise (· < ·) := by
    rw [← hsplit]; exact h1
  obtain ⟨_, _, hAB, hnot⟩ := pairwise_lt_split _ _ _ hasc2
  have hring : (removeNodeRing hashStringToUint64 svc a).nodesHashes =
      svc.nodesHashes.take i ++ svc.nodesHashes.drop (i + 1) := by
    simp [removeNodeRing, hi]
  have hmem' : ∀ t, t ∈ svc.nodesHashes.take i ++ svc.nodesHashes.drop (i + 1) ↔
      t ∈ svc.nodesHashes ∧ t ≠ hashStringToUint64 a := by
    intro t
    constructor
    · intro ht
      refine ⟨?_, fun h => hnot (h ▸ ht)⟩
      rcases List.mem_append.1 ht with h | h
      · exact List.mem_of_mem_take h
      · exact List.mem_of_mem_drop h
    · rintro ⟨ht, hne⟩
      rw [hsplit] at ht
      rcases List.mem_append.1 ht with h | h
      · exact List.mem_append_left _ h
      · rcases List.mem_cons.1 h with h | h
        · exact absurd h hne
        · exact List.mem_append_right _ h
  have hmaps : (removeNodeRing hashStringToUint64 svc a).hashToNode =
      mapDelete svc.hashToNode (hashStringToUint64 a) := rfl
  have hnodes : (removeNodeRing hashStringToUint64 svc a).nodes = mapDelete svc.nodes a := rfl
  have hval : ∀ t b, mapGet? (mapDelete svc.hashToNode (hashStringToUint64 a)) t = some b ↔
      mapGet? svc.hashToNode t = some b ∧ b ≠ a := by
    intro t b
    by_cases htn : t = hashStringToUint64 a
    · subst htn
      rw [mapGet?_mapDelete_self, hHa]
      constructor
      · intro h
        exact absurd h (by simp)
      · rintro ⟨h, hne⟩
        exact absurd (Option.some.inj h).symm hne
    · rw [mapGet?_mapDelete_ne _ _ _ htn]
      constructor
      · intro h
        refine ⟨h, fun hba => htn ?_⟩
        rw [hba] at h
        exact hown t a h
      · exact fun h => h.1
  refine ⟨⟨by rw [hring]; exact hAB, ?_, ?_, ?_⟩, ?_⟩
  · intro t
    rw [hring, hmaps, hmem' t]
    by_cases htn : t = hashStringToUint64 a
    · subst htn
      simp [mapGet?_mapDelete_self]
    · rw [mapGet?_mapDelete_ne _ _ _ htn, h2 t]
      simp [htn]
  · intro b
    rw [hnodes, hmaps]
    by_cases hba : b = a
    · subst hba
      rw [mapGet?_mapDelete_self]
      simp only [Option.isSome_none, Bool.false_eq_true, false_iff, not_exists]
      intro t ht
      exact ((hval t b).1 ht).2 rfl
    · rw [mapGet?_mapDelete_ne _ _ _ hba, h3 b]
      constructor
      · rintro ⟨t, ht⟩
        exact ⟨t, (hval t b).2 ⟨ht, hba⟩⟩
      · rintro ⟨t, ht⟩
        exact ⟨t, ((hval t b).1 ht).1⟩
  · intro b hb
    rw [hnodes] at hb
    rw [hmaps]
    by_cases hba : b = a
    · subst hba
      rw [mapGet?_mapDelete_self] at hb
      simp at hb
    · rw [mapGet?_mapDelete_ne _ _ _ hba] at hb
      exact (hval _ b).2 ⟨h4 b hb, hba⟩
  · intro t b htb
    rw [hmaps] at htb
    exact hown t b ((hval t b).1 htb).1

theorem wellFormed_ringInvariant (hashStringToUint64 : String → Nat)
    (svc : NetworkVideoContentService) (hwf : WellFormed hashStringToUint64 svc) :
    RingAgrees hashStringToUint64 svc ∧ TokensOwnHash hashStringToUint64 svc := by
  obtain ⟨h1, h2, h3, h4⟩ := hwf
  refine ⟨⟨h1, ?_, ?_, ?_⟩, ?_⟩
  · intro t
    constructor
    · intro ht
      cases hg : mapGet? svc.hashToNode t with
      | none => simp [hg] at ht
      | some b => exact (h3 _ (mem_of_mapGet? _ _ _ hg)).1
    · exact h2 t
  · intro b
    constructor
    · intro hb
      cases hg : mapGet? svc.nodes b with
      | none => simp [hg] at hb
      | some client => exact ⟨_, (h4 _ (mem_of_mapGet? _ _ _ hg)).2⟩
    · rintro ⟨t, ht⟩
      exact (h3 _ (mem_of_mapGet? _ _ _ ht)).2.2
  · intro b hb
    cases hg : mapGet? svc.nodes b with
    | none => simp [hg] at hb
    | some client => exact (h4 _ (mem_of_mapGet? _ _ _ hg)).2
  · intro t b htb
    exact (h3 _ (mem_of_mapGet? _ _ _ htb)).2.1

/-! ## Rings the router reaches -/

theorem searchLoop_bounds (f : Nat → Bool) :
    ∀ fuel i j, i ≤ j → i ≤ searchLoop f fuel i j ∧ searchLoop f fuel i j ≤ j := by
  intro fuel
  induction fuel with
  | zero => intro i j h; exact ⟨Nat.le_refl _, h⟩
  | succ fuel ih =>
    intro i j h
    simp only [searchLoop]
    by_cases hlt : i < j
    · simp only [hlt, if_true]
      by_cases hf : f ((i + j) / 2) = true
      · simp only [hf, Bool.not_true, Bool.false_eq_true, if_false]
        obtain ⟨h1, h2⟩ := ih i ((i + j) / 2) (by omega)
        exact ⟨h1, by omega⟩
      · simp only [Bool.not_eq_true] at hf
        simp only [hf, Bool.not_false, if_true]
        obtain ⟨h1, h2⟩ := ih ((i + j) / 2 + 1) j (by omega)
        exact ⟨by omega, h2⟩
    · simp only [hlt, if_false]
      exact ⟨Nat.le_refl _, h⟩

theorem ownerIndex_lt (hashes : List Nat) (hash : Nat) (hne : hashes ≠ []) :
    ownerIndex hashes hash < hashes.length := by
  have hpos : 0 < hashes.length := List.length_pos.2 hne
  have hb := (searchLoop_bounds (fun i => decide (hashes.getD i 0 ≥ hash)) hashes.length 0
    hashes.length (Nat.zero_le _)).2
  unfold ownerIndex sortSearch
  simp only
  split
  · exact hpos
  · omega

/-- On a ring with at least one token `getClientForKey` does not index the
token list out of bounds: it returns the client stored for the address of the
owner, or nil, and that address. -/
theorem getClientForKey_returns (hashStringToUint64 : String → Nat)
    (n : NetworkVideoContentService) (key : String) (hne : n.nodesHashes ≠ []) :
    ∃ nodeHash, n.nodesHashes[ownerIndex n.nodesHashes (hashStringToUint64 key)]? =
        some nodeHash ∧
      getClientForKey hashStringToUint64 n key =
        Outcome.ok (mapGet? n.nodes ((mapGet? n.hashToNode nodeHash).getD ""),
          (mapGet? n.hashToNode nodeHash).getD "") := by
  have hlt := ownerIndex_lt n.nodesHashes (hashStringToUint64 key) hne
  refine ⟨n.nodesHashes[ownerIndex n.nodesHashes (hashStringToUint64 key)],
    List.getElem?_eq_getElem hlt, ?_⟩
  simp only [getClientForKey, List.getElem?_eq_getElem hlt]

theorem tokensOwnHash_set (hashStringToUint64 : String → Nat) (m : List (Nat × String))
    (a : String) (h : ∀ t b, mapGet? m t = some b → t = hashStringToUint64 b) :
    ∀ t b, mapGet? (mapSet m (hashStringToUint64 a) a) t = some b → t = hashStringToUint64 b := by
  intro t b htb
  by_cases ht : t = hashStringToUint64 a
  · subst ht
    rw [mapGet?_mapSet_self] at htb
    simp only [Option.some.injEq] at htb
    rw [htb]
  · rw [mapGet?_mapSet_ne _ _ _ _ ht] at htb
    exact h t b htb

theorem tokensOwnHash_delete (hashStringToUint64 : String → Nat) (m : List (Nat × String))
    (k : Nat) (h : ∀ t b, mapGet? m t = some b → t = hashStringToUint64 b) :
    ∀ t b, mapGet? (mapDelete m k) t = some b → t = hashStringToUint64 b := by
  intro t b htb
  by_cases ht : t = k
  · subst ht
    rw [mapGet?_mapDelete_self] at htb
    exact absurd htb (by simp)
  · rw [mapGet?_mapDelete_ne _ _ _ ht] at htb
    exact h t b htb

theorem newServiceLoop_inv (hashStringToUint64 : String → Nat) (dialFails : String → Bool) :
    ∀ (addresses : List String) (n svc : NetworkVideoContentService),
      newServiceLoop hashStringToUint64 dialFails addresses n = Outcome.ok svc →
      svc.nodesHashes.length = n.nodesHashes.length + addresses.length ∧
        (TokensOwnHash hashStringToUint64 n → TokensOwnHash hashStringToUint64 svc) := by
  intro addresses
  induction addresses with
  | nil =>
    intro n svc h
    simp only [newServiceLoop, Outcome.ok.injEq] at h
    subst h
    exact ⟨rfl, fun h => h⟩
  | cons addr rest ih =>
    intro n svc h
    simp only [newServiceLoop] at h
    split at h
    · exact absurd h (by simp)
    · obtain ⟨h1, h2⟩ := ih _ svc h
      refine ⟨?_, fun hown => h2 ?_⟩
      · rw [h1]
        simp only [List.length_append, List.length_singleton, List.length_cons, List.length_nil]
        omega
      · exact tokensOwnHash_set hashStringToUint64 n.hashToNode addr hown

/-- What holds of every ring the router reaches: the token list is not empty,
and every entry of `hashToNode` sits under the token of its address. -/
theorem ringReachable_inv (hashStringToUint64 : String → Nat)
    (filePath : String → String → Path) (svc : NetworkVideoContentService)
    (hreach : RingReachable hashStringToUint64 filePath svc) :
    svc.nodesHashes ≠ [] ∧ TokensOwnHash hashStringToUint64 svc := by
  induction hreach with
  | init dialFails addresses svc hne hnew =>
    unfold NewNetworkVideoContentService at hnew
    cases hloop : newServiceLoop hashStringToUint64 dialFails addresses
        { nodes := [], nodesHashes := [], hashToNode := [] } with
    | ok n =>
      simp only [hloop, Outcome.ok.injEq] at hnew
      obtain ⟨h1, h2⟩ := newServiceLoop_inv hashStringToUint64 dialFails addresses _ n hloop
      subst hnew
      constructor
      · intro hnil
        have hlen := (sortSlice_perm n.nodesHashes).length_eq
        simp only at hnil
        rw [hnil, h1] at hlen
        have hpos : 0 < addresses.length := List.length_pos.2 hne
        simp only [List.length_nil] at hlen
        omega
      · exact h2 (fun t b h => by simp [mapGet?] at h)
    | err e => simp [hloop] at hnew
    | crash => simp [hloop] at hnew
  | addNode F w a _ ih =>
    rcases addNode_world_svc hashStringToUint64 filePath F w a with h | h
    · rw [h]; exact ih
    · rw [h]
      constructor
      · intro hnil
        have hlen := (sortSlice_perm (w.svc.nodesHashes ++ [hashStringToUint64 a])).length_eq
        simp only [addNodeRing] at hnil
        rw [hnil] at hlen
        simp at hlen
      · exact tokensOwnHash_set hashStringToUint64 w.svc.hashToNode a ih.2
  | removeNode F w a _ ih =>
    rcases removeNode_world_svc hashStringToUint64 filePath F w a with h | ⟨hlen, _, h⟩
    · rw [h]; exact ih
    · rw [h]
      constructor
      · have hpos : 0 < w.svc.nodesHashes.length := List.length_pos.2 ih.1
        simp only [removeNodeRing]
        cases hi : firstIndex w.svc.nodesHashes (hashStringToUint64 a) with
        | none => exact ih.1
        | some i =>
          simp only
          intro hnil
          have hl := congrArg List.length hnil
          simp only [List.length_append, List.length_take, List.length_drop,
            List.length_nil] at hl
          omega
      · exact tokensOwnHash_delete hashStringToUint64 w.svc.hashToNode _ ih.2

/-- C18: on every ring the router reaches, if the tokens ascend strictly, the
keys of `hashToNode` are the tokens of the list, the keys of `nodes` are the
values of `hashToNode` and every address in `nodes` is the entry of its own
token, then the same holds after `AddNode` of an address whose token is fresh
and after `RemoveNode`, whatever the call returns. -/
theorem ring_wellFormed_preserved (hashStringToUint64 : String → Nat)
    (filePath : String → String → Path) (F : Faults) (w : World) (a : String)
    (hreach : RingReachable hashStringToUint64 filePath w.svc)
    (hagree : RingAgrees hashStringToUint64 w.svc) :
    (hashStringToUint64 a ∉ w.svc.nodesHashes →
        RingAgrees hashStringToUint64 (AddNode hashStringToUint64 filePath F w a).world.svc) ∧
      RingAgrees hashStringToUint64 (RemoveNode hashStringToUint64 filePath F w a).world.svc := by
  have hown := (ringReachable_inv hashStringToUint64 filePath w.svc hreach).2
  constructor
  · intro hfresh
    rcases addNode_world_svc hashStringToUint64 filePath F w a with h | h
    · rw [h]; exact hagree
    · rw [h]; exact (addNodeRing_invariant hashStringToUint64 w.svc a hagree hown hfresh).1
  · rcases removeNode_world_svc hashStringToUint64 filePath F w a with h | ⟨_, hin, h⟩
    · rw [h]; exact hagree
    · rw [h]; exact (removeNodeRing_invariant hashStringToUint64 w.svc a hagree hown hin).1

theorem ring_wellFormed_preserved_witness :
    (mapGet? ringAB.nodes "c:1" = none ∧
        (AddNode demoHash demoPath noFaults
          { svc := ringAB, servers := fleetWithSeg [1] } "c:1").result = Outcome.ok 1 ∧
        RingAgrees demoHash (AddNode demoHash demoPath noFaults
          { svc := ringAB, servers := fleetWithSeg [1] } "c:1").world.svc) ∧
      ((mapGet? ringAB.nodes "b:1").isSome = true ∧ 2 ≤ ringAB.nodes.length ∧
        (RemoveNode demoHash demoPath noFaults
          { svc := ringAB, servers := fleetWithSeg [1] } "b:1").result = Outcome.ok 1 ∧
        RingAgrees demoHash (RemoveNode demoHash demoPath noFaults
          { svc := ringAB, servers := fleetWithSeg [1] } "b:1").world.svc) :=
  ⟨⟨by decide, by decide,
      (ring_wellFormed_preserved demoHash demoPath noFaults
        { svc := ringAB, servers := fleetWithSeg [1] } "c:1"
        (RingReachable.init (fun _ => false) ["a:1", "b:1"] ringAB (by decide) (by decide))
        (wellFormed_ringInvariant demoHash ringAB (by decide)).1).1 (by decide)⟩,
    ⟨by decide, by decide, by decide,
      (ring_wellFormed_preserved demoHash demoPath noFaults
        { svc := ringAB, servers := fleetWithSeg [1] } "b:1"
        (RingReachable.init (fun _ => false) ["a:1", "b:1"] ringAB (by decide) (by decide))
        (wellFormed_ringInvariant demoHash ringAB (by decide)).1).2⟩⟩

/-! ## Routing on a ring without nodes -/

/-- C4 as stated fails: the constructor called with the address `a:1` twice
builds a ring of one node and two tokens, `RemoveNode` of that node succeeds and
leaves a ring without nodes, and there `Read` and `Write` of a name that is not
`.mp4` end in a panic on the nil client, not in an error value. -/
theorem read_write_abort_without_nodes :
    NewNetworkVideoContentService demoHash (fun _ => false) ["a:1", "a:1"] = Outcome.ok ringAA ∧
      (RemoveNode demoHash demoPath noFaults
        { svc := ringAA, servers := emptyFleet } "a:1").result = Outcome.ok 0 ∧
      (RemoveNode demoHash demoPath noFaults
        { svc := ringAA, servers := emptyFleet } "a:1").world.svc =
          { nodes := [], nodesHashes := [100], hashToNode := [] } ∧
      getClientForKey demoHash (RemoveNode demoHash demoPath noFaults
        { svc := ringAA, servers := emptyFleet } "a:1").world.svc ("v" ++ "/" ++ "seg") =
          Outcome.ok (none, "") ∧
      Read demoHash demoPath (RemoveNode demoHash demoPath noFaults
        { svc := ringAA, servers := emptyFleet } "a:1").world false "v" "seg" = Outcome.crash ∧
      (Write demoHash demoPath (RemoveNode demoHash demoPath noFaults
        { svc := ringAA, servers := emptyFleet } "a:1").world StreamFault.none "v" "seg" [1]).2 =
          Outcome.crash := by
  decide

/-- C4, amended: on every ring the router reaches the token list is not empty,
so `getClientForKey` never indexes it out of bounds and returns a client, or
nil, with an address and no error; and when the ring has no nodes `Read` ends
in a panic on the nil client, and so does `Write` unless the name ends in
`.mp4`: no error value is returned. -/
theorem routing_on_reachable_ring (hashStringToUint64 : String → Nat)
    (filePath : String → String → Path) (w : World)
    (hreach : RingReachable hashStringToUint64 filePath w.svc)
    (downloadFails : Bool) (fault : StreamFault) (videoId filename : String) (data : Bytes) :
    w.svc.nodesHashes ≠ [] ∧
      (∃ client addr, getClientForKey hashStringToUint64 w.svc (videoId ++ "/" ++ filename) =
        Outcome.ok (client, addr)) ∧
      (w.svc.nodes = [] →
        Read hashStringToUint64 filePath w downloadFails videoId filename = Outcome.crash ∧
        (Write hashStringToUint64 filePath w fault videoId filename data).2 =
          if hasSuffix filename ".mp4" then Outcome.ok () else Outcome.crash) := by
  have hne := (ringReachable_inv hashStringToUint64 filePath w.svc hreach).1
  obtain ⟨nodeHash, _, hget⟩ := getClientForKey_returns hashStringToUint64 w.svc
    (videoId ++ "/" ++ filename) hne
  refine ⟨hne, ⟨_, _, hget⟩, ?_⟩
  intro hnodes
  have hnil : mapGet? w.svc.nodes ((mapGet? w.svc.hashToNode nodeHash).getD "") = none := by
    rw [hnodes]
    rfl
  rw [hnil] at hget
  constructor
  · simp only [Read, hget]
  · unfold Write
    by_cases hs : hasSuffix filename ".mp4" = true
    · simp [hs]
    · simp only [hs, hget]
      simp

theorem routing_on_reachable_ring_witness :
    (RemoveNode demoHash demoPath noFaults
        { svc := ringAA, servers := emptyFleet } "a:1").world.svc.nodesHashes ≠ [] ∧
      (∃ client addr, getClientForKey demoHash (RemoveNode demoHash demoPath noFaults
          { svc := ringAA, servers := emptyFleet } "a:1").world.svc ("v" ++ "/" ++ "seg") =
        Outcome.ok (client, addr)) ∧
      Read demoHash demoPath (RemoveNode demoHash demoPath noFaults
        { svc := ringAA, servers := emptyFleet } "a:1").world false "v" "seg" = Outcome.crash ∧
      (Write demoHash demoPath (RemoveNode demoHash demoPath noFaults
        { svc := ringAA, servers := emptyFleet } "a:1").world StreamFault.none "v" "seg" [1]).2 =
          if hasSuffix "seg" ".mp4" then Outcome.ok () else Outcome.crash :=
  ⟨(routing_on_reachable_ring demoHash demoPath _
      (RingReachable.removeNode noFaults { svc := ringAA, servers := emptyFleet } "a:1"
        (RingReachable.init (fun _ => false) ["a:1", "a:1"] ringAA (by decide) (by decide)))
      false StreamFault.none "v" "seg" [1]).1,
    (routing_on_reachable_ring demoHash demoPath _
      (RingReachable.removeNode noFaults { svc := ringAA, servers := emptyFleet } "a:1"
        (RingReachable.init (fun _ => false) ["a:1", "a:1"] ringAA (by decide) (by decide)))
      false StreamFault.none "v" "seg" [1]).2.1,
    (routing_on_reachable_ring demoHash demoPath _
      (RingReachable.removeNode noFaults { svc := ringAA, servers := emptyFleet } "a:1"
        (RingReachable.init (fun _ => false) ["a:1", "a:1"] ringAA (by decide) (by decide)))
      false StreamFault.none "v" "seg" [1]).2.2 (by decide)⟩

/-! ## The early returns of `AddNode` and `RemoveNode` -/

theorem wellFormed_one_node (hashStringToUint64 : String → Nat)
    (svc : NetworkVideoContentService) (hwf : WellFormed hashStringToUint64 svc)
    (hone : svc.nodes.length = 1) : svc.nodesHashes.length = 1 := by
  obtain ⟨h1, h2, h3, h4⟩ := hwf
  obtain ⟨q, hq⟩ := List.length_eq_one.1 hone
  have hnode : ∀ x, (mapGet? svc.nodes x).isSome = true → x = q.1 := by
    intro x hx
    rw [hq] at hx
    obtain ⟨k, c⟩ := q
    by_cases hk : k = x
    · exact hk.symm
    · simp [mapGet?, hk] at hx
  have hall : ∀ t ∈ svc.nodesHashes, t = hashStringToUint64 q.1 := by
    intro t ht
    obtain ⟨x, hx⟩ := Option.isSome_iff_exists.1 (h2 t ht)
    obtain ⟨_, h5, h6⟩ := h3 _ (mem_of_mapGet? _ _ _ hx)
    simp only at h5 h6
    rw [h5, hnode x h6]
  have hmem : hashStringToUint64 q.1 ∈ svc.nodesHashes := by
    have hqm : q ∈ svc.nodes := by rw [hq]; exact List.mem_singleton_self _
    exact (h3 _ (mem_of_mapGet? _ _ _ (h4 q hqm).2)).1
  cases hl : svc.nodesHashes with
  | nil => rw [hl] at hmem; exact absurd hmem (List.not_mem_nil _)
  | cons x rest =>
    cases rest with
    | nil => rfl
    | cons y rest2 =>
      rw [hl] at h1 hall
      have hx := hall x (by simp)
      have hy := hall y (by simp)
      have hlt : x < y := (List.pairwise_cons.1 h1).1 y (by simp)
      omega

/-- C6 as stated fails: the ring the constructor builds from the address `a:1`
given twice has exactly one node, and `RemoveNode` of that node returns success
and changes the ring: the node is gone and one of its two tokens stays. -/
theorem removeNode_last_node_accepted :
    NewNetworkVideoContentService demoHash (fun _ => false) ["a:1", "a:1"] = Outcome.ok ringAA ∧
      mapKeys ringAA.nodes = ["a:1"] ∧
      (RemoveNode demoHash demoPath noFaults
        { svc := ringAA, servers := emptyFleet } "a:1").result = Outcome.ok 0 ∧
      (RemoveNode demoHash demoPath noFaults
        { svc := ringAA, servers := emptyFleet } "a:1").world.svc =
          { nodes := [], nodesHashes := [100], hashToNode := [] } ∧
      (RemoveNode demoHash demoPath noFaults
        { svc := ringAA, servers := emptyFleet } "a:1").world.svc ≠ ringAA := by
  decide

/-- C6, amended: `AddNode` of an address already in the ring, `RemoveNode` on a
ring whose token list holds exactly one token, which a well-formed ring of
exactly one node is, and `RemoveNode` of an absent address each return an error
and leave the ring (and the fleet) as it was. -/
theorem admin_errors_leave_ring_untouched (hashStringToUint64 : String → Nat)
    (filePath : String → String → Path) (F : Faults) (w : World) (a : String) :
    ((mapGet? w.svc.nodes a).isSome = true →
        (AddNode hashStringToUint64 filePath F w a).result = Outcome.err Err.nodeAlreadyExists ∧
        (AddNode hashStringToUint64 filePath F w a).world = w) ∧
      (w.svc.nodesHashes.length = 1 ∨
          (WellFormed hashStringToUint64 w.svc ∧ w.svc.nodes.length = 1) →
        (RemoveNode hashStringToUint64 filePath F w a).result = Outcome.err Err.atLeastOne ∧
        (RemoveNode hashStringToUint64 filePath F w a).world = w) ∧
      (mapGet? w.svc.nodes a = none →
        (∃ e, (RemoveNode hashStringToUint64 filePath F w a).result = Outcome.err e) ∧
        (RemoveNode hashStringToUint64 filePath F w a).world = w) := by
  refine ⟨?_, ?_, ?_⟩
  · intro h
    simp [AddNode, h]
  · intro h
    have hlen : w.svc.nodesHashes.length = 1 := by
      rcases h with h | ⟨hwf, hone⟩
      · exact h
      · exact wellFormed_one_node hashStringToUint64 w.svc hwf hone
    simp [RemoveNode, hlen]
  · intro h
    by_cases hlen : w.svc.nodesHashes.length = 1
    · simp [RemoveNode, hlen]
    · simp [RemoveNode, hlen, h]

theorem admin_errors_leave_ring_untouched_witness :
    ((AddNode demoHash demoPath noFaults { svc := ringAB, servers := emptyFleet } "a:1").result =
          Outcome.err Err.nodeAlreadyExists ∧
        (AddNode demoHash demoPath noFaults { svc := ringAB, servers := emptyFleet } "a:1").world.svc =
          ringAB) ∧
      ((RemoveNode demoHash demoPath noFaults { svc := ringB, servers := emptyFleet } "b:1").result =
          Outcome.err Err.atLeastOne ∧
        (RemoveNode demoHash demoPath noFaults { svc := ringB, servers := emptyFleet } "b:1").world.svc =
          ringB) ∧
      ((∃ e, (RemoveNode demoHash demoPath noFaults { svc := ringAB, servers := emptyFleet }
          "c:1").result = Outcome.err e) ∧
        (RemoveNode demoHash demoPath noFaults { svc := ringAB, servers := emptyFleet } "c:1").world.svc =
          ringAB) := by
  refine ⟨?_, ?_, ?_⟩
  · have h := (admin_errors_leave_ring_untouched demoHash demoPath noFaults
      { svc := ringAB, servers := emptyFleet } "a:1").1 (by decide)
    exact ⟨h.1, by rw [h.2]⟩
  · have h := (admin_errors_leave_ring_untouched demoHash demoPath noFaults
      { svc := ringB, servers := emptyFleet } "b:1").2.1 (Or.inr ⟨by decide, by decide⟩)
    exact ⟨h.1, by rw [h.2]⟩
  · have h := (admin_errors_leave_ring_untouched demoHash demoPath noFaults
      { svc := ringAB, servers := emptyFleet } "c:1").2.2 (by decide)
    exact ⟨h.1, by rw [h.2]⟩

end DVS
